import Mathlib

/-!
# Verification of the shenzhen-go graph core (`dev/model/graph.go`)

A shallow embedding of the graph data model, the pin/channel bookkeeping
operations (`RefreshChannelsPins`, `DeleteChannel`, `DeleteNode`) and the
type-inference pass (`InferTypes`, `inferChannelType`, `applyTypeParams`)
of `dev/model/graph.go`, together with theorems settling the frozen claims.

Modelling conventions:
* Go maps (`map[string]*Node`, `map[string]*Channel`, `map[string]string`,
  `map[NodePin]struct{}`) are embedded as association lists with set/update
  helpers; Go map iteration order is fixed to list order.  The well-formedness
  facts the Go code maintains elsewhere (keys are unique, each node/channel
  caches its own name — established by `LoadJSON`) appear as explicit
  hypotheses where a theorem needs them.
* In-place mutation through pointers becomes explicit state passing: every
  operation takes and returns a `Graph`.
* A Go `panic` (nil-map/nil-pointer dereference, the explicit
  `panic("node ... should exist")` in `DeleteChannel`) is embedded as `none`
  in an `Option`-returning operation.
* The package `dev/source` (type expressions, `TypeInferenceMap`,
  `Infer`/`Refine`/`Lithify`) is not part of the given sources; it is
  modelled from the spec (see the individual doc comments).
-/

namespace Spec2Proof

/-- Modelled from the spec: a type expression is "either a concrete type
name, or an expression containing zero or more free identifiers scoped to a
specific node"; we embed the two essential forms, a concrete type name and a
single free type-parameter identifier scoped to a node
(`source.Type` in the missing `dev/source` package). -/
inductive SType where
  | base (name : String)
  | param (scope : String) (ident : String)
deriving DecidableEq, Repr

/-- A scoped type-parameter identifier: (node scope, identifier). -/
abbrev Ident := String × String

/-- Modelled from the spec: the inference map records, per scoped
identifier, the binding learned so far (`source.TypeInferenceMap`). -/
abbrev TIMap := List (Ident × SType)

/-- `interface{}` — the universal top type every parameter still free after
the fixpoint is forced to (`typeEmptyInterface` in graph.go). -/
def tyInterface : SType := .base "interface\x7b\x7d"

/-- Substitute the bindings of `m` into a type expression. -/
def resolve (m : TIMap) : SType → SType
  | .base s => .base s
  | .param sc i =>
    match m.lookup (sc, i) with
    | some v => v
    | none => .param sc i

/-- Record a new binding, substituting it into the existing bindings so that
stored values stay fully resolved. -/
def bindParam (m : TIMap) (k : Ident) (v : SType) : TIMap :=
  (k, v) :: m.map (fun e => (e.1, if e.2 = SType.param k.1 k.2 then v else e.2))

/-- Modelled from the spec: unification of two type expressions
(`TypeInferenceMap.Infer`) — "bind any free identifier on either side to a
concrete sub-expression or to the other side's identifier.  A conflict
between two concrete, incompatible type names aborts the entire pass with a
type-incompatibility error". -/
def inferTI (m : TIMap) (t u : SType) : Except String TIMap :=
  if resolve m t = resolve m u then .ok m
  else
    match resolve m t, resolve m u with
    | .param sc i, _ => .ok (bindParam m (sc, i) (resolve m u))
    | _, .param sc i => .ok (bindParam m (sc, i) (resolve m t))
    | .base a, .base b => .error ("incompatible types " ++ a ++ " and " ++ b)

/-- Modelled from the spec: lithification — "force every Channel's type and
every Node pin's type that still contains a free identifier to the
universal/default top type" (`Type.Lithify`). -/
def lithify : SType → SType
  | .base s => .base s
  | .param _ _ => tyInterface

/-- Rendering of a type expression (`Type.String()`), used when publishing
resolved bindings. -/
def sTypeString : SType → String
  | .base s => s
  | .param sc i => "$" ++ sc ++ "." ++ i

/-- Does a type expression contain a type-parameter identifier? -/
def hasParam : SType → Bool
  | .base _ => false
  | .param _ _ => true

/-- The shape `bindParam` maintains in the inference map: unique keys,
stored values fully resolved, and no identifier bound to itself. -/
def TIWF (m : TIMap) : Prop :=
  ((m.map Prod.fst).Nodup) ∧ (∀ e ∈ m, resolve m e.2 = e.2) ∧
  (∀ e ∈ m, e.2 ≠ SType.param e.1.1 e.1.2)

/-- Whether an `Except` value is a success. -/
def exceptOk {ε α : Type} : Except ε α → Bool
  | .ok _ => true
  | .error _ => false

/-! ## Association-list helpers (embedding of Go map update/insert) -/

/-- Update the value stored at key `k` (no effect if the key is absent). -/
def updA {α : Type} (k : String) (f : α → α) : List (String × α) → List (String × α) :=
  List.map (fun e => if e.1 = k then (e.1, f e.2) else e)

/-- Go map assignment `m[k] = v`: overwrite if present, append if absent. -/
def setA {α : Type} (k : String) (v : α) (l : List (String × α)) : List (String × α) :=
  if (l.lookup k).isSome then updA k (fun _ => v) l else l ++ [(k, v)]

/-- Add a string to a set-like list (embedding of `StringSet.Add` /
`map[*Channel]struct{}` insertion). -/
def addUnique (s : String) (l : List String) : List String :=
  if s ∈ l then l else l ++ [s]

/-! ## Data model -/

/-- A (node name, pin name) pair — `model.NodePin`. -/
structure NodePin where
  node : String
  pin : String
deriving DecidableEq, Repr

/-- Modelled from the spec: the declared type of a pin exposed by a Part —
a fixed concrete type name or a free type-parameter identifier, which
`source.NewType(n.Name, p.Type)` scopes to the instantiating node. -/
inductive PDecl where
  | base (name : String)
  | param (ident : String)
deriving DecidableEq, Repr

/-- `model.Node` (the fields the graph core reads): its cached name, the
pin declarations exposed by its Part (`n.Pins()`), the connection map
(pin name → channel name or the sentinel `"nil"`), and the two derived
fields `pinTypes` and `typeParams` rebuilt by each inference pass. -/
structure Node where
  name : String
  partPins : List (String × PDecl)
  connections : List (String × String)
  pinTypes : List (String × SType)
  typeParams : List (String × String)
deriving DecidableEq, Repr

/-- `model.Channel`: cached name, capacity, the derived pin cache
(`Pins map[NodePin]struct{}`) and the derived resolved type
(`Type *source.Type`, `none` = unset). -/
structure Channel where
  name : String
  cap : Nat
  pins : List NodePin
  type : Option SType
deriving DecidableEq, Repr

/-- `model.Graph`: registries of nodes and channels plus the transient
inference map `types`. -/
structure Graph where
  name : String
  nodes : List (String × Node)
  channels : List (String × Channel)
  types : TIMap
deriving DecidableEq, Repr

/-- Modelled from the spec: `Channel.AddPin` adds a (node, pin) pair to the
channel's pin cache (a set, so adding an existing member is a no-op). -/
def Channel.AddPin (c : Channel) (node pin : String) : Channel :=
  if (⟨node, pin⟩ : NodePin) ∈ c.pins then c
  else { c with pins := c.pins ++ [⟨node, pin⟩] }

/-- Modelled from the spec: `Channel.RemovePin` removes a (node, pin) pair
from the channel's pin cache. -/
def Channel.RemovePin (c : Channel) (node pin : String) : Channel :=
  { c with pins := c.pins.filter (fun np => np ≠ ⟨node, pin⟩) }

/-! ## Deletion (graph.go `DeleteChannel`, `DeleteNode`) -/

/-- One step of `DeleteChannel`'s loop: `n := g.Nodes[np.Node]; if n == nil
{ panic(...) }; n.Connections[np.Pin] = "nil"`. -/
def Graph.resetPinConn (g : Graph) (np : NodePin) : Option Graph :=
  match g.nodes.lookup np.node with
  | none => none
  | some _ =>
    some { g with
      nodes := updA np.node
        (fun n => { n with connections := setA np.pin "nil" n.connections }) g.nodes }

/-- `Graph.DeleteChannel`: reset the connection entry of every wired pin to
the `"nil"` sentinel (a missing node is a fatal contract violation), then
remove the channel from the registry. -/
def Graph.DeleteChannel (g : Graph) (ch : Channel) : Option Graph := do
  let g1 ← ch.pins.foldlM Graph.resetPinConn g
  pure { g1 with channels := g1.channels.filter (fun e => e.1 ≠ ch.name) }

/-- One iteration of `DeleteNode`'s disconnect loop, for the node named
`nname`: skip the `"nil"` sentinel and connection entries naming channels
absent from the registry; otherwise remove the pin from the channel's cache
and, when `cleanupChans` is set and the cache dropped below 2, collect the
channel for deletion. -/
def deleteNodeStep (nname : String) (cleanupChans : Bool)
    (acc : Graph × List String) (pc : String × String) : Graph × List String :=
  if pc.2 = "nil" then acc
  else
    match acc.1.channels.lookup pc.2 with
    | none => acc
    | some ch =>
      let ch2 := ch.RemovePin nname pc.1
      let g2 := { acc.1 with channels := updA pc.2 (fun _ => ch2) acc.1.channels }
      if cleanupChans ∧ ch2.pins.length < 2 then (g2, acc.2 ++ [pc.2])
      else (g2, acc.2)

/-- One iteration of `DeleteNode`'s final deletion loop: delete a collected
channel, skipping a name already gone from the registry (a duplicate
collection; in Go the second `DeleteChannel` on the same object re-runs the
same, by then idempotent, resets and map deletion). -/
def deleteNodeFlush (gacc : Graph) (cn : String) : Option Graph :=
  match gacc.channels.lookup cn with
  | none => some gacc
  | some ch => gacc.DeleteChannel ch

/-- `Graph.DeleteNode`: first disconnect all the node's pins, collecting
channels that dropped below 2 pins when `cleanupChans` is set; then remove
the node; then delete the collected channels. -/
def Graph.DeleteNode (g : Graph) (n : Node) (cleanupChans : Bool) : Option Graph :=
  let r := n.connections.foldl (deleteNodeStep n.name cleanupChans) (g, [])
  let g2 := { r.1 with nodes := r.1.nodes.filter (fun e => e.1 ≠ n.name) }
  r.2.foldlM deleteNodeFlush g2

/-! ## Pin-cache rebuild (graph.go `RefreshChannelsPins`) -/

/-- One connection entry of the rebuild loop, for the node named `nname`:
`ch := g.Channels[co]; if ch == nil { continue }; ch.AddPin(n.Name, p)`. -/
def rebuildConnStep (nname : String) (gacc2 : Graph) (pc : String × String) : Graph :=
  match gacc2.channels.lookup pc.2 with
  | none => gacc2
  | some _ =>
    { gacc2 with channels := updA pc.2 (fun ch => ch.AddPin nname pc.1) gacc2.channels }

/-- One node of the rebuild loop. -/
def rebuildNodeStep (gacc : Graph) (kn : String × Node) : Graph :=
  kn.2.connections.foldl (rebuildConnStep kn.2.name) gacc

/-- The first two phases of `RefreshChannelsPins`: reset every channel's pin
cache, then walk every node's connection map and re-add the pins whose
entry names an existing channel. -/
def Graph.rebuildPins (g : Graph) : Graph :=
  let reset := { g with
    channels := g.channels.map (fun (e : String × Channel) => (e.1, { e.2 with pins := ([] : List NodePin) })) }
  reset.nodes.foldl rebuildNodeStep reset

/-- One channel of the pruning loop of `RefreshChannelsPins` (re-reading the
registry, since the Go loop ranges over the map while deleting). -/
def pruneStep (gacc : Graph) (kc : String × Channel) : Option Graph :=
  match gacc.channels.lookup kc.1 with
  | none => some gacc
  | some ch => if ch.pins.length < 2 then gacc.DeleteChannel ch else some gacc

/-- The final phase of `RefreshChannelsPins`: delete every channel whose
rebuilt pin cache holds fewer than two pins. -/
def Graph.pruneChannels (g : Graph) : Option Graph :=
  g.channels.foldlM pruneStep g

/-- `Graph.RefreshChannelsPins`. -/
def Graph.RefreshChannelsPins (g : Graph) : Option Graph :=
  g.rebuildPins.pruneChannels

/-! ## Type inference (graph.go `InferTypes` and helpers) -/

/-- Modelled from the spec: `source.NewType(n.Name, p.Type)` instantiates a
pin's declared type with its free identifier scoped to the node. -/
def instantiateDecl (scope : String) : PDecl → SType
  | .base s => .base s
  | .param i => .param scope i

/-- The setup phase of `InferTypes`: fresh inference map, every node's pin
types re-instantiated from the part's declarations scoped to that node,
every channel's resolved type reset to unset. -/
def Graph.inferSetup (g : Graph) : Graph :=
  { g with
    nodes := g.nodes.map (fun (kn : String × Node) =>
      (kn.1, { kn.2 with
        pinTypes := kn.2.partPins.map (fun pd => (pd.1, instantiateDecl kn.2.name pd.2)) })),
    channels := g.channels.map (fun (kc : String × Channel) =>
      (kc.1, { kc.2 with type := (none : Option SType) })),
    types := [] }

/-- One pin of `applyTypeParams`'s loop: refine the pin's type with the
current bindings; on an actual change, record the new type and (unless the
pin's connection entry is missing — Go `""` — or the `"nil"` sentinel)
collect the wired channel's name.  `conns` is the owning node's connection
map, which the loop only reads. -/
def applyTPCollect (conns : List (String × String)) (p : String) (l : List String) :
    List String :=
  match conns.lookup p with
  | none => l
  | some cn => if cn = "nil" then l else addUnique cn l

def applyTPStep (conns : List (String × String)) (m : TIMap)
    (acc : Node × List String) (pt : String × SType) : Node × List String :=
  if resolve m pt.2 = pt.2 then acc
  else
    ({ acc.1 with pinTypes := updA pt.1 (fun _ => resolve m pt.2) acc.1.pinTypes },
     applyTPCollect conns pt.1 acc.2)

/-- `Node.applyTypeParams`: refine every pin type of the node with the
current bindings, collecting the names of channels wired to pins whose
type actually changed. -/
def Node.applyTypeParams (n : Node) (m : TIMap) : Node × List String :=
  n.pinTypes.foldl (applyTPStep n.connections m) (n, [])

/-- The body of `inferChannelType`'s loop for a single wired pin `np` of the
channel registered under `cn`.  Faithful points worth noting against the
Go source (graph.go lines 239-276):
* if the channel has no type yet it adopts the pin's current type *verbatim*
  — including an absent (`nil`) pin type, in which case the channel's type
  stays unset — and the channel itself is pushed for revisiting;
* the error value of `g.types.Infer(c.Type, ptype)` is dropped: the `err`
  checked directly afterwards is the function's named return, which is still
  `nil` at that point, so a unification conflict does not abort the pass;
* `c.Type.Refine(g.types)` becomes substitution of the updated bindings into
  the channel's type (in Go the adopted type is shared with the pin's type
  object; the shared object is refined again when the channel is revisited,
  so the value embedding reaches the same resolved values);
* a pin whose node is missing from the registry, or whose pin type is absent
  while the channel already has a type, would make the Go code dereference a
  nil pointer; both are unreachable for refreshed graphs whose connections
  match the part's pins, and are embedded as a skip. -/
def inferPinApply (g : Graph) (c : Channel) (n : Node) (cn : String) (np : NodePin)
    (ct : SType) (m : TIMap) : Graph × List String :=
  ({ g with
      types := m,
      channels := updA cn (fun _ => { c with type := some (resolve m ct) }) g.channels,
      nodes := updA np.node (fun _ => (n.applyTypeParams m).1) g.nodes },
   (n.applyTypeParams m).2)

def inferPinCommit (g : Graph) (c : Channel) (n : Node) (cn : String) (np : NodePin)
    (ct pt : SType) : Graph × List String :=
  inferPinApply g c n cn np ct
    (match inferTI g.types ct pt with
      | .ok m => m
      | .error _ => g.types)

/-- The dispatch part of the pin step: skip unregistered channels and nodes,
adopt the pin's (possibly absent) type verbatim when the channel has none
yet, skip an absent pin type otherwise, and defer to `inferPinCommit` for
the unification case. -/
def Graph.inferPinStep (g : Graph) (cn : String) (np : NodePin) : Graph × List String :=
  match g.channels.lookup cn with
  | none => (g, [])
  | some c =>
    match g.nodes.lookup np.node with
    | none => (g, [])
    | some n =>
      match c.type with
      | none =>
        ({ g with channels := updA cn (fun c0 => { c0 with type := n.pinTypes.lookup np.pin }) g.channels }, [cn])
      | some ct =>
        match n.pinTypes.lookup np.pin with
        | none => (g, [])
        | some pt => inferPinCommit g c n cn np ct pt

/-- One pin of `inferChannelType`'s loop, merging the pin step's suggested
channels into the accumulated `next` set. -/
def inferChanStep (cn : String) (acc : Graph × List String) (np : NodePin) :
    Graph × List String :=
  let r := acc.1.inferPinStep cn np
  (r.1, r.2.foldl (fun l s => addUnique s l) acc.2)

/-- `Graph.inferChannelType`: process every pin wired to `c`, accumulating
the set of channels that might be inferrable as a result. -/
def Graph.inferChannelType (g : Graph) (c : Channel) : Graph × List String :=
  c.pins.foldl (inferChanStep c.name) (g, [])

/-- The flood-fill worklist loop of `InferTypes`, with explicit fuel (the Go
loop has no built-in bound; `inferFuel` below supplies a generous one).
A popped name no longer in the registry is a no-op (in Go a `nil` channel key
can enter the worklist through a dangling connection name; iterating its
`nil` pin map does nothing). -/
def floodFillN (fuel : Nat) (g : Graph) (q : List String) : Option Graph :=
  match fuel, q with
  | _, [] => some g
  | 0, _ :: _ => none
  | fuel2 + 1, cn :: q2 =>
    match g.channels.lookup cn with
    | none => floodFillN fuel2 g q2
    | some c =>
      let r := g.inferChannelType c
      floodFillN fuel2 r.1 (q2 ++ r.2)

/-- One binding of the publication loop at the end of `InferTypes`:
`g.Nodes[tp.Scope].typeParams[tp.Ident] = typ.String()`. -/
def publishStep (ns : List (String × Node)) (e : Ident × SType) : List (String × Node) :=
  updA e.1.1 (fun n => { n with typeParams := setA e.1.2 (sTypeString e.2) n.typeParams }) ns

/-- The finalization phase of `InferTypes`: lithify every channel type and
every node pin type, then publish the resolved bindings into each node's
`typeParams` map (a binding whose scope names no registered node is skipped;
in Go it would dereference a nil node). -/
def Graph.inferFinalize (g : Graph) : Graph :=
  let channels := g.channels.map (fun (kc : String × Channel) =>
    (kc.1, { kc.2 with type := kc.2.type.map lithify }))
  let nodes := g.nodes.map (fun (kn : String × Node) =>
    (kn.1, { kn.2 with
      pinTypes := kn.2.pinTypes.map (fun pt => (pt.1, lithify pt.2)),
      typeParams := ([] : List (String × String)) }))
  let nodes2 := g.types.foldl publishStep nodes
  { g with nodes := nodes2, channels := channels }

/-- Total number of declared pin slots across all nodes. -/
def Graph.numPinSlots (g : Graph) : Nat :=
  g.nodes.foldl (fun a kn => a + kn.2.partPins.length) 0

/-- Fuel supplied to the worklist loop; computed from the wiring only
(node pin declarations and channel count), never from transient type
state. -/
def Graph.inferFuel (g : Graph) : Nat :=
  let s := g.numPinSlots + g.channels.length
  (2 * s + 2) * (s + 1) + 1

/-- `Graph.InferTypes`: setup, flood-fill to quiescence (or fuel
exhaustion, which the Go loop would run forever on), finalization. -/
def Graph.InferTypes (g : Graph) : Except String Graph :=
  match floodFillN g.inferFuel g.inferSetup (g.inferSetup.channels.map Prod.fst) with
  | none => .error "worklist did not settle"
  | some g2 => .ok g2.inferFinalize

/-- The worklist loop of `InferTypes` diverges on `g`: no amount of fuel
makes it settle (the Go loop, which has no fuel, runs forever). -/
def InferTypesDiverges (g : Graph) : Prop :=
  ∀ fuel : Nat, floodFillN fuel g.inferSetup (g.inferSetup.channels.map Prod.fst) = none

/-! ## Accessors used to state claims -/

/-- The resolved type of the channel registered under `cn`, if any. -/
def Graph.chanTypeOf (g : Graph) (cn : String) : Option SType :=
  (g.channels.lookup cn).bind Channel.type

/-- The current pin type of pin `pin` on the node registered under `node`. -/
def Graph.pinTypeOf (g : Graph) (node pin : String) : Option SType :=
  (g.nodes.lookup node).bind (fun n => n.pinTypes.lookup pin)

/-- Well-formedness the Go code maintains outside the graph core: registry
keys are unique, every node and channel caches its own name (`LoadJSON`),
and each node's connection map has unique pin keys. -/
def GraphWF (g : Graph) : Prop :=
  (g.nodes.map Prod.fst).Nodup ∧
  (g.channels.map Prod.fst).Nodup ∧
  (∀ e ∈ g.nodes, e.2.name = e.1) ∧
  (∀ e ∈ g.channels, e.2.name = e.1) ∧
  (∀ e ∈ g.nodes, (e.2.connections.map Prod.fst).Nodup)

instance (g : Graph) : Decidable (GraphWF g) := by
  unfold GraphWF; infer_instance

/-- Pin caches are consistent with the connection maps, in both directions
(the state `RefreshChannelsPins` establishes): every cached (node, pin)
pair points back, through that node's connection map, at the channel's
registry key, and every connection entry naming a registered channel is
cached by it. -/
def PinsConsistent (g : Graph) : Prop :=
  (∀ e ∈ g.channels, ∀ np ∈ e.2.pins,
    (g.nodes.lookup np.node).bind (fun n => n.connections.lookup np.pin) = some e.1) ∧
  (∀ e ∈ g.nodes, ∀ pc ∈ e.2.connections,
    ∀ c ∈ g.channels.lookup pc.2, (⟨e.1, pc.1⟩ : NodePin) ∈ c.pins)

instance (g : Graph) : Decidable (PinsConsistent g) := by
  unfold PinsConsistent; infer_instance

/-! ## Concrete graphs used by the claims -/

/-- A channel `c` wired to `X.out` and `Y.in`. -/
def chanXY : Channel :=
  { name := "c", cap := 0, pins := [⟨"X", "out"⟩, ⟨"Y", "in"⟩], type := none }

/-- Node `X` with a generic output pin, wired to `c`. -/
def nodeXgen : Node :=
  { name := "X", partPins := [("out", .param "T")], connections := [("out", "c")],
    pinTypes := [], typeParams := [] }

/-- Node `X` with an `int` output pin, wired to `c`. -/
def nodeXint : Node :=
  { name := "X", partPins := [("out", .base "int")], connections := [("out", "c")],
    pinTypes := [], typeParams := [] }

/-- Node `Y` with an `int` input pin, wired to `c`. -/
def nodeYint : Node :=
  { name := "Y", partPins := [("in", .base "int")], connections := [("in", "c")],
    pinTypes := [], typeParams := [] }

/-- Node `Y` with a `string` input pin, wired to `c`. -/
def nodeYstr : Node :=
  { name := "Y", partPins := [("in", .base "string")], connections := [("in", "c")],
    pinTypes := [], typeParams := [] }

/-- Scenario A of the spec: generic `X.out` and `int` `Y.in` share `c`. -/
def scenarioA : Graph :=
  { name := "scenA", nodes := [("X", nodeXgen), ("Y", nodeYint)],
    channels := [("c", chanXY)], types := [] }

/-- `scenarioA` with stale transient type state left behind by a previous
pass: a non-empty inference map, a stale pin type, a published binding and
a resolved channel type. Identical wiring to `scenarioA`. -/
def scenarioA_dirty : Graph :=
  { name := "scenA",
    nodes := [("X", { nodeXgen with pinTypes := [("out", .base "bogus")], typeParams := [("T", "stale")] }), ("Y", nodeYint)],
    channels := [("c", { chanXY with type := some (.base "stale") })],
    types := [(("X", "T"), .base "stale")] }

/-- Scenario B of the spec, sharpened to two concrete incompatible pin
types: `int` `X.out` and `string` `Y.in` share channel `c`. -/
def conflictGraph : Graph :=
  { name := "scenB", nodes := [("X", nodeXint), ("Y", nodeYstr)],
    channels := [("c", chanXY)], types := [] }

/-- A single node with one generic pin left unconnected. -/
def unconnNode : Node :=
  { name := "U", partPins := [("out", .param "T")], connections := [("out", "nil")],
    pinTypes := [], typeParams := [] }

/-- A graph whose only pin is unconnected (for claim C6). -/
def unconnGraph : Graph :=
  { name := "unconn", nodes := [("U", unconnNode)], channels := [], types := [] }

/-- A channel literally named `"nil"` — the same string the code uses as the
"unconnected" sentinel in connection maps. -/
def nilNamedChan : Channel := { name := "nil", cap := 0, pins := [], type := none }

/-- A channel wired to a single pin, due to be pruned. -/
def oneWireChan : Channel := { name := "D", cap := 0, pins := [], type := none }

/-- A node with two pins wired to the channel named `"nil"` and one wired to
the soon-to-be-pruned channel `D`. -/
def nilTrapNode : Node :=
  { name := "A", partPins := [], connections := [("p1", "nil"), ("p2", "nil"), ("p3", "D")],
    pinTypes := [], typeParams := [] }

/-- Counterexample graph for claim C7: pruning `D` rewrites `A.p3` to
`"nil"`, which the *next* rebuild wires into the channel named `"nil"`. -/
def nilTrapGraph : Graph :=
  { name := "niltrap", nodes := [("A", nilTrapNode)],
    channels := [("nil", nilNamedChan), ("D", oneWireChan)], types := [] }

/-- A node whose connection map names pins (`p1`, `p2`) that its part does
not declare, both wired to channel `c`. -/
def ghostPinNode : Node :=
  { name := "B", partPins := [], connections := [("p1", "c"), ("p2", "c")],
    pinTypes := [], typeParams := [] }

/-- Channel `c` with the two ghost pins in its cache — exactly what
`RefreshChannelsPins` builds from `ghostPinNode`, so the cache survives
pruning (2 pins) and reaches the inference pass. -/
def ghostChan : Channel :=
  { name := "c", cap := 0, pins := [⟨"B", "p1"⟩, ⟨"B", "p2"⟩], type := none }

/-- Failing input for claim C8: the worklist loop never terminates on it. -/
def ghostPinGraph : Graph :=
  { name := "ghost", nodes := [("B", ghostPinNode)], channels := [("c", ghostChan)], types := [] }

/-- A two-pin channel that happens to be named `"nil"`. -/
def nilWiredChan : Channel :=
  { name := "nil", cap := 0, pins := [⟨"A", "p"⟩, ⟨"B", "q"⟩], type := none }

/-- Node `A` of `nilWiredGraph`, wired through pin `p` to the channel
literally named `"nil"`. -/
def nilWiredNodeA : Node :=
  { name := "A", partPins := [], connections := [("p", "nil")],
    pinTypes := [], typeParams := [] }

/-- Node `B` of `nilWiredGraph`, wired through pin `q` to the channel
literally named `"nil"`. -/
def nilWiredNodeB : Node :=
  { name := "B", partPins := [], connections := [("q", "nil")],
    pinTypes := [], typeParams := [] }

/-- A consistently wired graph in which node `A` is connected, through pin
`p`, to a channel literally named `"nil"` that also serves `B.q`. -/
def nilWiredGraph : Graph :=
  { name := "nilwired",
    nodes := [("A", nilWiredNodeA), ("B", nilWiredNodeB)],
    channels := [("nil", nilWiredChan)],
    types := [] }

/-- A node with one dangling connection entry (naming a channel absent from
the registry) and one unconnected entry. -/
def danglingNode : Node :=
  { name := "Dg", partPins := [], connections := [("a", "ghost"), ("b", "nil")],
    pinTypes := [], typeParams := [] }

/-- A graph holding only `danglingNode` and no channels at all. -/
def danglingGraph : Graph :=
  { name := "dg", nodes := [("Dg", danglingNode)], channels := [], types := [] }

/-! ## Specification functions used to characterize the operations

These are not part of the embedded program: they are closed forms used by
the theorems to describe what the folds above compute. -/

/-- Set-insert into a pin list (the list form of `Channel.AddPin`). -/
def addPinL (P : List NodePin) (node pin : String) : List NodePin :=
  if (⟨node, pin⟩ : NodePin) ∈ P then P else P ++ [⟨node, pin⟩]

/-- One connection entry of the closed-form pin collection: affects only the
channel key the entry names, and only when that key is registered. -/
def collectConnStep (isC : String → Bool) (nname : String)
    (π : String → List NodePin) (pc : String × String) : String → List NodePin :=
  fun k =>
    if isC pc.2 = true then
      (if k = pc.2 then addPinL (π k) nname pc.1 else π k)
    else π k

/-- Closed form of the pin caches `rebuildPins` computes: for each channel
key, the pins collected from every node's connection entries naming it. -/
def collectPins (isC : String → Bool) (nodes : List (String × Node)) : String → List NodePin :=
  nodes.foldl
    (fun π kn => kn.2.connections.foldl (collectConnStep isC kn.2.name) π)
    (fun _ => [])

/-- A graph with every channel's pin cache replaced according to `π`. -/
def withPins (g : Graph) (π : String → List NodePin) : Graph :=
  { g with channels := g.channels.map (fun e => (e.1, { e.2 with pins := π e.1 })) }

/-- The cumulative effect on one node's connection map (looked up under
registry key `key`) of resetting the given pins to `"nil"`
(the closed form of a `DeleteChannel` disconnect loop). -/
def nilAwayS (pins : List NodePin) (key : String) (conns : List (String × String)) :
    List (String × String) :=
  pins.foldl (fun cs np => if np.node = key then setA np.pin "nil" cs else cs) conns

/-- The cumulative effect of several channel deletions in sequence. -/
def nilAwayMany (pinss : List (List NodePin)) (key : String)
    (conns : List (String × String)) : List (String × String) :=
  pinss.foldl (fun cs pins => nilAwayS pins key cs) conns

/-- The intermediate state of the pruning loop, as a function of the keys
deleted so far (`del`) and the pin sets of the channels deleted so far, in
deletion order (`Dpins`). -/
def pruneState (g0 : Graph) (del : List String) (Dpins : List (List NodePin)) : Graph :=
  { g0 with
    channels := g0.channels.filter (fun e => !(del.contains e.1)),
    nodes := g0.nodes.map (fun kn =>
      (kn.1, { kn.2 with connections := nilAwayMany Dpins kn.1 kn.2.connections })) }

/-- The wired (node name, pin name) pairs for channel key `k` contributed by
a node list, in order. -/
def entriesFor (k : String) (nodes : List (String × Node)) : List (String × String) :=
  nodes.foldr
    (fun kn acc =>
      (kn.2.connections.filter (fun pc => pc.2 == k)).map (fun pc => (kn.2.name, pc.1)) ++ acc)
    []

/-- The wiring-only view of a graph: all transient type state (the
inference map, node pin types, published bindings and channel resolved
types) blanked. Two graphs with the same wiring-only view differ only in
state a previous inference pass may have left behind. -/
def eraseTransient (g : Graph) : Graph :=
  { g with
    types := [],
    nodes := g.nodes.map (fun kn => (kn.1, { kn.2 with pinTypes := ([] : List (String × SType)), typeParams := ([] : List (String × String)) })),
    channels := g.channels.map (fun kc => (kc.1, { kc.2 with type := (none : Option SType) })) }

/-- Blank only the published bindings of a node. -/
def scrubNode (n : Node) : Node := { n with typeParams := ([] : List (String × String)) }

/-- Blank the published bindings of every node — the one piece of transient
state `inferSetup` does not reset; the pass never reads it and
`inferFinalize` overwrites it. -/
def Graph.scrubTP (g : Graph) : Graph :=
  { g with nodes := g.nodes.map (fun kn => (kn.1, scrubNode kn.2)) }

/-- Whether the disconnect phase of `DeleteNode` (for the node named
`nname`), having processed the connection entries `done`, has removed pin
`np` from the channel keyed `k`. -/
def remB (nname : String) (done : List (String × String)) (k : String) (np : NodePin) : Bool :=
  done.any (fun pc => (pc.2 == k) && decide (np = ⟨nname, pc.1⟩))

/-- The graph state midway through the disconnect phase of `DeleteNode`:
every channel's pin cache filtered by the removals recorded in `done`. -/
def midG (g : Graph) (nname : String) (done : List (String × String)) : Graph :=
  { g with channels := g.channels.map (fun e =>
      (e.1, { e.2 with pins := e.2.pins.filter (fun np => !(remB nname done e.1 np)) })) }

/-!
# Theorems

First a toolkit of association-list lemmas, then one theorem per claim
(plus counterexamples and witnesses where the claim's status needs them).
-/

section Toolkit

variable {α : Type}

theorem lookup_cons (a b : String) (v : α) (t : List (String × α)) :
    List.lookup a ((b, v) :: t) = if a = b then some v else t.lookup a := by
  by_cases h : a = b
  · simp [List.lookup, h]
  · have hb : (a == b) = false := by simp [h]
    simp [List.lookup, hb, h]

theorem updA_cons (k b : String) (f : α → α) (v : α) (t : List (String × α)) :
    updA k f ((b, v) :: t) = (if b = k then (b, f v) else (b, v)) :: updA k f t := by
  by_cases h : b = k <;> simp [updA, h]

theorem lookup_updA (k k' : String) (f : α → α) (l : List (String × α)) :
    (updA k f l).lookup k' = if k' = k then (l.lookup k).map f else l.lookup k' := by
  induction l with
  | nil => by_cases h : k' = k <;> simp [updA, List.lookup, h]
  | cons e t ih =>
    obtain ⟨b, v⟩ := e
    rw [updA_cons]
    by_cases hk'b : k' = b
    · subst hk'b
      by_cases hbk : k' = k
      · subst hbk
        simp [lookup_cons]
      · simp [lookup_cons, hbk]
    · by_cases hbk : b = k
      · subst hbk
        simp [lookup_cons, hk'b, ih]
      · by_cases hk'k : k' = k
        · subst hk'k
          have hkb : ¬k' = b := hk'b
          simp [lookup_cons, hk'b, hbk, ih]
        · simp [lookup_cons, hk'b, hbk, hk'k, ih]

theorem lookup_append_str (l1 l2 : List (String × α)) (k : String) :
    (l1 ++ l2).lookup k = (l1.lookup k).or (l2.lookup k) := by
  induction l1 with
  | nil => simp [List.lookup]
  | cons e t ih =>
    obtain ⟨b, v⟩ := e
    rw [List.cons_append, lookup_cons, lookup_cons]
    by_cases h : k = b
    · rw [if_pos h, if_pos h]; rfl
    · rw [if_neg h, if_neg h, ih]

theorem lookup_setA (k k' : String) (v : α) (l : List (String × α)) :
    (setA k v l).lookup k' = if k' = k then some v else l.lookup k' := by
  unfold setA
  by_cases hs : (l.lookup k).isSome
  · rw [if_pos hs, lookup_updA]
    by_cases hk : k' = k
    · rw [if_pos hk, if_pos hk]
      obtain ⟨v0, h0⟩ := Option.isSome_iff_exists.mp hs
      rw [h0]; rfl
    · rw [if_neg hk, if_neg hk]
  · rw [if_neg hs, lookup_append_str]
    by_cases hk : k' = k
    · subst hk
      have hnone : l.lookup k' = none := by
        cases h : l.lookup k' with
        | none => rfl
        | some v0 => rw [h] at hs; simp at hs
      rw [hnone, if_pos rfl]
      simp [List.lookup]
    · rw [if_neg hk]
      have : List.lookup k' [(k, v)] = none := by
        rw [lookup_cons, if_neg hk]; rfl
      rw [this]
      cases l.lookup k' <;> rfl

theorem lookup_filterKey (k k' : String) (l : List (String × α)) :
    ((l.filter (fun e => e.1 ≠ k)).lookup k') = if k' = k then none else l.lookup k' := by
  induction l with
  | nil => by_cases h : k' = k <;> simp [List.lookup, h]
  | cons e t ih =>
    obtain ⟨b, v⟩ := e
    by_cases hbk : b = k
    · have : ¬(b ≠ k) := by simp [hbk]
      rw [List.filter_cons, if_neg (by simpa using this), ih, lookup_cons]
      by_cases hk : k' = k
      · rw [if_pos hk, if_pos hk]
      · rw [if_neg hk, if_neg hk, if_neg (fun h => hk (h.trans hbk))]
    · rw [List.filter_cons, if_pos (by simpa using hbk), lookup_cons, lookup_cons]
      by_cases hk'b : k' = b
      · have : ¬k' = k := fun h => hbk (h ▸ hk'b ▸ rfl : b = k)
        rw [if_pos hk'b, if_pos hk'b, if_neg this]
      · rw [if_neg hk'b, if_neg hk'b, ih]

theorem keys_updA (k : String) (f : α → α) (l : List (String × α)) :
    (updA k f l).map Prod.fst = l.map Prod.fst := by
  induction l with
  | nil => rfl
  | cons e t ih =>
    obtain ⟨b, v⟩ := e
    rw [updA_cons]
    by_cases h : b = k
    · rw [if_pos h]; simpa using ih
    · rw [if_neg h]; simpa using ih

theorem isSome_lookup_updA (k k' : String) (f : α → α) (l : List (String × α)) :
    ((updA k f l).lookup k').isSome = (l.lookup k').isSome := by
  rw [lookup_updA]
  by_cases h : k' = k
  · rw [if_pos h, h]; cases l.lookup k <;> rfl
  · rw [if_neg h]

theorem lookup_mem {l : List (String × α)} {k : String} {v : α}
    (h : l.lookup k = some v) : (k, v) ∈ l := by
  induction l with
  | nil => simp [List.lookup] at h
  | cons e t ih =>
    obtain ⟨b, w⟩ := e
    rw [lookup_cons] at h
    by_cases hk : k = b
    · rw [if_pos hk] at h
      cases h; cases hk
      exact List.mem_cons_self _ _
    · rw [if_neg hk] at h
      exact List.mem_cons_of_mem _ (ih h)

theorem mem_lookup {l : List (String × α)} {k : String} {v : α}
    (hnd : (l.map Prod.fst).Nodup) (h : (k, v) ∈ l) : l.lookup k = some v := by
  induction l with
  | nil => simp at h
  | cons e t ih =>
    obtain ⟨b, w⟩ := e
    rw [lookup_cons]
    rcases List.mem_cons.mp h with he | ht
    · cases he
      rw [if_pos rfl]
    · have hk : ¬k = b := by
        intro hk
        subst hk
        have hmem : k ∈ t.map Prod.fst := List.mem_map.mpr ⟨(k, v), ht, rfl⟩
        exact (List.nodup_cons.mp (by simpa using hnd)).1 hmem
      rw [if_neg hk]
      exact ih (List.nodup_cons.mp (by simpa using hnd)).2 ht

end Toolkit

section ToolkitMore

variable {α β : Type}

theorem lookup_mapVal (f : String × α → β) (l : List (String × α)) (k : String) :
    (l.map (fun e => (e.1, f e))).lookup k = (l.lookup k).map (fun v => f (k, v)) := by
  induction l with
  | nil => rfl
  | cons e t ih =>
    obtain ⟨b, v⟩ := e
    rw [List.map_cons]
    show List.lookup k ((b, f (b, v)) :: _) = _
    rw [lookup_cons, lookup_cons]
    by_cases h : k = b
    · rw [if_pos h, if_pos h, h]
      rfl
    · rw [if_neg h, if_neg h, ih]

theorem updA_mapVal (k0 : String) (F : β → β) (f : String × α → β) (l : List (String × α)) :
    updA k0 F (l.map (fun e => (e.1, f e))) =
      l.map (fun e => (e.1, if e.1 = k0 then F (f e) else f e)) := by
  induction l with
  | nil => rfl
  | cons e t ih =>
    obtain ⟨b, v⟩ := e
    rw [List.map_cons, List.map_cons, updA_cons]
    by_cases h : b = k0
    · rw [if_pos h, if_pos h, ih]
    · rw [if_neg h, if_neg h, ih]

theorem isSome_lookup_of_mem {l : List (String × α)} {e : String × α}
    (h : e ∈ l) : (l.lookup e.1).isSome = true := by
  induction l with
  | nil => simp at h
  | cons a t ih =>
    obtain ⟨b, v⟩ := a
    rw [lookup_cons]
    by_cases hk : e.1 = b
    · rw [if_pos hk]
      rfl
    · rw [if_neg hk]
      rcases List.mem_cons.mp h with he | ht
      · rw [he] at hk
        exact absurd rfl hk
      · exact ih ht

theorem nodup_entry_unique {l : List (String × α)} {k : String} {a b : α}
    (hnd : (l.map Prod.fst).Nodup) (ha : (k, a) ∈ l) (hb : (k, b) ∈ l) : a = b := by
  have h1 := mem_lookup hnd ha
  have h2 := mem_lookup hnd hb
  rw [h1] at h2
  exact Option.some.inj h2

theorem updA_not_mem {l : List (String × α)} {k : String} (f : α → α)
    (h : ¬k ∈ l.map Prod.fst) : updA k f l = l := by
  induction l with
  | nil => rfl
  | cons e t ih =>
    obtain ⟨b, v⟩ := e
    rw [updA_cons, if_neg (fun hbk => h (by rw [hbk]; exact List.mem_cons_self _ _)),
      ih (fun hmem => h (List.mem_cons_of_mem _ hmem))]

end ToolkitMore

section RebuildLemmas

theorem AddPin_record (c : Channel) (P : List NodePin) (node pin : String) :
    Channel.AddPin { c with pins := P } node pin = { c with pins := addPinL P node pin } := by
  by_cases h : (⟨node, pin⟩ : NodePin) ∈ P <;>
    simp [Channel.AddPin, addPinL, h]

theorem mem_addPinL {P : List NodePin} {node pin : String} {np : NodePin}
    (h : np ∈ addPinL P node pin) : np ∈ P ∨ np = ⟨node, pin⟩ := by
  by_cases hm : (⟨node, pin⟩ : NodePin) ∈ P
  · rw [addPinL, if_pos hm] at h
    exact Or.inl h
  · rw [addPinL, if_neg hm] at h
    rcases List.mem_append.mp h with h1 | h2
    · exact Or.inl h1
    · exact Or.inr (List.mem_singleton.mp h2)

theorem withPins_channels_lookup (g : Graph) (π : String → List NodePin) (k : String) :
    (withPins g π).channels.lookup k =
      (g.channels.lookup k).map (fun c0 => { c0 with pins := π k }) := by
  have h : (withPins g π).channels =
      g.channels.map (fun e => (e.1, { e.2 with pins := π e.1 })) := rfl
  rw [h]
  exact lookup_mapVal (fun e => { e.2 with pins := π e.1 }) g.channels k

theorem rebuildConnFold (g : Graph) (nname : String) :
    ∀ (conns : List (String × String)) (π : String → List NodePin),
      conns.foldl (rebuildConnStep nname) (withPins g π) =
        withPins g (conns.foldl (collectConnStep (fun s => (g.channels.lookup s).isSome) nname) π) := by
  intro conns
  induction conns with
  | nil => intro π; rfl
  | cons pc rest ih =>
    intro π
    rw [List.foldl_cons, List.foldl_cons]
    have hlk := withPins_channels_lookup g π pc.2
    cases hc : g.channels.lookup pc.2 with
    | none =>
      have hstep : rebuildConnStep nname (withPins g π) pc = withPins g π := by
        unfold rebuildConnStep
        rw [hlk, hc]
        rfl
      have hcoll : collectConnStep (fun s => (g.channels.lookup s).isSome) nname π pc = π := by
        funext k
        unfold collectConnStep
        simp [hc]
      rw [hstep, hcoll]
      exact ih π
    | some c0 =>
      have hchan : updA pc.2 (fun ch => ch.AddPin nname pc.1)
          (g.channels.map (fun e => (e.1, { e.2 with pins := π e.1 }))) =
          g.channels.map (fun e => (e.1, { e.2 with pins := if e.1 = pc.2 then addPinL (π e.1) nname pc.1 else π e.1 })) := by
        rw [updA_mapVal pc.2 (fun ch => Channel.AddPin ch nname pc.1)
          (fun e => { e.2 with pins := π e.1 }) g.channels]
        apply List.map_congr_left
        intro e _
        by_cases he : e.1 = pc.2
        · rw [if_pos he, if_pos he]
          exact congrArg (Prod.mk e.1) (AddPin_record e.2 (π e.1) nname pc.1)
        · rw [if_neg he, if_neg he]
      have hstep : rebuildConnStep nname (withPins g π) pc =
          withPins g (fun k => if k = pc.2 then addPinL (π k) nname pc.1 else π k) := by
        have h1 : rebuildConnStep nname (withPins g π) pc =
            { withPins g π with
              channels := updA pc.2 (fun ch => ch.AddPin nname pc.1) (withPins g π).channels } := by
          unfold rebuildConnStep
          rw [hlk, hc]
          rfl
        rw [h1]
        show ({ g with channels := updA pc.2 (fun ch => ch.AddPin nname pc.1) (g.channels.map (fun e => (e.1, { e.2 with pins := π e.1 }))) } : Graph) = _
        rw [hchan]
        rfl
      rw [hstep]
      rw [ih (fun k => if k = pc.2 then addPinL (π k) nname pc.1 else π k)]
      have hcoll : (collectConnStep (fun s => (g.channels.lookup s).isSome) nname π pc) =
          (fun k => if k = pc.2 then addPinL (π k) nname pc.1 else π k) := by
        funext k
        unfold collectConnStep
        simp [hc]
      rw [hcoll]

theorem rebuildNodeFold (g : Graph) :
    ∀ (ns : List (String × Node)) (π : String → List NodePin),
      ns.foldl rebuildNodeStep (withPins g π) =
        withPins g (ns.foldl
          (fun π2 kn => kn.2.connections.foldl
            (collectConnStep (fun s => (g.channels.lookup s).isSome) kn.2.name) π2) π) := by
  intro ns
  induction ns with
  | nil => intro π; rfl
  | cons kn rest ih =>
    intro π
    rw [List.foldl_cons, List.foldl_cons]
    show rest.foldl rebuildNodeStep
        (kn.2.connections.foldl (rebuildConnStep kn.2.name) (withPins g π)) = _
    rw [rebuildConnFold g kn.2.name kn.2.connections π]
    exact ih _

theorem rebuildPins_eq (g : Graph) :
    g.rebuildPins = withPins g (collectPins (fun s => (g.channels.lookup s).isSome) g.nodes) := by
  show g.nodes.foldl rebuildNodeStep (withPins g (fun _ => [])) = _
  rw [rebuildNodeFold g g.nodes (fun _ => [])]
  rfl

theorem rebuildPins_nodes (g : Graph) : g.rebuildPins.nodes = g.nodes := by
  rw [rebuildPins_eq]
  rfl

theorem rebuildPins_lookup (g : Graph) (k : String) :
    g.rebuildPins.channels.lookup k = (g.channels.lookup k).map
      (fun c0 => { c0 with
        pins := collectPins (fun s => (g.channels.lookup s).isSome) g.nodes k }) := by
  rw [rebuildPins_eq]
  exact withPins_channels_lookup g
    (collectPins (fun s => (g.channels.lookup s).isSome) g.nodes) k

theorem collectConnFold_mem (isC : String → Bool) (nname : String) :
    ∀ (conns : List (String × String)) (π : String → List NodePin) (k : String) (np : NodePin),
      np ∈ (conns.foldl (collectConnStep isC nname) π) k →
      np ∈ π k ∨ ∃ pc ∈ conns, isC pc.2 = true ∧ pc.2 = k ∧ np = ⟨nname, pc.1⟩ := by
  intro conns
  induction conns with
  | nil =>
    intro π k np h
    exact Or.inl h
  | cons pc rest ih =>
    intro π k np h
    rw [List.foldl_cons] at h
    rcases ih _ k np h with hmem | ⟨pc', hpc', hw⟩
    · unfold collectConnStep at hmem
      by_cases hic : isC pc.2 = true
      · rw [if_pos hic] at hmem
        by_cases hk : k = pc.2
        · rw [if_pos hk] at hmem
          rcases mem_addPinL hmem with h1 | h2
          · exact Or.inl h1
          · exact Or.inr ⟨pc, List.mem_cons_self _ _, hic, hk.symm, h2⟩
        · rw [if_neg hk] at hmem
          exact Or.inl hmem
      · rw [if_neg hic] at hmem
        exact Or.inl hmem
    · exact Or.inr ⟨pc', List.mem_cons_of_mem _ hpc', hw⟩

theorem collectPins_mem (isC : String → Bool) :
    ∀ (nodes : List (String × Node)) (π : String → List NodePin) (k : String) (np : NodePin),
      np ∈ (nodes.foldl
        (fun π2 kn => kn.2.connections.foldl (collectConnStep isC kn.2.name) π2) π) k →
      np ∈ π k ∨ ∃ e ∈ nodes, ∃ pc ∈ e.2.connections,
        isC pc.2 = true ∧ pc.2 = k ∧ np = ⟨e.2.name, pc.1⟩ := by
  intro nodes
  induction nodes with
  | nil =>
    intro π k np h
    exact Or.inl h
  | cons kn rest ih =>
    intro π k np h
    rw [List.foldl_cons] at h
    rcases ih _ k np h with hmem | ⟨e, he, hw⟩
    · rcases collectConnFold_mem isC kn.2.name kn.2.connections π k np hmem with h1 | ⟨pc, hpc, hw⟩
      · exact Or.inl h1
      · exact Or.inr ⟨kn, List.mem_cons_self _ _, pc, hpc, hw⟩
    · exact Or.inr ⟨e, List.mem_cons_of_mem _ he, hw⟩

/-- Every pin a rebuilt cache holds can be traced to a connection entry of a
registered node naming that (registered) channel. -/
theorem rebuildPins_provenance (g : Graph) (k : String) (c : Channel)
    (h : g.rebuildPins.channels.lookup k = some c) :
    (∃ c0, g.channels.lookup k = some c0) ∧
    ∀ np ∈ c.pins, ∃ e ∈ g.nodes, ∃ pc ∈ e.2.connections,
      (g.channels.lookup pc.2).isSome = true ∧ pc.2 = k ∧ np = ⟨e.2.name, pc.1⟩ := by
  rw [rebuildPins_lookup] at h
  cases hc : g.channels.lookup k with
  | none => rw [hc] at h; cases h
  | some c0 =>
    rw [hc, Option.map_some'] at h
    injection h with h
    constructor
    · exact ⟨c0, rfl⟩
    · intro np hnp
      rw [← h] at hnp
      have := collectPins_mem (fun s => (g.channels.lookup s).isSome) g.nodes
        (fun _ => []) k np hnp
      rcases this with h0 | hw
      · simp at h0
      · exact hw

end RebuildLemmas

section PruneLemmas

theorem lookup_eq_none_of_not_mem {α : Type} {l : List (String × α)} {k : String}
    (h : ¬k ∈ l.map Prod.fst) : l.lookup k = none := by
  cases hl : l.lookup k with
  | none => rfl
  | some v =>
    exact absurd (List.mem_map.mpr ⟨(k, v), lookup_mem hl, rfl⟩) h

theorem lookup_filter_nodup {α : Type} {l : List (String × α)}
    (hnd : (l.map Prod.fst).Nodup) (p : String × α → Bool) (k : String) :
    (l.filter p).lookup k = (l.lookup k).bind (fun v => if p (k, v) then some v else none) := by
  induction l with
  | nil => rfl
  | cons e t ih =>
    obtain ⟨b, v⟩ := e
    have hnd' : (t.map Prod.fst).Nodup := (List.nodup_cons.mp (by simpa using hnd)).2
    have hbt : ¬b ∈ t.map Prod.fst := (List.nodup_cons.mp (by simpa using hnd)).1
    rw [List.filter_cons]
    by_cases hp : p (b, v) = true
    · rw [if_pos hp, lookup_cons, lookup_cons]
      by_cases hk : k = b
      · rw [if_pos hk, if_pos hk, hk]
        simp [hp]
      · rw [if_neg hk, if_neg hk]
        exact ih hnd'
    · rw [if_neg (by simpa using hp), lookup_cons]
      by_cases hk : k = b
      · rw [if_pos hk, ih hnd', hk, lookup_eq_none_of_not_mem hbt]
        simp [hp]
      · rw [if_neg hk]
        exact ih hnd'

theorem isSome_lookup_mapVal {α β : Type} (f : String × α → β) (l : List (String × α)) (k : String) :
    ((l.map (fun e => (e.1, f e))).lookup k).isSome = (l.lookup k).isSome := by
  rw [lookup_mapVal]
  cases l.lookup k <;> rfl

theorem resetFoldL (pins : List NodePin) :
    ∀ g : Graph, (∀ np ∈ pins, (g.nodes.lookup np.node).isSome = true) →
      pins.foldlM Graph.resetPinConn g = some { g with
        nodes := g.nodes.map (fun kn =>
          (kn.1, { kn.2 with connections := nilAwayS pins kn.1 kn.2.connections })) } := by
  induction pins with
  | nil =>
    intro g _
    show some g = _
    have hmap : g.nodes.map (fun kn =>
        (kn.1, { kn.2 with connections := nilAwayS [] kn.1 kn.2.connections })) = g.nodes := by
      have hptw : ∀ kn ∈ g.nodes,
          (kn.1, { kn.2 with connections := nilAwayS [] kn.1 kn.2.connections }) = kn := by
        intro kn _
        rfl
      rw [List.map_congr_left hptw]
      exact List.map_id' g.nodes
    rw [hmap]
  | cons np rest ih =>
    intro g hall
    have hnp : (g.nodes.lookup np.node).isSome = true := hall np (List.mem_cons_self _ _)
    obtain ⟨n0, hn0⟩ := Option.isSome_iff_exists.mp hnp
    have hreset : g.resetPinConn np = some { g with
        nodes := updA np.node
          (fun n => { n with connections := setA np.pin "nil" n.connections }) g.nodes } := by
      unfold Graph.resetPinConn
      rw [hn0]
    rw [List.foldlM_cons, hreset]
    show rest.foldlM Graph.resetPinConn { g with
        nodes := updA np.node
          (fun n => { n with connections := setA np.pin "nil" n.connections }) g.nodes } = _
    have hrest : ∀ np' ∈ rest, (({ g with
        nodes := updA np.node
          (fun n => { n with connections := setA np.pin "nil" n.connections }) g.nodes } : Graph).nodes.lookup np'.node).isSome = true := by
      intro np' hmem
      show ((updA np.node
        (fun n => { n with connections := setA np.pin "nil" n.connections })
        g.nodes).lookup np'.node).isSome = true
      rw [isSome_lookup_updA]
      exact hall np' (List.mem_cons_of_mem _ hmem)
    rw [ih _ hrest]
    have hnodes : (updA np.node
          (fun n => { n with connections := setA np.pin "nil" n.connections }) g.nodes).map
        (fun kn => (kn.1, { kn.2 with connections := nilAwayS rest kn.1 kn.2.connections })) =
        g.nodes.map (fun kn =>
          (kn.1, { kn.2 with connections := nilAwayS (np :: rest) kn.1 kn.2.connections })) := by
      have hupd : updA np.node
          (fun n => { n with connections := setA np.pin "nil" n.connections }) g.nodes =
          g.nodes.map (fun e => if e.1 = np.node
            then (e.1, { e.2 with connections := setA np.pin "nil" e.2.connections })
            else e) := rfl
      rw [hupd, List.map_map]
      apply List.map_congr_left
      intro e _
      show (fun kn => (kn.1, { kn.2 with connections := nilAwayS rest kn.1 kn.2.connections }))
          (if e.1 = np.node
            then (e.1, { e.2 with connections := setA np.pin "nil" e.2.connections })
            else e) = _
      have hcons : nilAwayS (np :: rest) e.1 e.2.connections =
          nilAwayS rest e.1
            (if np.node = e.1 then setA np.pin "nil" e.2.connections else e.2.connections) := rfl
      by_cases he : e.1 = np.node
      · rw [if_pos he]
        show (e.1, { e.2 with
          connections := nilAwayS rest e.1 (setA np.pin "nil" e.2.connections) }) = _
        rw [hcons, if_pos he.symm]
      · rw [if_neg he]
        show (e.1, { e.2 with connections := nilAwayS rest e.1 e.2.connections }) = _
        rw [hcons, if_neg (fun h => he h.symm)]
    rw [hnodes]

theorem deleteChannelL {g : Graph} {ch : Channel}
    (hall : ∀ np ∈ ch.pins, (g.nodes.lookup np.node).isSome = true) :
    g.DeleteChannel ch = some { g with
      channels := g.channels.filter (fun e => e.1 ≠ ch.name),
      nodes := g.nodes.map (fun kn =>
        (kn.1, { kn.2 with connections := nilAwayS ch.pins kn.1 kn.2.connections })) } := by
  unfold Graph.DeleteChannel
  rw [resetFoldL ch.pins g hall]
  rfl

theorem pruneFold (g0 : Graph)
    (hnodup : (g0.channels.map Prod.fst).Nodup)
    (hnames : ∀ e ∈ g0.channels, e.2.name = e.1)
    (hvalid : ∀ e ∈ g0.channels, ∀ np ∈ e.2.pins, (g0.nodes.lookup np.node).isSome = true) :
    ∀ (L : List (String × Channel)) (del : List String) (Dpins : List (List NodePin)),
      (∀ e ∈ L, e ∈ g0.channels) →
      (∀ d ∈ del, ∃ c0, g0.channels.lookup d = some c0 ∧ c0.pins.length < 2) →
      ∃ del2 Dpins2,
        L.foldlM pruneStep (pruneState g0 del Dpins) = some (pruneState g0 del2 Dpins2) ∧
        (∀ d ∈ del2, ∃ c0, g0.channels.lookup d = some c0 ∧ c0.pins.length < 2) ∧
        (∀ pins ∈ Dpins2, pins ∈ Dpins ∨
          ∃ d c0, g0.channels.lookup d = some c0 ∧ c0.pins.length < 2 ∧ pins = c0.pins) ∧
        (∀ d ∈ del, d ∈ del2) ∧
        (∀ e ∈ L, e.2.pins.length < 2 → e.1 ∈ del2) := by
  intro L
  induction L with
  | nil =>
    intro del Dpins hL hdel
    exact ⟨del, Dpins, rfl, hdel, fun pins hp => Or.inl hp, fun d hd => hd, by simp⟩
  | cons e rest ih =>
    intro del Dpins hL hdel
    have he0 : e ∈ g0.channels := hL e (List.mem_cons_self _ _)
    have hlk0 : g0.channels.lookup e.1 = some e.2 := mem_lookup hnodup (by
      have h : (e.1, e.2) = e := rfl
      rw [h]
      exact he0)
    have hstlk : (pruneState g0 del Dpins).channels.lookup e.1 =
        (if !(del.contains e.1) then some e.2 else none) := by
      show ((g0.channels.filter (fun x => !(del.contains x.1))).lookup e.1) = _
      rw [lookup_filter_nodup hnodup (fun x => !(del.contains x.1)) e.1, hlk0]
      by_cases hd : del.contains e.1 = true
      · simp [hd]
      · simp [hd]
    by_cases hdmem : del.contains e.1 = true
    · have hmem : e.1 ∈ del := by simpa using hdmem
      have hstep : pruneStep (pruneState g0 del Dpins) e = some (pruneState g0 del Dpins) := by
        unfold pruneStep
        rw [hstlk]
        simp [hmem]
      obtain ⟨del2, D2, hfold, hw1, hw2, hsub, hproc⟩ :=
        ih del Dpins (fun x hx => hL x (List.mem_cons_of_mem _ hx)) hdel
      refine ⟨del2, D2, ?_, hw1, hw2, hsub, ?_⟩
      · rw [List.foldlM_cons, hstep]
        exact hfold
      · intro x hx hlen
        rcases List.mem_cons.mp hx with hxe | hxr
        · rw [hxe]
          exact hsub e.1 hmem
        · exact hproc x hxr hlen
    · have hnmem : e.1 ∉ del := by simpa using hdmem
      have hstep0 : (pruneState g0 del Dpins).channels.lookup e.1 = some e.2 := by
        rw [hstlk]
        simp [hnmem]
      by_cases hlen : e.2.pins.length < 2
      · have hall : ∀ np ∈ e.2.pins,
            ((pruneState g0 del Dpins).nodes.lookup np.node).isSome = true := by
          intro np hnp
          have hrfl : (pruneState g0 del Dpins).nodes = g0.nodes.map (fun kn =>
              (kn.1, { kn.2 with connections := nilAwayMany Dpins kn.1 kn.2.connections })) := rfl
          rw [hrfl]
          exact (isSome_lookup_mapVal
            (fun kn => { kn.2 with connections := nilAwayMany Dpins kn.1 kn.2.connections })
            g0.nodes np.node).trans (hvalid e he0 np hnp)
        have hname : e.2.name = e.1 := hnames e he0
        have hch : (g0.channels.filter (fun x => !(del.contains x.1))).filter
            (fun x => x.1 ≠ e.2.name) =
            g0.channels.filter (fun x => !((del ++ [e.1]).contains x.1)) := by
          rw [List.filter_filter]
          apply List.filter_congr
          intro x _
          rw [hname]
          by_cases h1 : x.1 ∈ del <;> by_cases h2 : x.1 = e.1 <;>
            simp [h1, h2]
        have hnd2 : (g0.nodes.map (fun kn =>
              (kn.1, { kn.2 with connections := nilAwayMany Dpins kn.1 kn.2.connections }))).map
            (fun kn => (kn.1, { kn.2 with connections := nilAwayS e.2.pins kn.1 kn.2.connections })) =
            g0.nodes.map (fun kn =>
              (kn.1, { kn.2 with connections := nilAwayMany (Dpins ++ [e.2.pins]) kn.1 kn.2.connections })) := by
          rw [List.map_map]
          apply List.map_congr_left
          intro kn _
          show (kn.1, { kn.2 with
            connections := nilAwayS e.2.pins kn.1 (nilAwayMany Dpins kn.1 kn.2.connections) }) = _
          have happ : nilAwayMany (Dpins ++ [e.2.pins]) kn.1 kn.2.connections =
              nilAwayS e.2.pins kn.1 (nilAwayMany Dpins kn.1 kn.2.connections) := by
            unfold nilAwayMany
            rw [List.foldl_append]
            rfl
          rw [happ]
        have hdel1 : (pruneState g0 del Dpins).DeleteChannel e.2 =
            some (pruneState g0 (del ++ [e.1]) (Dpins ++ [e.2.pins])) := by
          rw [deleteChannelL hall]
          show some _ = some _
          unfold pruneState
          rw [← hch, ← hnd2]
        have hstep : pruneStep (pruneState g0 del Dpins) e =
            some (pruneState g0 (del ++ [e.1]) (Dpins ++ [e.2.pins])) := by
          unfold pruneStep
          rw [hstep0]
          show (if e.2.pins.length < 2 then _ else _) = _
          rw [if_pos hlen]
          exact hdel1
        have hdel2 : ∀ d ∈ del ++ [e.1],
            ∃ c0, g0.channels.lookup d = some c0 ∧ c0.pins.length < 2 := by
          intro d hd
          rcases List.mem_append.mp hd with h1 | h2
          · exact hdel d h1
          · rw [List.mem_singleton.mp h2]
            exact ⟨e.2, hlk0, hlen⟩
        obtain ⟨del2, D2, hfold, hw1, hw2, hsub, hproc⟩ :=
          ih (del ++ [e.1]) (Dpins ++ [e.2.pins])
            (fun x hx => hL x (List.mem_cons_of_mem _ hx)) hdel2
        refine ⟨del2, D2, ?_, hw1, ?_, ?_, ?_⟩
        · rw [List.foldlM_cons, hstep]
          exact hfold
        · intro pins hp
          rcases hw2 pins hp with hin | hwit
          · rcases List.mem_append.mp hin with h1 | h2
            · exact Or.inl h1
            · exact Or.inr ⟨e.1, e.2, hlk0, hlen, List.mem_singleton.mp h2⟩
          · exact Or.inr hwit
        · intro d hd
          exact hsub d (List.mem_append.mpr (Or.inl hd))
        · intro x hx hxlen
          rcases List.mem_cons.mp hx with hxe | hxr
          · rw [hxe]
            exact hsub e.1 (List.mem_append.mpr (Or.inr (List.mem_singleton.mpr rfl)))
          · exact hproc x hxr hxlen
      · have hstep : pruneStep (pruneState g0 del Dpins) e = some (pruneState g0 del Dpins) := by
          unfold pruneStep
          rw [hstep0]
          show (if e.2.pins.length < 2 then _ else _) = _
          rw [if_neg hlen]
        obtain ⟨del2, D2, hfold, hw1, hw2, hsub, hproc⟩ :=
          ih del Dpins (fun x hx => hL x (List.mem_cons_of_mem _ hx)) hdel
        refine ⟨del2, D2, ?_, hw1, hw2, hsub, ?_⟩
        · rw [List.foldlM_cons, hstep]
          exact hfold
        · intro x hx hxlen
          rcases List.mem_cons.mp hx with hxe | hxr
          · rw [hxe] at hxlen ⊢
            exact absurd hxlen hlen
          · exact hproc x hxr hxlen

theorem pruneState_nil (g0 : Graph) : pruneState g0 [] [] = g0 := by
  show ({ g0 with
    channels := g0.channels.filter (fun e => !(([] : List String).contains e.1)),
    nodes := g0.nodes.map (fun kn =>
      (kn.1, { kn.2 with connections := nilAwayMany [] kn.1 kn.2.connections })) } : Graph) = g0
  have h1 : g0.channels.filter (fun e => !(([] : List String).contains e.1)) = g0.channels :=
    List.filter_eq_self.mpr (fun a _ => rfl)
  have h2 : g0.nodes.map (fun kn =>
      (kn.1, { kn.2 with connections := nilAwayMany [] kn.1 kn.2.connections })) = g0.nodes := by
    have hptw : ∀ kn ∈ g0.nodes,
        (kn.1, { kn.2 with connections := nilAwayMany [] kn.1 kn.2.connections }) = kn := by
      intro kn _
      rfl
    rw [List.map_congr_left hptw]
    exact List.map_id' g0.nodes
  rw [h1, h2]

/-- Full characterization of the pruning phase: the surviving channels are
exactly those whose (rebuilt) pin cache holds at least two pins, with
values untouched, and the only mutation to nodes is that pins of deleted
(sub-2) channels had their connection entries reset to `"nil"`. -/
theorem pruneChannels_eq (g0 : Graph)
    (hnodup : (g0.channels.map Prod.fst).Nodup)
    (hnames : ∀ e ∈ g0.channels, e.2.name = e.1)
    (hvalid : ∀ e ∈ g0.channels, ∀ np ∈ e.2.pins, (g0.nodes.lookup np.node).isSome = true) :
    ∃ Dpins2,
      g0.pruneChannels = some { g0 with
        channels := g0.channels.filter (fun e => decide (2 ≤ e.2.pins.length)),
        nodes := g0.nodes.map (fun kn =>
          (kn.1, { kn.2 with connections := nilAwayMany Dpins2 kn.1 kn.2.connections })) } ∧
      ∀ pins ∈ Dpins2, ∃ d c0, g0.channels.lookup d = some c0 ∧
        c0.pins.length < 2 ∧ pins = c0.pins := by
  obtain ⟨del2, D2, hfold, hw1, hw2, _, hproc⟩ :=
    pruneFold g0 hnodup hnames hvalid g0.channels [] [] (fun _ he => he) (by simp)
  rw [pruneState_nil] at hfold
  refine ⟨D2, ?_, ?_⟩
  · have hch : g0.channels.filter (fun x => !(del2.contains x.1)) =
        g0.channels.filter (fun x => decide (2 ≤ x.2.pins.length)) := by
      apply List.filter_congr
      intro x hx
      by_cases hmem : x.1 ∈ del2
      · obtain ⟨c0, hc0, hclen⟩ := hw1 x.1 hmem
        have hxeq : c0 = x.2 := by
          apply nodup_entry_unique hnodup (lookup_mem hc0)
          show (x.1, x.2) ∈ g0.channels
          exact (show (x.1, x.2) = x from rfl) ▸ hx
        rw [hxeq] at hclen
        simp [hmem, Nat.not_le.mpr hclen]
      · have hge : 2 ≤ x.2.pins.length := by
          by_contra hlt
          exact hmem (hproc x hx (Nat.not_le.mp hlt))
        simp [hmem, hge]
    show g0.channels.foldlM pruneStep g0 = _
    rw [hfold]
    show some (pruneState g0 del2 D2) = some _
    unfold pruneState
    rw [hch]
  · intro pins hp
    rcases hw2 pins hp with h1 | h2
    · simp at h1
    · exact h2

end PruneLemmas

section DeleteLemmas

theorem resetPinConn_nodes_isSome {g g' : Graph} {np : NodePin}
    (h : g.resetPinConn np = some g') :
    ∀ k, (g'.nodes.lookup k).isSome = (g.nodes.lookup k).isSome := by
  unfold Graph.resetPinConn at h
  cases hl : g.nodes.lookup np.node with
  | none => rw [hl] at h; cases h
  | some n0 =>
    rw [hl] at h
    cases h
    intro k
    exact isSome_lookup_updA np.node k
      (fun n => { n with connections := setA np.pin "nil" n.connections }) g.nodes

theorem resetPinConn_channels {g g' : Graph} {np : NodePin}
    (h : g.resetPinConn np = some g') : g'.channels = g.channels := by
  unfold Graph.resetPinConn at h
  cases hl : g.nodes.lookup np.node with
  | none => rw [hl] at h; cases h
  | some n0 => rw [hl] at h; cases h; rfl

theorem resetFold_nodes_isSome (pins : List NodePin) :
    ∀ g g', pins.foldlM Graph.resetPinConn g = some g' →
      ∀ k, (g'.nodes.lookup k).isSome = (g.nodes.lookup k).isSome := by
  induction pins with
  | nil => intro g g' h k; cases h; rfl
  | cons np rest ih =>
    intro g g' h k
    rw [List.foldlM_cons] at h
    obtain ⟨g1, h1, h2⟩ := Option.bind_eq_some.mp h
    exact (ih g1 g' h2 k).trans (resetPinConn_nodes_isSome h1 k)

theorem resetFold_channels (pins : List NodePin) :
    ∀ g g', pins.foldlM Graph.resetPinConn g = some g' → g'.channels = g.channels := by
  induction pins with
  | nil => intro g g' h; cases h; rfl
  | cons np rest ih =>
    intro g g' h
    rw [List.foldlM_cons] at h
    obtain ⟨g1, h1, h2⟩ := Option.bind_eq_some.mp h
    exact (ih g1 g' h2).trans (resetPinConn_channels h1)

/-- Success and full effect of the disconnect phase of `DeleteChannel`,
when every wired pin names an existing node. -/
theorem resetFold (pins : List NodePin) :
    ∀ g : Graph, (∀ np ∈ pins, (g.nodes.lookup np.node).isSome = true) →
      ∃ g', pins.foldlM Graph.resetPinConn g = some g' ∧
        g'.channels = g.channels ∧ g'.types = g.types ∧ g'.name = g.name ∧
        g'.nodes.map Prod.fst = g.nodes.map Prod.fst ∧
        (∀ node, (g'.nodes.lookup node).isSome = (g.nodes.lookup node).isSome) ∧
        (∀ node n', g'.nodes.lookup node = some n' →
          ∃ n, g.nodes.lookup node = some n ∧
            n'.name = n.name ∧ n'.partPins = n.partPins ∧
            n'.pinTypes = n.pinTypes ∧ n'.typeParams = n.typeParams ∧
            (∀ pin, (⟨node, pin⟩ : NodePin) ∈ pins →
              n'.connections.lookup pin = some "nil") ∧
            (∀ pin, (⟨node, pin⟩ : NodePin) ∉ pins →
              n'.connections.lookup pin = n.connections.lookup pin)) := by
  induction pins with
  | nil =>
    intro g _
    refine ⟨g, rfl, rfl, rfl, rfl, rfl, fun _ => rfl, ?_⟩
    intro node n' h
    exact ⟨n', h, rfl, rfl, rfl, rfl,
      fun pin hp => absurd hp (List.not_mem_nil _), fun _ _ => rfl⟩
  | cons np rest ih =>
    intro g hall
    have hnp : (g.nodes.lookup np.node).isSome = true :=
      hall np (List.mem_cons_self _ _)
    obtain ⟨n0, hn0⟩ := Option.isSome_iff_exists.mp hnp
    set g1 : Graph := { g with
      nodes := updA np.node
        (fun n => { n with connections := setA np.pin "nil" n.connections }) g.nodes }
      with hg1
    have hg1nodes : g1.nodes = updA np.node
        (fun n => { n with connections := setA np.pin "nil" n.connections }) g.nodes := rfl
    have hreset : g.resetPinConn np = some g1 := by
      unfold Graph.resetPinConn
      rw [hn0]
    have hrest : ∀ np' ∈ rest, (g1.nodes.lookup np'.node).isSome = true := by
      intro np' hmem
      rw [hg1nodes, isSome_lookup_updA]
      exact hall np' (List.mem_cons_of_mem _ hmem)
    obtain ⟨g', hfold, hch, hty, hnm, hkeys, hsome, hnode⟩ := ih g1 hrest
    refine ⟨g', ?_, hch, hty, hnm, ?_, ?_, ?_⟩
    · rw [List.foldlM_cons, hreset]
      exact hfold
    · rw [hkeys, hg1nodes]
      exact keys_updA _ _ _
    · intro node
      rw [hsome node, hg1nodes]
      exact isSome_lookup_updA _ _ _ _
    · intro node n' h'
      obtain ⟨n1, hn1, hname, hpp, hpt, htp, hin, hout⟩ := hnode node n' h'
      rw [hg1nodes, lookup_updA] at hn1
      by_cases hnd : node = np.node
      · rw [if_pos hnd, hn0] at hn1
        rw [Option.map_some'] at hn1
        injection hn1 with hn1
        refine ⟨n0, by rw [hnd]; exact hn0, ?_, ?_, ?_, ?_, ?_, ?_⟩
        · rw [hname, ← hn1]
        · rw [hpp, ← hn1]
        · rw [hpt, ← hn1]
        · rw [htp, ← hn1]
        · intro pin hpin
          by_cases hr : (⟨node, pin⟩ : NodePin) ∈ rest
          · exact hin pin hr
          · have hpineq : pin = np.pin := by
              rcases List.mem_cons.mp hpin with heq | hmem
              · exact congrArg NodePin.pin heq
              · exact absurd hmem hr
            rw [hout pin hr, ← hn1]
            show (setA np.pin "nil" n0.connections).lookup pin = some "nil"
            rw [lookup_setA, if_pos hpineq]
        · intro pin hpin
          have hr : (⟨node, pin⟩ : NodePin) ∉ rest :=
            fun hmem => hpin (List.mem_cons_of_mem _ hmem)
          have hpineq : ¬pin = np.pin := by
            intro heq
            apply hpin
            have : (⟨node, pin⟩ : NodePin) = np := by
              cases np
              cases hnd
              cases heq
              rfl
            rw [this]
            exact List.mem_cons_self _ _
          rw [hout pin hr, ← hn1]
          show (setA np.pin "nil" n0.connections).lookup pin = n0.connections.lookup pin
          rw [lookup_setA, if_neg hpineq]
      · rw [if_neg hnd] at hn1
        refine ⟨n1, hn1, hname, hpp, hpt, htp, ?_, ?_⟩
        · intro pin hpin
          rcases List.mem_cons.mp hpin with heq | hmem
          · exact absurd (congrArg NodePin.node heq) hnd
          · exact hin pin hmem
        · intro pin hpin
          exact hout pin (fun hmem => hpin (List.mem_cons_of_mem _ hmem))

theorem resetFold_none (pins : List NodePin) :
    ∀ g, (∃ np ∈ pins, g.nodes.lookup np.node = none) →
      pins.foldlM Graph.resetPinConn g = none := by
  induction pins with
  | nil =>
    intro g h
    obtain ⟨np, hmem, _⟩ := h
    exact absurd hmem (List.not_mem_nil _)
  | cons np rest ih =>
    intro g h
    cases hr : g.resetPinConn np with
    | none => rw [List.foldlM_cons, hr]; rfl
    | some g1 =>
      rw [List.foldlM_cons, hr]
      show rest.foldlM Graph.resetPinConn g1 = none
      obtain ⟨np', hmem, hnone⟩ := h
      rcases List.mem_cons.mp hmem with heq | hmem'
      · exfalso
        unfold Graph.resetPinConn at hr
        rw [show g.nodes.lookup np.node = none from heq ▸ hnone] at hr
        cases hr
      · apply ih
        refine ⟨np', hmem', ?_⟩
        have hs := resetPinConn_nodes_isSome hr np'.node
        rw [hnone] at hs
        cases ho : g1.nodes.lookup np'.node with
        | none => rfl
        | some x => rw [ho] at hs; simp at hs

/-- Success and effect of `DeleteChannel` when every wired pin names an
existing node. -/
theorem deleteChannel_some {g : Graph} {ch : Channel}
    (hall : ∀ np ∈ ch.pins, (g.nodes.lookup np.node).isSome = true) :
    ∃ g', g.DeleteChannel ch = some g' ∧
      g'.channels = g.channels.filter (fun e => e.1 ≠ ch.name) ∧
      g'.types = g.types ∧ g'.name = g.name ∧
      g'.nodes.map Prod.fst = g.nodes.map Prod.fst ∧
      (∀ node, (g'.nodes.lookup node).isSome = (g.nodes.lookup node).isSome) ∧
      (∀ node n', g'.nodes.lookup node = some n' →
        ∃ n, g.nodes.lookup node = some n ∧
          n'.name = n.name ∧ n'.partPins = n.partPins ∧
          n'.pinTypes = n.pinTypes ∧ n'.typeParams = n.typeParams ∧
          (∀ pin, (⟨node, pin⟩ : NodePin) ∈ ch.pins →
            n'.connections.lookup pin = some "nil") ∧
          (∀ pin, (⟨node, pin⟩ : NodePin) ∉ ch.pins →
            n'.connections.lookup pin = n.connections.lookup pin)) := by
  obtain ⟨gf, hfold, hch, hty, hnm, hkeys, hsome, hnode⟩ := resetFold ch.pins g hall
  refine ⟨{ gf with channels := gf.channels.filter (fun e => e.1 ≠ ch.name) },
    ?_, ?_, hty, hnm, hkeys, hsome, hnode⟩
  · unfold Graph.DeleteChannel
    rw [hfold]
    rfl
  · show gf.channels.filter (fun e => e.1 ≠ ch.name) = _
    rw [hch]

theorem deleteChannel_none {g : Graph} {ch : Channel}
    (h : ∃ np ∈ ch.pins, g.nodes.lookup np.node = none) :
    g.DeleteChannel ch = none := by
  unfold Graph.DeleteChannel
  rw [resetFold_none ch.pins g h]
  rfl

theorem deleteChannel_nodes_isSome {g g' : Graph} {ch : Channel}
    (h : g.DeleteChannel ch = some g') :
    ∀ k, (g'.nodes.lookup k).isSome = (g.nodes.lookup k).isSome := by
  unfold Graph.DeleteChannel at h
  obtain ⟨gf, hfold, hpure⟩ := Option.bind_eq_some.mp h
  cases hpure
  intro k
  exact resetFold_nodes_isSome ch.pins g gf hfold k

/-- Branch equations for `deleteNodeStep`. -/
theorem deleteNodeStep_nil {nname : String} {b : Bool} {acc : Graph × List String}
    {pc : String × String} (hnil : pc.2 = "nil") :
    deleteNodeStep nname b acc pc = acc := by
  unfold deleteNodeStep
  rw [if_pos hnil]

theorem deleteNodeStep_noChan {nname : String} {b : Bool} {acc : Graph × List String}
    {pc : String × String} (hnil : ¬pc.2 = "nil")
    (hl : acc.1.channels.lookup pc.2 = none) :
    deleteNodeStep nname b acc pc = acc := by
  unfold deleteNodeStep
  rw [if_neg hnil, hl]

theorem deleteNodeStep_some {nname : String} {b : Bool} {acc : Graph × List String}
    {pc : String × String} {ch : Channel} (hnil : ¬pc.2 = "nil")
    (hl : acc.1.channels.lookup pc.2 = some ch) :
    deleteNodeStep nname b acc pc =
      if b ∧ (ch.RemovePin nname pc.1).pins.length < 2
      then ({ acc.1 with channels := updA pc.2 (fun _ => ch.RemovePin nname pc.1) acc.1.channels },
            acc.2 ++ [pc.2])
      else ({ acc.1 with channels := updA pc.2 (fun _ => ch.RemovePin nname pc.1) acc.1.channels },
            acc.2) := by
  unfold deleteNodeStep
  rw [if_neg hnil, hl]

theorem deleteNodeStep_nodes (nname : String) (b : Bool) (acc : Graph × List String)
    (pc : String × String) :
    (deleteNodeStep nname b acc pc).1.nodes = acc.1.nodes := by
  by_cases hnil : pc.2 = "nil"
  · rw [deleteNodeStep_nil hnil]
  · cases hl : acc.1.channels.lookup pc.2 with
    | none => rw [deleteNodeStep_noChan hnil hl]
    | some ch =>
      rw [deleteNodeStep_some hnil hl]
      by_cases hb : b ∧ (ch.RemovePin nname pc.1).pins.length < 2
      · rw [if_pos hb]
      · rw [if_neg hb]

theorem deleteNodeStep_channels_isSome (nname : String) (b : Bool)
    (acc : Graph × List String) (pc : String × String) (k : String) :
    (((deleteNodeStep nname b acc pc).1.channels.lookup k)).isSome =
      ((acc.1.channels.lookup k)).isSome := by
  by_cases hnil : pc.2 = "nil"
  · rw [deleteNodeStep_nil hnil]
  · cases hl : acc.1.channels.lookup pc.2 with
    | none => rw [deleteNodeStep_noChan hnil hl]
    | some ch =>
      rw [deleteNodeStep_some hnil hl]
      by_cases hb : b ∧ (ch.RemovePin nname pc.1).pins.length < 2
      · rw [if_pos hb]
        exact isSome_lookup_updA pc.2 k (fun _ => ch.RemovePin nname pc.1) acc.1.channels
      · rw [if_neg hb]
        exact isSome_lookup_updA pc.2 k (fun _ => ch.RemovePin nname pc.1) acc.1.channels

theorem deleteNodeFold_nodes (nname : String) (b : Bool) :
    ∀ (conns : List (String × String)) (acc : Graph × List String),
      ((conns.foldl (deleteNodeStep nname b) acc).1).nodes = acc.1.nodes := by
  intro conns
  induction conns with
  | nil => intro acc; rfl
  | cons pc rest ih =>
    intro acc
    rw [List.foldl_cons]
    exact (ih (deleteNodeStep nname b acc pc)).trans (deleteNodeStep_nodes nname b acc pc)

/-- Dropping the skipped entries (sentinel or dangling) from the connection
list does not change the disconnect fold. -/
theorem deleteNodeFold_filter (nname : String) (b : Bool) (g0 : Graph) :
    ∀ (conns : List (String × String)) (acc : Graph × List String),
      (∀ k, ((acc.1.channels.lookup k)).isSome = ((g0.channels.lookup k)).isSome) →
      conns.foldl (deleteNodeStep nname b) acc =
        (conns.filter (fun pc => !(pc.2 == "nil") && (g0.channels.lookup pc.2).isSome)).foldl
          (deleteNodeStep nname b) acc := by
  intro conns
  induction conns with
  | nil => intro acc _; rfl
  | cons pc rest ih =>
    intro acc hinv
    rw [List.foldl_cons, List.filter_cons]
    by_cases hnil : pc.2 = "nil"
    · have hpred : (!(pc.2 == "nil") && (g0.channels.lookup pc.2).isSome) = false := by
        simp [hnil]
      rw [hpred, deleteNodeStep_nil hnil]
      simpa using ih acc hinv
    · cases hl : acc.1.channels.lookup pc.2 with
      | none =>
        have hg0 : ((g0.channels.lookup pc.2)).isSome = false := by
          rw [← hinv pc.2, hl]
          rfl
        have hpred : (!(pc.2 == "nil") && (g0.channels.lookup pc.2).isSome) = false := by
          rw [hg0]
          simp
        rw [hpred, deleteNodeStep_noChan hnil hl]
        simpa using ih acc hinv
      | some ch =>
        have hg0 : ((g0.channels.lookup pc.2)).isSome = true := by
          rw [← hinv pc.2, hl]
          rfl
        have hpred : (!(pc.2 == "nil") && (g0.channels.lookup pc.2).isSome) = true := by
          rw [hg0]
          simp [hnil]
        rw [hpred]
        simp only [if_true]
        rw [List.foldl_cons]
        refine ih (deleteNodeStep nname b acc pc) ?_
        intro k
        rw [deleteNodeStep_channels_isSome]
        exact hinv k

theorem flushFold_nodes_isSome :
    ∀ (rem : List String) (g2 g' : Graph),
      rem.foldlM deleteNodeFlush g2 = some g' →
      ∀ k, (g'.nodes.lookup k).isSome = (g2.nodes.lookup k).isSome := by
  intro rem
  induction rem with
  | nil => intro g2 g' h k; cases h; rfl
  | cons cn rest ih =>
    intro g2 g' h k
    rw [List.foldlM_cons] at h
    obtain ⟨g3, h3, hrest⟩ := Option.bind_eq_some.mp h
    have hk := ih g3 g' hrest k
    unfold deleteNodeFlush at h3
    cases hl : g2.channels.lookup cn with
    | none => rw [hl] at h3; cases h3; exact hk
    | some ch =>
      rw [hl] at h3
      exact hk.trans (deleteChannel_nodes_isSome h3 k)

/-- `DeleteNode` always removes the node from the registry when it
succeeds. -/
theorem deleteNode_removes {g : Graph} {n : Node} {b : Bool} {g' : Graph}
    (h : g.DeleteNode n b = some g') : g'.nodes.lookup n.name = none := by
  have hfl : ∀ (rem : List String) (g2 g'' : Graph),
      rem.foldlM deleteNodeFlush g2 = some g'' →
      g2.nodes.lookup n.name = none → g''.nodes.lookup n.name = none := by
    intro rem g2 g'' hf h0
    have hs := flushFold_nodes_isSome rem g2 g'' hf n.name
    rw [h0] at hs
    cases ho : g''.nodes.lookup n.name with
    | none => rfl
    | some x => rw [ho] at hs; simp at hs
  unfold Graph.DeleteNode at h
  refine hfl _ _ _ h ?_
  show (((n.connections.foldl (deleteNodeStep n.name b) (g, [])).1.nodes.filter
      (fun e => e.1 ≠ n.name)).lookup n.name) = none
  rw [lookup_filterKey, if_pos rfl]

end DeleteLemmas

/-- C1 (code bug): on the spec's Scenario B — two concrete, incompatible
pin types (`int` on `X.out`, `string` on `Y.in`) sharing channel `c` —
`InferTypes` returns *success*, not a type-incompatibility error, because
graph.go line 252 checks the function's named `err` (still nil) instead of
the value returned by `g.types.Infer`, so the unification conflict is
dropped.  The pass even commits silently inconsistent types: the channel
resolves to `int` while `Y.in` keeps `string`. -/
theorem claim_C1 :
    conflictGraph.InferTypes.isOk = true ∧
    conflictGraph.InferTypes.map (fun gr => (gr.chanTypeOf "c", gr.pinTypeOf "Y" "in")) =
      .ok (some (.base "int"), some (.base "string")) :=
  ⟨rfl, rfl⟩

/-- C6 counterexample: an unconnected pin is *not* untouched by inference.
`U.out` is declared generic and wired to nothing (`"nil"` sentinel); the
pass still re-instantiates it to the scoped parameter `$U.T` and then
lithifies it to `interface{}` — its type changes even though no channel
constrains it. -/
theorem claim_C6_counterexample :
    unconnGraph.inferSetup.pinTypeOf "U" "out" = some (.param "U" "T") ∧
    unconnGraph.InferTypes.map (fun gr => gr.pinTypeOf "U" "out") = .ok (some tyInterface) :=
  ⟨rfl, rfl⟩

/-- C7 counterexample: `RefreshChannelsPins` is not idempotent on every
graph.  In `nilTrapGraph` a channel is literally named `"nil"` (the
unconnected sentinel).  The first refresh prunes the one-pin channel `D`,
resetting `A.p3` to `"nil"`; the second refresh then wires `A.p3` into the
channel *named* `"nil"`, growing its pin cache from 2 to 3. -/
theorem claim_C7_counterexample :
    nilTrapGraph.RefreshChannelsPins.isSome = true ∧
    nilTrapGraph.RefreshChannelsPins.bind Graph.RefreshChannelsPins ≠
      nilTrapGraph.RefreshChannelsPins := by
  exact ⟨rfl, by decide⟩

/-- C8 (code bug): the inference worklist loop does not terminate on every
graph.  In `ghostPinGraph` the node's connection map names pins its part
does not declare; `RefreshChannelsPins` happily caches them (it never
consults the part), the two-pin channel survives pruning, and then every
visit of the channel adopts the absent (`nil`) pin type — leaving the
channel's type unset — and re-enqueues the channel, forever.  No fuel makes
the loop settle, and the embedded `InferTypes` (whose fuel the Go loop does
not have) reports exhaustion. -/
theorem claim_C8 :
    InferTypesDiverges ghostPinGraph ∧
    ghostPinGraph.InferTypes = .error "worklist did not settle" := by
  constructor
  · intro fuel
    induction fuel with
    | zero => rfl
    | succ k ih =>
      have hstep : floodFillN (k + 1) ghostPinGraph.inferSetup
          (ghostPinGraph.inferSetup.channels.map Prod.fst) =
          floodFillN k ghostPinGraph.inferSetup
          (ghostPinGraph.inferSetup.channels.map Prod.fst) := rfl
      rw [hstep]; exact ih
  · rfl

/-- C9 (confirmed): `DeleteChannel` resets the connection entry of every
wired (node, pin) to the `"nil"` sentinel and removes the channel from the
registry; a wired pin naming a node absent from the registry makes the
operation fail fatally (the Go code calls `panic("node ... should exist")`),
embedded here as `none`. -/
theorem claim_C9 (g : Graph) (ch : Channel) :
    ((∀ np ∈ ch.pins, (g.nodes.lookup np.node).isSome = true) →
      ∃ g', g.DeleteChannel ch = some g' ∧
        g'.channels.lookup ch.name = none ∧
        ∀ np ∈ ch.pins, ∀ n', g'.nodes.lookup np.node = some n' →
          n'.connections.lookup np.pin = some "nil") ∧
    ((∃ np ∈ ch.pins, g.nodes.lookup np.node = none) →
      g.DeleteChannel ch = none) := by
  constructor
  · intro hall
    obtain ⟨g', hdel, hch, _, _, _, _, hnode⟩ := deleteChannel_some hall
    refine ⟨g', hdel, ?_, ?_⟩
    · rw [hch, lookup_filterKey, if_pos rfl]
    · intro np hnp n' h'
      obtain ⟨n, _, _, _, _, _, hin, _⟩ := hnode np.node n' h'
      exact hin np.pin hnp
  · exact deleteChannel_none

/-- Witness for C9: both halves exercised on concrete graphs — deleting the
two-pin channel of `nilWiredGraph` succeeds, resets both connections and
drops the registry entry; deleting a channel whose pin cache names the
unregistered node `B` fails. -/
theorem claim_C9_witness :
    (∃ g', nilWiredGraph.DeleteChannel nilWiredChan = some g' ∧
      g'.channels.lookup nilWiredChan.name = none ∧
      ∀ np ∈ nilWiredChan.pins, ∀ n', g'.nodes.lookup np.node = some n' →
        n'.connections.lookup np.pin = some "nil") ∧
    unconnGraph.DeleteChannel ghostChan = none :=
  ⟨(claim_C9 nilWiredGraph nilWiredChan).1 (by decide),
   (claim_C9 unconnGraph ghostChan).2 ⟨⟨"B", "p1"⟩, by decide, by decide⟩⟩

/-- C10 (confirmed): `DeleteNode` tolerates dangling channel names: a
connection entry naming a channel absent from the registry is skipped
exactly like the `"nil"` sentinel (filtering both kinds of entry out of the
connection map does not change the result), and a successful `DeleteNode`
always removes the node — in contrast to `DeleteChannel`, for which an
absent node is fatal (claim C9). -/
theorem claim_C10 (g : Graph) (n : Node) (b : Bool) :
    g.DeleteNode n b =
      g.DeleteNode { n with connections := n.connections.filter (fun pc => !(pc.2 == "nil") && (g.channels.lookup pc.2).isSome) } b ∧
    ∀ g', g.DeleteNode n b = some g' → g'.nodes.lookup n.name = none := by
  constructor
  · have h := deleteNodeFold_filter n.name b g n.connections (g, []) (fun _ => rfl)
    unfold Graph.DeleteNode
    rw [h]
  · intro g' h
    exact deleteNode_removes h

/-- Witness for C10: deleting `danglingNode` — whose connection map holds
one dangling name and one sentinel — succeeds with pruning enabled and
removes the node; filtering the skipped entries away gives the same
result. -/
theorem claim_C10_witness :
    danglingGraph.DeleteNode danglingNode true =
      danglingGraph.DeleteNode { danglingNode with connections := danglingNode.connections.filter (fun pc => !(pc.2 == "nil") && (danglingGraph.channels.lookup pc.2).isSome) } true ∧
    ∃ g', danglingGraph.DeleteNode danglingNode true = some g' ∧
      g'.nodes.lookup "Dg" = none :=
  ⟨(claim_C10 danglingGraph danglingNode true).1,
   ⟨_, rfl, (claim_C10 danglingGraph danglingNode true).2 _ rfl⟩⟩

theorem keys_mapVal {α β : Type} (f : String × α → β) (l : List (String × α)) :
    (l.map (fun e => (e.1, f e))).map Prod.fst = l.map Prod.fst := by
  rw [List.map_map]
  rfl

/-- C3 (confirmed): after `RefreshChannelsPins` returns, every channel still
registered has at least two pins in its rebuilt cache, and every channel
whose rebuilt cache held fewer than two pins is gone from the registry. -/
theorem claim_C3 (g : Graph) (h : GraphWF g) :
    ∃ g', g.RefreshChannelsPins = some g' ∧
      (∀ k c, g'.channels.lookup k = some c → 2 ≤ c.pins.length) ∧
      (∀ k c, g.rebuildPins.channels.lookup k = some c → c.pins.length < 2 →
        g'.channels.lookup k = none) := by
  obtain ⟨hndN, hndC, hnmN, hnmC, _⟩ := h
  have hkeys : g.rebuildPins.channels.map Prod.fst = g.channels.map Prod.fst := by
    rw [rebuildPins_eq]
    exact keys_mapVal _ _
  have hndC0 : (g.rebuildPins.channels.map Prod.fst).Nodup := by
    rw [hkeys]
    exact hndC
  have hnames0 : ∀ e ∈ g.rebuildPins.channels, e.2.name = e.1 := by
    intro e he
    rw [rebuildPins_eq] at he
    obtain ⟨x, hx, hxe⟩ := List.mem_map.mp he
    rw [← hxe]
    exact hnmC x hx
  have hvalid0 : ∀ e ∈ g.rebuildPins.channels, ∀ np ∈ e.2.pins,
      (g.rebuildPins.nodes.lookup np.node).isSome = true := by
    intro e he np hnp
    have hlk : g.rebuildPins.channels.lookup e.1 = some e.2 := mem_lookup hndC0 (by
      have hee : (e.1, e.2) = e := rfl
      rw [hee]
      exact he)
    obtain ⟨_, hprov⟩ := rebuildPins_provenance g e.1 e.2 hlk
    obtain ⟨en, hen, pc, _, _, _, hnp2⟩ := hprov np hnp
    rw [rebuildPins_nodes, hnp2]
    show (g.nodes.lookup en.2.name).isSome = true
    rw [hnmN en hen]
    exact isSome_lookup_of_mem hen
  obtain ⟨D2, hprune, _⟩ := pruneChannels_eq g.rebuildPins hndC0 hnames0 hvalid0
  refine ⟨_, hprune, ?_, ?_⟩
  · intro k c hkc
    have hmem : (k, c) ∈ g.rebuildPins.channels.filter
        (fun e => decide (2 ≤ e.2.pins.length)) := lookup_mem hkc
    exact of_decide_eq_true (List.mem_filter.mp hmem).2
  · intro k c hkc hlt
    show ((g.rebuildPins.channels.filter (fun e => decide (2 ≤ e.2.pins.length))).lookup k) = none
    rw [lookup_filter_nodup hndC0, hkc]
    simp [Nat.not_le.mpr hlt]

/-- Witness for C3 on a concrete graph: the refresh of `nilTrapGraph`
succeeds, its survivors have two or more pins, and its one-pin channel `D`
is deleted. -/
theorem claim_C3_witness :
    ∃ g', nilTrapGraph.RefreshChannelsPins = some g' ∧
      (∀ k c, g'.channels.lookup k = some c → 2 ≤ c.pins.length) ∧
      (∀ k c, nilTrapGraph.rebuildPins.channels.lookup k = some c → c.pins.length < 2 →
        g'.channels.lookup k = none) :=
  claim_C3 nilTrapGraph (by decide)

section IdempotenceLemmas

theorem collectConnFold_eq (isC : String → Bool) (nname : String) :
    ∀ (conns : List (String × String)) (π : String → List NodePin) (k : String),
      (conns.foldl (collectConnStep isC nname) π) k =
        if isC k = true then
          (conns.filter (fun pc => pc.2 == k)).foldl (fun P pc => addPinL P nname pc.1) (π k)
        else π k := by
  intro conns
  induction conns with
  | nil =>
    intro π k
    by_cases h : isC k = true
    · rw [if_pos h]
      rfl
    · rw [if_neg h]
      rfl
  | cons pc rest ih =>
    intro π k
    rw [List.foldl_cons, ih (collectConnStep isC nname π pc) k, List.filter_cons]
    by_cases hpk : pc.2 = k
    · have hbeq : (pc.2 == k) = true := by simp [hpk]
      rw [hbeq]
      simp only [if_true]
      by_cases hic : isC k = true
      · have hstep : (collectConnStep isC nname π pc) k = addPinL (π k) nname pc.1 := by
          unfold collectConnStep
          rw [hpk, if_pos hic, if_pos rfl]
        rw [if_pos hic, if_pos hic, hstep, List.foldl_cons]
      · have hstep : (collectConnStep isC nname π pc) k = π k := by
          unfold collectConnStep
          rw [hpk, if_neg hic]
        rw [if_neg hic, if_neg hic, hstep]
    · have hbeq : (pc.2 == k) = false := by simp [hpk]
      rw [hbeq]
      simp only [Bool.false_eq_true, if_false]
      have hstep : (collectConnStep isC nname π pc) k = π k := by
        unfold collectConnStep
        by_cases hic : isC pc.2 = true
        · rw [if_pos hic, if_neg (fun hh => hpk hh.symm)]
        · rw [if_neg hic]
      rw [hstep]

theorem collectPins_fold_eq (isC : String → Bool) :
    ∀ (nodes : List (String × Node)) (π : String → List NodePin) (k : String),
      (nodes.foldl (fun π2 kn =>
        kn.2.connections.foldl (collectConnStep isC kn.2.name) π2) π) k =
        if isC k = true then
          (entriesFor k nodes).foldl (fun P e => addPinL P e.1 e.2) (π k)
        else π k := by
  intro nodes
  induction nodes with
  | nil =>
    intro π k
    by_cases h : isC k = true
    · rw [if_pos h]
      rfl
    · rw [if_neg h]
      rfl
  | cons kn rest ih =>
    intro π k
    rw [List.foldl_cons, ih _ k]
    have hinner := collectConnFold_eq isC kn.2.name kn.2.connections π k
    have hef : entriesFor k (kn :: rest) =
        (kn.2.connections.filter (fun pc => pc.2 == k)).map (fun pc => (kn.2.name, pc.1)) ++
          entriesFor k rest := rfl
    by_cases h : isC k = true
    · rw [if_pos h, if_pos h, hinner, if_pos h, hef, List.foldl_append, List.foldl_map]
    · rw [if_neg h, if_neg h, hinner, if_neg h]

theorem collectPins_eq (isC : String → Bool) (nodes : List (String × Node)) (k : String) :
    collectPins isC nodes k =
      if isC k = true then
        (entriesFor k nodes).foldl (fun P e => addPinL P e.1 e.2) []
      else [] := by
  unfold collectPins
  rw [collectPins_fold_eq isC nodes (fun _ => []) k]

theorem setA_lookup_or {α : Type} (p : String) (v : α) (conns : List (String × α)) (q : String) :
    (setA p v conns).lookup q = conns.lookup q ∨ (setA p v conns).lookup q = some v := by
  rw [lookup_setA]
  by_cases h : q = p
  · rw [if_pos h]
    right
    rfl
  · rw [if_neg h]
    left
    rfl

theorem nilAwayS_lookup_or (pins : List NodePin) :
    ∀ (key : String) (conns : List (String × String)) (q : String),
      (nilAwayS pins key conns).lookup q = conns.lookup q ∨
      (nilAwayS pins key conns).lookup q = some "nil" := by
  induction pins with
  | nil =>
    intro key conns q
    left
    rfl
  | cons np rest ih =>
    intro key conns q
    have hcons : nilAwayS (np :: rest) key conns =
        nilAwayS rest key (if np.node = key then setA np.pin "nil" conns else conns) := rfl
    rw [hcons]
    by_cases hn : np.node = key
    · rw [if_pos hn]
      rcases ih key (setA np.pin "nil" conns) q with h | h
      · rcases setA_lookup_or np.pin "nil" conns q with h2 | h2
        · left
          rw [h, h2]
        · right
          rw [h, h2]
      · right
        exact h
    · rw [if_neg hn]
      exact ih key conns q

theorem keys_setA_nodup {α : Type} {conns : List (String × α)} {p : String} (v : α)
    (hnd : (conns.map Prod.fst).Nodup) : ((setA p v conns).map Prod.fst).Nodup := by
  unfold setA
  by_cases hs : (conns.lookup p).isSome
  · rw [if_pos hs, keys_updA]
    exact hnd
  · rw [if_neg hs, List.map_append]
    have hp : ¬p ∈ conns.map Prod.fst := by
      intro hmem
      obtain ⟨e, he, hke⟩ := List.mem_map.mp hmem
      rw [← hke] at hs
      exact hs (isSome_lookup_of_mem he)
    simp [List.nodup_append, hnd, hp]

theorem nilAwayS_keys_nodup (pins : List NodePin) :
    ∀ (key : String) (conns : List (String × String)),
      (conns.map Prod.fst).Nodup → ((nilAwayS pins key conns).map Prod.fst).Nodup := by
  induction pins with
  | nil =>
    intro key conns hnd
    exact hnd
  | cons np rest ih =>
    intro key conns hnd
    have hcons : nilAwayS (np :: rest) key conns =
        nilAwayS rest key (if np.node = key then setA np.pin "nil" conns else conns) := rfl
    rw [hcons]
    by_cases hn : np.node = key
    · rw [if_pos hn]
      exact ih key _ (keys_setA_nodup _ hnd)
    · rw [if_neg hn]
      exact ih key conns hnd

theorem filter_updA_nilvalue (k p : String) (hnil : (("nil" : String) == k) = false) :
    ∀ (conns : List (String × String)),
      (conns.map Prod.fst).Nodup →
      ¬conns.lookup p = some k →
      (updA p (fun _ => "nil") conns).filter (fun pc => pc.2 == k) =
        conns.filter (fun pc => pc.2 == k) := by
  intro conns
  induction conns with
  | nil =>
    intro _ _
    rfl
  | cons e t ih =>
    intro hnd hlk
    obtain ⟨b, v⟩ := e
    have hnd' : (t.map Prod.fst).Nodup := (List.nodup_cons.mp (by simpa using hnd)).2
    have hbt : ¬b ∈ t.map Prod.fst := (List.nodup_cons.mp (by simpa using hnd)).1
    rw [updA_cons]
    by_cases hb : b = p
    · rw [if_pos hb]
      have hv : (v == k) = false := by
        simp only [beq_eq_false_iff_ne, ne_eq]
        intro hv
        apply hlk
        rw [lookup_cons, if_pos hb.symm, hv]
      have ht : updA p (fun _ => "nil") t = t := by
        apply updA_not_mem
        rw [← hb]
        exact hbt
      rw [ht, List.filter_cons, List.filter_cons]
      show (if (("nil" : String) == k) = true then _ else _) = _
      rw [hnil]
      simp only [Bool.false_eq_true, if_false]
      rw [hv]
      simp only [Bool.false_eq_true, if_false]
    · rw [if_neg hb, List.filter_cons, List.filter_cons]
      have hlkt : ¬t.lookup p = some k := by
        intro hcontra
        apply hlk
        rw [lookup_cons, if_neg (fun hpb => hb hpb.symm)]
        exact hcontra
      by_cases hvk : ((v == k) : Bool) = true
      · rw [hvk]
        simp only [if_true]
        rw [ih hnd' hlkt]
      · rw [Bool.eq_false_iff.mpr hvk]
        simp only [Bool.false_eq_true, if_false]
        exact ih hnd' hlkt

theorem filter_setA_nil (k p : String) (hnil : (("nil" : String) == k) = false)
    (conns : List (String × String))
    (hnd : (conns.map Prod.fst).Nodup)
    (hlk : ¬conns.lookup p = some k) :
    (setA p "nil" conns).filter (fun pc => pc.2 == k) =
      conns.filter (fun pc => pc.2 == k) := by
  unfold setA
  by_cases hs : (conns.lookup p).isSome
  · rw [if_pos hs]
    exact filter_updA_nilvalue k p hnil conns hnd hlk
  · rw [if_neg hs, List.filter_append]
    have hone : List.filter (fun pc => pc.2 == k) [(p, "nil")] = [] := by
      have hc : (((p, "nil") : String × String).2 == k) = false := hnil
      rw [List.filter_cons, hc]
      simp
    rw [hone, List.append_nil]

theorem filter_nilAwayS (k : String) (hnil : (("nil" : String) == k) = false)
    (pins : List NodePin) :
    ∀ (key : String) (conns : List (String × String)),
      (conns.map Prod.fst).Nodup →
      (∀ np ∈ pins, np.node = key → ¬conns.lookup np.pin = some k) →
      (nilAwayS pins key conns).filter (fun pc => pc.2 == k) =
        conns.filter (fun pc => pc.2 == k) := by
  induction pins with
  | nil =>
    intro key conns _ _
    rfl
  | cons np rest ih =>
    intro key conns hnd hcond
    have hcons : nilAwayS (np :: rest) key conns =
        nilAwayS rest key (if np.node = key then setA np.pin "nil" conns else conns) := rfl
    rw [hcons]
    by_cases hn : np.node = key
    · rw [if_pos hn]
      have hlk : ¬conns.lookup np.pin = some k :=
        hcond np (List.mem_cons_self _ _) hn
      have hcond' : ∀ np' ∈ rest, np'.node = key →
          ¬(setA np.pin "nil" conns).lookup np'.pin = some k := by
        intro np' hm hk' hcontra
        rw [lookup_setA] at hcontra
        by_cases hq : np'.pin = np.pin
        · rw [if_pos hq] at hcontra
          have : (("nil" : String) == k) = true := by
            rw [Option.some.inj hcontra]
            simp
          rw [hnil] at this
          cases this
        · rw [if_neg hq] at hcontra
          exact hcond np' (List.mem_cons_of_mem _ hm) hk' hcontra
      rw [ih key (setA np.pin "nil" conns) (keys_setA_nodup _ hnd) hcond']
      exact filter_setA_nil k np.pin hnil conns hnd hlk
    · rw [if_neg hn]
      exact ih key conns hnd
        (fun np' hm hk' => hcond np' (List.mem_cons_of_mem _ hm) hk')

theorem filter_nilAwayMany (k : String) (hnil : (("nil" : String) == k) = false) :
    ∀ (Dp : List (List NodePin)) (key : String) (conns : List (String × String)),
      (conns.map Prod.fst).Nodup →
      (∀ pins ∈ Dp, ∀ np ∈ pins, np.node = key → ¬conns.lookup np.pin = some k) →
      (nilAwayMany Dp key conns).filter (fun pc => pc.2 == k) =
        conns.filter (fun pc => pc.2 == k) := by
  intro Dp
  induction Dp with
  | nil =>
    intro key conns _ _
    rfl
  | cons pins rest ih =>
    intro key conns hnd hcond
    have hcons : nilAwayMany (pins :: rest) key conns =
        nilAwayMany rest key (nilAwayS pins key conns) := rfl
    rw [hcons]
    have h1 := filter_nilAwayS k hnil pins key conns hnd
      (hcond pins (List.mem_cons_self _ _))
    have hcond' : ∀ pins' ∈ rest, ∀ np ∈ pins', np.node = key →
        ¬(nilAwayS pins key conns).lookup np.pin = some k := by
      intro pins' hm np hnp hk' hcontra
      rcases nilAwayS_lookup_or pins key conns np.pin with h2 | h2
      · rw [h2] at hcontra
        exact hcond pins' (List.mem_cons_of_mem _ hm) np hnp hk' hcontra
      · rw [h2] at hcontra
        have : (("nil" : String) == k) = true := by
          rw [Option.some.inj hcontra]
          simp
        rw [hnil] at this
        cases this
    rw [ih key (nilAwayS pins key conns) (nilAwayS_keys_nodup pins key conns hnd) hcond']
    exact h1

theorem entriesFor_map_eq (k : String) (F : String × Node → Node) :
    ∀ nodes : List (String × Node),
      (∀ kn ∈ nodes, (F kn).name = kn.2.name ∧
        (F kn).connections.filter (fun pc => pc.2 == k) =
          kn.2.connections.filter (fun pc => pc.2 == k)) →
      entriesFor k (nodes.map (fun kn => (kn.1, F kn))) = entriesFor k nodes := by
  intro nodes
  induction nodes with
  | nil =>
    intro _
    rfl
  | cons kn rest ih =>
    intro hall
    obtain ⟨hn, hf⟩ := hall kn (List.mem_cons_self _ _)
    show ((F kn).connections.filter (fun pc => pc.2 == k)).map (fun pc => ((F kn).name, pc.1)) ++
        entriesFor k (rest.map (fun kn => (kn.1, F kn))) = _
    rw [hn, hf, ih (fun x hx => hall x (List.mem_cons_of_mem _ hx))]
    rfl

theorem prune_identity (gx : Graph)
    (hnd : (gx.channels.map Prod.fst).Nodup)
    (hall : ∀ e ∈ gx.channels, ¬(e.2.pins.length < 2)) :
    gx.pruneChannels = some gx := by
  show gx.channels.foldlM pruneStep gx = some gx
  have hgen : ∀ L : List (String × Channel), (∀ e ∈ L, e ∈ gx.channels) →
      L.foldlM pruneStep gx = some gx := by
    intro L
    induction L with
    | nil =>
      intro _
      rfl
    | cons e rest ih =>
      intro hL
      rw [List.foldlM_cons]
      have he := hL e (List.mem_cons_self _ _)
      have hlk : gx.channels.lookup e.1 = some e.2 := mem_lookup hnd (by
        rw [show (e.1, e.2) = e from rfl]
        exact he)
      have hstep : pruneStep gx e = some gx := by
        unfold pruneStep
        rw [hlk]
        show (if e.2.pins.length < 2 then _ else _) = _
        rw [if_neg (hall e he)]
      rw [hstep]
      exact ih (fun x hx => hL x (List.mem_cons_of_mem _ hx))
  exact hgen gx.channels (fun _ he => he)

end IdempotenceLemmas

/-- C7 (corrected): `RefreshChannelsPins` is idempotent on every well-formed
graph that has no channel literally named `"nil"` (the unconnected
sentinel): if the first refresh returns `some g'`, refreshing `g'` returns
`some g'` again — identical registry, pin caches and connection maps. (The
unrestricted claim is false: `claim_C7_counterexample` shows a channel
actually named `"nil"` absorbs the connections reset by pruning, so the
second refresh grows its cache.) -/
theorem claim_C7 (g : Graph) (h : GraphWF g)
    (hnilc : g.channels.lookup "nil" = none) :
    ∀ g', g.RefreshChannelsPins = some g' → g'.RefreshChannelsPins = some g' := by
  obtain ⟨hndN, hndC, hnmN, hnmC, hconnN⟩ := h
  intro g' hg'
  have hkeys : g.rebuildPins.channels.map Prod.fst = g.channels.map Prod.fst := by
    rw [rebuildPins_eq]
    exact keys_mapVal _ _
  have hndC0 : (g.rebuildPins.channels.map Prod.fst).Nodup := by
    rw [hkeys]
    exact hndC
  have hnames0 : ∀ e ∈ g.rebuildPins.channels, e.2.name = e.1 := by
    intro e he
    rw [rebuildPins_eq] at he
    obtain ⟨x, hx, hxe⟩ := List.mem_map.mp he
    rw [← hxe]
    exact hnmC x hx
  have hvalid0 : ∀ e ∈ g.rebuildPins.channels, ∀ np ∈ e.2.pins,
      (g.rebuildPins.nodes.lookup np.node).isSome = true := by
    intro e he np hnp
    have hlk : g.rebuildPins.channels.lookup e.1 = some e.2 := mem_lookup hndC0 (by
      have hee : (e.1, e.2) = e := rfl
      rw [hee]
      exact he)
    obtain ⟨_, hprov⟩ := rebuildPins_provenance g e.1 e.2 hlk
    obtain ⟨en, hen, pc, _, _, _, hnp2⟩ := hprov np hnp
    rw [rebuildPins_nodes, hnp2]
    show (g.nodes.lookup en.2.name).isSome = true
    rw [hnmN en hen]
    exact isSome_lookup_of_mem hen
  obtain ⟨D2, hprune, hDw⟩ := pruneChannels_eq g.rebuildPins hndC0 hnames0 hvalid0
  have hg'some : some g' = g.rebuildPins.pruneChannels := hg'.symm
  rw [hprune] at hg'some
  have hg'eq := Option.some.inj hg'some
  have hCh' : g'.channels = g.rebuildPins.channels.filter (fun e => decide (2 ≤ e.2.pins.length)) := by rw [hg'eq]
  have hNd' : g'.nodes = g.rebuildPins.nodes.map (fun kn => (kn.1, { kn.2 with connections := nilAwayMany D2 kn.1 kn.2.connections })) := by rw [hg'eq]
  have hnodes2 : g'.nodes = g.nodes.map (fun kn => (kn.1, { kn.2 with connections := nilAwayMany D2 kn.1 kn.2.connections })) := by rw [hNd', rebuildPins_nodes]
  have hndC' : (g'.channels.map Prod.fst).Nodup := by
    rw [hCh']
    exact List.Nodup.sublist ((List.filter_sublist _).map Prod.fst) hndC0
  have hpins : ∀ e ∈ g'.channels,
      collectPins (fun s => (g'.channels.lookup s).isSome) g'.nodes e.1 = e.2.pins := by
    intro e heg'
    have he := heg'
    rw [hCh'] at he
    have hemem : e ∈ g.rebuildPins.channels := (List.mem_filter.mp he).1
    have hlen : 2 ≤ e.2.pins.length := of_decide_eq_true (List.mem_filter.mp he).2
    have hlke0 : g.rebuildPins.channels.lookup e.1 = some e.2 := mem_lookup hndC0 (by
      have hee : (e.1, e.2) = e := rfl
      rw [hee]
      exact hemem)
    have hlke0' := hlke0
    rw [rebuildPins_lookup] at hlke0'
    cases hgc : g.channels.lookup e.1 with
    | none =>
      rw [hgc] at hlke0'
      simp at hlke0'
    | some c0 =>
      rw [hgc, Option.map_some'] at hlke0'
      have heq := Option.some.inj hlke0'
      have hpins0 : e.2.pins =
          collectPins (fun s => (g.channels.lookup s).isSome) g.nodes e.1 := by rw [← heq]
      have hisCg : (g.channels.lookup e.1).isSome = true := by
        rw [hgc]
        rfl
      have hknil : ((("nil" : String)) == e.1) = false := by
        apply beq_eq_false_iff_ne.mpr
        intro hne
        rw [← hne, hnilc] at hgc
        exact Option.noConfusion hgc
      have hlk' : g'.channels.lookup e.1 = some e.2 := mem_lookup hndC' (by
        have hee : (e.1, e.2) = e := rfl
        rw [hee]
        exact heg')
      have hisC' : (g'.channels.lookup e.1).isSome = true := by
        rw [hlk']
        rfl
      have hEF : entriesFor e.1 g'.nodes = entriesFor e.1 g.nodes := by
        rw [hnodes2]
        apply entriesFor_map_eq e.1
          (fun kn => { kn.2 with connections := nilAwayMany D2 kn.1 kn.2.connections }) g.nodes
        intro kn hkn
        constructor
        · rfl
        · apply filter_nilAwayMany e.1 hknil D2 kn.1 kn.2.connections (hconnN kn hkn)
          intro pins hpins2 np hnp hnode hcontra
          obtain ⟨d, c0d, hd, hdlen, hpeq⟩ := hDw pins hpins2
          rw [hpeq] at hnp
          obtain ⟨_, hprov⟩ := rebuildPins_provenance g d c0d hd
          obtain ⟨en, hen, pc, hpc, _, hpcd, hnp2⟩ := hprov np hnp
          have hnode2 : en.1 = kn.1 := by
            rw [← hnode, hnp2]
            exact (hnmN en hen).symm
          have hkn2 : kn.2 = en.2 := by
            apply nodup_entry_unique hndN
            · have hee : (kn.1, kn.2) = kn := rfl
              rw [hee]
              exact hkn
            · rw [← hnode2]
              have hee : (en.1, en.2) = en := rfl
              rw [hee]
              exact hen
          have hpinpc : np.pin = pc.1 := by rw [hnp2]
          have hlkpc : kn.2.connections.lookup pc.1 = some pc.2 := by
            rw [hkn2]
            exact mem_lookup (hconnN en hen) (by
              have hee : (pc.1, pc.2) = pc := rfl
              rw [hee]
              exact hpc)
          rw [hpinpc, hlkpc] at hcontra
          have hde : d = e.1 := by
            rw [← hpcd]
            exact Option.some.inj hcontra
          rw [hde, hlke0] at hd
          have he2 : e.2 = c0d := Option.some.inj hd
          rw [← he2] at hdlen
          exact absurd hlen (Nat.not_le.mpr hdlen)
      rw [hpins0, collectPins_eq, collectPins_eq, if_pos hisC', if_pos hisCg, hEF]
  have hreb : g'.rebuildPins = g' := by
    rw [rebuildPins_eq]
    have hmap : g'.channels.map (fun e => (e.1, { e.2 with pins := collectPins (fun s => (g'.channels.lookup s).isSome) g'.nodes e.1 })) = g'.channels := by
      have h1 : g'.channels.map (fun e => (e.1, { e.2 with pins := collectPins (fun s => (g'.channels.lookup s).isSome) g'.nodes e.1 })) = g'.channels.map (fun a => a) := by
        apply List.map_congr_left
        intro e he
        rw [hpins e he]
      rw [h1, List.map_id']
    show { g' with channels := g'.channels.map (fun e => (e.1, { e.2 with pins := collectPins (fun s => (g'.channels.lookup s).isSome) g'.nodes e.1 })) } = g'
    rw [hmap]
  have hall : ∀ e ∈ g'.channels, ¬(e.2.pins.length < 2) := by
    intro e he
    rw [hCh'] at he
    exact Nat.not_lt.mpr (of_decide_eq_true (List.mem_filter.mp he).2)
  show g'.rebuildPins.pruneChannels = some g'
  rw [hreb]
  exact prune_identity g' hndC' hall

/-- Witness for C7: `scenarioA` is well-formed, has no channel named
`"nil"`, and refreshing its refresh result is a fixed point. -/
theorem claim_C7_witness :
    GraphWF scenarioA ∧ scenarioA.channels.lookup "nil" = none ∧
      ∀ g', scenarioA.RefreshChannelsPins = some g' →
        g'.RefreshChannelsPins = some g' :=
  ⟨by decide, by rfl, claim_C7 scenarioA (by decide) (by rfl)⟩

section DeleteNodeFull

theorem remB_append (nname : String) (d1 d2 : List (String × String)) (k : String)
    (np : NodePin) :
    remB nname (d1 ++ d2) k np = (remB nname d1 k np || remB nname d2 k np) := by
  unfold remB
  exact List.any_append

theorem filter_remB_append (nname : String) (d1 d2 : List (String × String)) (k : String)
    (pins : List NodePin) :
    pins.filter (fun np => !(remB nname (d1 ++ d2) k np)) =
      (pins.filter (fun np => !(remB nname d1 k np))).filter
        (fun np => !(remB nname d2 k np)) := by
  rw [List.filter_filter]
  apply List.filter_congr
  intro np _
  rw [remB_append]
  cases remB nname d1 k np <;> cases remB nname d2 k np <;> rfl

theorem remB_snoc_other (nname : String) (done : List (String × String))
    (pc : String × String) (k : String) (hk : (pc.2 == k) = false) (np : NodePin) :
    remB nname (done ++ [pc]) k np = remB nname done k np := by
  rw [remB_append]
  have h : remB nname [pc] k np = false := by
    simp [remB, hk]
  rw [h, Bool.or_false]

theorem filter_remB_snoc_other (nname : String) (done : List (String × String))
    (pc : String × String) (k : String) (hk : (pc.2 == k) = false)
    (pins : List NodePin) :
    pins.filter (fun np => !(remB nname (done ++ [pc]) k np)) =
      pins.filter (fun np => !(remB nname done k np)) := by
  apply List.filter_congr
  intro np _
  rw [remB_snoc_other nname done pc k hk np]

theorem midG_nil (g : Graph) (nname : String) : midG g nname [] = g := by
  unfold midG
  have h1 : g.channels.map (fun e =>
      (e.1, { e.2 with pins := e.2.pins.filter (fun np => !(remB nname [] e.1 np)) })) =
      g.channels.map (fun a => a) := by
    apply List.map_congr_left
    intro e he
    have h2 : e.2.pins.filter (fun np => !(remB nname [] e.1 np)) = e.2.pins := by
      simp [remB]
    rw [h2]
  rw [h1, List.map_id']

theorem midG_lookup (g : Graph) (nname : String) (done : List (String × String))
    (k : String) :
    (midG g nname done).channels.lookup k = (g.channels.lookup k).map
      (fun c => { c with pins := c.pins.filter (fun np => !(remB nname done k np)) }) := by
  unfold midG
  exact lookup_mapVal
    (fun e => { e.2 with pins := e.2.pins.filter (fun np => !(remB nname done e.1 np)) })
    g.channels k

theorem midG_keys (g : Graph) (nname : String) (done : List (String × String)) :
    (midG g nname done).channels.map Prod.fst = g.channels.map Prod.fst := by
  unfold midG
  exact keys_mapVal
    (fun e => { e.2 with pins := e.2.pins.filter (fun np => !(remB nname done e.1 np)) })
    g.channels

theorem midG_snoc_unreg (g : Graph) (nname : String) (done : List (String × String))
    (pc : String × String) (hk : g.channels.lookup pc.2 = none) :
    midG g nname (done ++ [pc]) = midG g nname done := by
  unfold midG
  have hmapeq : g.channels.map (fun e =>
      (e.1, { e.2 with pins := e.2.pins.filter (fun np => !(remB nname (done ++ [pc]) e.1 np)) })) =
      g.channels.map (fun e =>
      (e.1, { e.2 with pins := e.2.pins.filter (fun np => !(remB nname done e.1 np)) })) := by
    apply List.map_congr_left
    intro e he
    have hne : (pc.2 == e.1) = false := by
      apply beq_eq_false_iff_ne.mpr
      intro heq
      have hs := isSome_lookup_of_mem he
      rw [← heq, hk] at hs
      simp at hs
    rw [filter_remB_snoc_other nname done pc e.1 hne e.2.pins]
  rw [hmapeq]

/-- With a consistent pin cache, the removals the disconnect loop of
`DeleteNode n` performs on a registered channel are exactly the pins whose
node is `n`. -/
theorem remB_full_filter (g : Graph) (n : Node)
    (hpc : PinsConsistent g) (hn : g.nodes.lookup n.name = some n)
    (k : String) (c : Channel) (hc : g.channels.lookup k = some c) :
    c.pins.filter (fun np => !(remB n.name n.connections k np)) =
      c.pins.filter (fun np => !(np.node == n.name)) := by
  apply List.filter_congr
  intro np hnp
  by_cases hnode : np.node = n.name
  · have hconn : n.connections.lookup np.pin = some k := by
      have h1 := hpc.1 (k, c) (lookup_mem hc) np hnp
      rw [hnode, hn] at h1
      exact h1
    have hmem : (np.pin, k) ∈ n.connections := lookup_mem hconn
    have hrem : remB n.name n.connections k np = true := by
      unfold remB
      apply List.any_eq_true.mpr
      refine ⟨(np.pin, k), hmem, ?_⟩
      have hnpeta : np = (⟨n.name, np.pin⟩ : NodePin) := by
        have : np = (⟨np.node, np.pin⟩ : NodePin) := rfl
        rw [this, hnode]
      simp [← hnpeta]
    rw [hrem, hnode]
    simp
  · have hrem : remB n.name n.connections k np = false := by
      unfold remB
      rw [List.any_eq_false]
      intro pc _
      have hne : ¬np = (⟨n.name, pc.1⟩ : NodePin) := by
        intro heq
        apply hnode
        rw [heq]
      simp [hne]
    rw [hrem]
    simp [hnode]

/-- With a consistent pin cache, a registered channel has an entry in
node `n`'s connection map naming it exactly when its pin cache holds a pin
of `n`. -/
theorem touched_iff_ref (g : Graph) (n : Node)
    (hpc : PinsConsistent g) (hn : g.nodes.lookup n.name = some n)
    (k : String) (c : Channel) (hc : g.channels.lookup k = some c) :
    (∃ p, (p, k) ∈ n.connections) ↔ ∃ np ∈ c.pins, np.node = n.name := by
  constructor
  · intro hex
    obtain ⟨p, hp⟩ := hex
    have h2 := hpc.2 (n.name, n) (lookup_mem hn) (p, k) hp c (by
      show c ∈ g.channels.lookup k
      rw [hc]
      rfl)
    exact ⟨⟨n.name, p⟩, h2, rfl⟩
  · intro hex
    obtain ⟨np, hnp, hnode⟩ := hex
    have hconn : n.connections.lookup np.pin = some k := by
      have h1 := hpc.1 (k, c) (lookup_mem hc) np hnp
      rw [hnode, hn] at h1
      exact h1
    exact ⟨np.pin, lookup_mem hconn⟩

/-- Invariant of the disconnect phase of `DeleteNode`: the folded graph is
`midG` of the processed entries, and the collected channels are exactly the
registered channels already touched whose current pin count is below two
(when `cleanupChans` is set). -/
theorem deleteNodeFoldInv (g : Graph) (nname : String) (b : Bool)
    (hndC : (g.channels.map Prod.fst).Nodup)
    (hnilc : g.channels.lookup "nil" = none) :
    ∀ (todo done : List (String × String)) (marked : List String),
      (∀ k, k ∈ marked → b = true ∧ ∃ c, g.channels.lookup k = some c ∧
          (c.pins.filter (fun np => !(remB nname done k np))).length < 2 ∧
          ∃ p, (p, k) ∈ done) →
      (∀ k c, b = true → g.channels.lookup k = some c →
          (c.pins.filter (fun np => !(remB nname done k np))).length < 2 →
          (∃ p, (p, k) ∈ done) → k ∈ marked) →
      ∃ marked',
        todo.foldl (deleteNodeStep nname b) (midG g nname done, marked) =
          (midG g nname (done ++ todo), marked') ∧
        (∀ k, k ∈ marked' → b = true ∧ ∃ c, g.channels.lookup k = some c ∧
            (c.pins.filter (fun np => !(remB nname (done ++ todo) k np))).length < 2 ∧
            ∃ p, (p, k) ∈ done ++ todo) ∧
        (∀ k c, b = true → g.channels.lookup k = some c →
            (c.pins.filter (fun np => !(remB nname (done ++ todo) k np))).length < 2 →
            (∃ p, (p, k) ∈ done ++ todo) → k ∈ marked') := by
  intro todo
  induction todo with
  | nil =>
    intro done marked h1 h2
    refine ⟨marked, ?_, ?_, ?_⟩
    · show (midG g nname done, marked) = _
      rw [List.append_nil]
    · simp only [List.append_nil]
      exact h1
    · simp only [List.append_nil]
      exact h2
  | cons pc rest ih =>
    intro done marked h1 h2
    rw [List.foldl_cons]
    cases hc0opt : g.channels.lookup pc.2 with
    | none =>
      have hstep : deleteNodeStep nname b (midG g nname done, marked) pc =
          (midG g nname done, marked) := by
        by_cases hnil : pc.2 = "nil"
        · exact deleteNodeStep_nil hnil
        · apply deleteNodeStep_noChan hnil
          show (midG g nname done).channels.lookup pc.2 = none
          rw [midG_lookup, hc0opt]
          rfl
      rw [hstep, show midG g nname done = midG g nname (done ++ [pc]) from
        (midG_snoc_unreg g nname done pc hc0opt).symm]
      have h1' : ∀ k, k ∈ marked → b = true ∧ ∃ c, g.channels.lookup k = some c ∧
          (c.pins.filter (fun np => !(remB nname (done ++ [pc]) k np))).length < 2 ∧
          ∃ p, (p, k) ∈ done ++ [pc] := by
        intro k hk
        obtain ⟨hb, c, hcreg, hclen, p, hp⟩ := h1 k hk
        refine ⟨hb, c, hcreg, ?_, p, List.mem_append_left _ hp⟩
        calc (c.pins.filter (fun np => !(remB nname (done ++ [pc]) k np))).length
            ≤ (c.pins.filter (fun np => !(remB nname done k np))).length := by
              rw [filter_remB_append]
              exact (List.filter_sublist _).length_le
          _ < 2 := hclen
      have h2' : ∀ k c, b = true → g.channels.lookup k = some c →
          (c.pins.filter (fun np => !(remB nname (done ++ [pc]) k np))).length < 2 →
          (∃ p, (p, k) ∈ done ++ [pc]) → k ∈ marked := by
        intro k c hb hcreg hclen htouch
        have hkpc : ¬k = pc.2 := by
          intro hh
          rw [hh, hc0opt] at hcreg
          exact Option.noConfusion hcreg
        have hne : (pc.2 == k) = false := beq_eq_false_iff_ne.mpr (fun hh => hkpc hh.symm)
        rw [filter_remB_snoc_other nname done pc k hne] at hclen
        obtain ⟨p, hp⟩ := htouch
        rcases List.mem_append.mp hp with hp1 | hp2
        · exact h2 k c hb hcreg hclen ⟨p, hp1⟩
        · exact absurd (congrArg Prod.snd (List.mem_singleton.mp hp2)) hkpc
      obtain ⟨m', hfold, hinv1, hinv2⟩ := ih (done ++ [pc]) marked h1' h2'
      simp only [List.append_assoc, List.singleton_append] at hfold hinv1 hinv2
      exact ⟨m', hfold, hinv1, hinv2⟩
    | some c0 =>
      have hnotnil : ¬pc.2 = "nil" := by
        intro hh
        rw [hh, hnilc] at hc0opt
        exact Option.noConfusion hc0opt
      have hlkmid : (midG g nname done).channels.lookup pc.2 =
          some ({ c0 with pins := c0.pins.filter (fun np => !(remB nname done pc.2 np)) }) := by
        rw [midG_lookup, hc0opt]
        rfl
      have hremeq : ({ c0 with pins := c0.pins.filter (fun np => !(remB nname done pc.2 np)) } :
          Channel).RemovePin nname pc.1 =
          { c0 with pins := c0.pins.filter (fun np => !(remB nname (done ++ [pc]) pc.2 np)) } := by
        have hp : (c0.pins.filter (fun np => !(remB nname done pc.2 np))).filter
            (fun np => decide (np ≠ (⟨nname, pc.1⟩ : NodePin))) =
            c0.pins.filter (fun np => !(remB nname (done ++ [pc]) pc.2 np)) := by
          rw [filter_remB_append]
          apply List.filter_congr
          intro np _
          have h1b : remB nname [pc] pc.2 np = decide (np = (⟨nname, pc.1⟩ : NodePin)) := by
            simp [remB]
          rw [h1b, decide_not]
        unfold Channel.RemovePin
        show ({ c0 with pins := (c0.pins.filter (fun np => !(remB nname done pc.2 np))).filter (fun np => decide (np ≠ (⟨nname, pc.1⟩ : NodePin))) } : Channel) = _
        rw [hp]
      have hlen2 : (({ c0 with pins := c0.pins.filter (fun np => !(remB nname done pc.2 np)) } :
          Channel).RemovePin nname pc.1).pins.length =
          (c0.pins.filter (fun np => !(remB nname (done ++ [pc]) pc.2 np))).length := by
        rw [hremeq]
      have hch2 : updA pc.2 (fun _ => ({ c0 with pins := c0.pins.filter (fun np => !(remB nname done pc.2 np)) } : Channel).RemovePin nname pc.1) (midG g nname done).channels = (midG g nname (done ++ [pc])).channels := by
        rw [hremeq]
        show updA pc.2 (fun _ => ({ c0 with pins := c0.pins.filter (fun np => !(remB nname (done ++ [pc]) pc.2 np)) } : Channel)) (g.channels.map (fun e => (e.1, { e.2 with pins := e.2.pins.filter (fun np => !(remB nname done e.1 np)) }))) = (midG g nname (done ++ [pc])).channels
        rw [updA_mapVal]
        have hrhs : (midG g nname (done ++ [pc])).channels = g.channels.map (fun e => (e.1, { e.2 with pins := e.2.pins.filter (fun np => !(remB nname (done ++ [pc]) e.1 np)) })) := rfl
        rw [hrhs]
        apply List.map_congr_left
        intro e he
        by_cases he1 : e.1 = pc.2
        · rw [if_pos he1]
          have hmem1 : ((pc.2, e.2) : String × Channel) ∈ g.channels := by
            rw [← he1]
            have hee : (e.1, e.2) = e := rfl
            rw [hee]
            exact he
          have he2 : e.2 = c0 := nodup_entry_unique hndC hmem1 (lookup_mem hc0opt)
          rw [he2, he1]
        · rw [if_neg he1]
          have hne : (pc.2 == e.1) = false := beq_eq_false_iff_ne.mpr (fun hh => he1 hh.symm)
          rw [filter_remB_snoc_other nname done pc e.1 hne e.2.pins]
      have hgr : ({ midG g nname done with channels := updA pc.2 (fun _ => ({ c0 with pins := c0.pins.filter (fun np => !(remB nname done pc.2 np)) } : Channel).RemovePin nname pc.1) (midG g nname done).channels } : Graph) = midG g nname (done ++ [pc]) := by
        rw [hch2]
        show ({ g with channels := (midG g nname (done ++ [pc])).channels } : Graph) = _
        unfold midG
        rfl
      rw [deleteNodeStep_some hnotnil hlkmid]
      by_cases hbr : b = true ∧ (({ c0 with pins := c0.pins.filter (fun np => !(remB nname done pc.2 np)) } : Channel).RemovePin nname pc.1).pins.length < 2
      · rw [if_pos hbr, hgr]
        have h1' : ∀ k, k ∈ marked ++ [pc.2] → b = true ∧ ∃ c, g.channels.lookup k = some c ∧
            (c.pins.filter (fun np => !(remB nname (done ++ [pc]) k np))).length < 2 ∧
            ∃ p, (p, k) ∈ done ++ [pc] := by
          intro k hk
          rcases List.mem_append.mp hk with hk1 | hk2
          · obtain ⟨hb, c, hcreg, hclen, p, hp⟩ := h1 k hk1
            refine ⟨hb, c, hcreg, ?_, p, List.mem_append_left _ hp⟩
            calc (c.pins.filter (fun np => !(remB nname (done ++ [pc]) k np))).length
                ≤ (c.pins.filter (fun np => !(remB nname done k np))).length := by
                  rw [filter_remB_append]
                  exact (List.filter_sublist _).length_le
              _ < 2 := hclen
          · have hk2' : k = pc.2 := List.mem_singleton.mp hk2
            subst hk2'
            refine ⟨hbr.1, c0, hc0opt, ?_, pc.1,
              List.mem_append_right _ (List.mem_singleton.mpr rfl)⟩
            rw [← hlen2]
            exact hbr.2
        have h2' : ∀ k c, b = true → g.channels.lookup k = some c →
            (c.pins.filter (fun np => !(remB nname (done ++ [pc]) k np))).length < 2 →
            (∃ p, (p, k) ∈ done ++ [pc]) → k ∈ marked ++ [pc.2] := by
          intro k c hb hcreg hclen htouch
          by_cases hkpc : k = pc.2
          · subst hkpc
            exact List.mem_append_right _ (List.mem_singleton.mpr rfl)
          · have hne : (pc.2 == k) = false := beq_eq_false_iff_ne.mpr (fun hh => hkpc hh.symm)
            rw [filter_remB_snoc_other nname done pc k hne] at hclen
            obtain ⟨p, hp⟩ := htouch
            rcases List.mem_append.mp hp with hp1 | hp2
            · exact List.mem_append_left _ (h2 k c hb hcreg hclen ⟨p, hp1⟩)
            · exact absurd (congrArg Prod.snd (List.mem_singleton.mp hp2)) hkpc
        obtain ⟨m', hfold, hinv1, hinv2⟩ := ih (done ++ [pc]) (marked ++ [pc.2]) h1' h2'
        simp only [List.append_assoc, List.singleton_append] at hfold hinv1 hinv2
        exact ⟨m', hfold, hinv1, hinv2⟩
      · rw [if_neg hbr, hgr]
        have h1' : ∀ k, k ∈ marked → b = true ∧ ∃ c, g.channels.lookup k = some c ∧
            (c.pins.filter (fun np => !(remB nname (done ++ [pc]) k np))).length < 2 ∧
            ∃ p, (p, k) ∈ done ++ [pc] := by
          intro k hk
          obtain ⟨hb, c, hcreg, hclen, p, hp⟩ := h1 k hk
          refine ⟨hb, c, hcreg, ?_, p, List.mem_append_left _ hp⟩
          calc (c.pins.filter (fun np => !(remB nname (done ++ [pc]) k np))).length
              ≤ (c.pins.filter (fun np => !(remB nname done k np))).length := by
                rw [filter_remB_append]
                exact (List.filter_sublist _).length_le
            _ < 2 := hclen
        have h2' : ∀ k c, b = true → g.channels.lookup k = some c →
            (c.pins.filter (fun np => !(remB nname (done ++ [pc]) k np))).length < 2 →
            (∃ p, (p, k) ∈ done ++ [pc]) → k ∈ marked := by
          intro k c hb hcreg hclen htouch
          by_cases hkpc : k = pc.2
          · subst hkpc
            exfalso
            apply hbr
            have hcc : c = c0 := Option.some.inj (hcreg.symm.trans hc0opt)
            rw [hcc] at hclen
            refine ⟨hb, ?_⟩
            rw [hlen2]
            exact hclen
          · have hne : (pc.2 == k) = false := beq_eq_false_iff_ne.mpr (fun hh => hkpc hh.symm)
            rw [filter_remB_snoc_other nname done pc k hne] at hclen
            obtain ⟨p, hp⟩ := htouch
            rcases List.mem_append.mp hp with hp1 | hp2
            · exact h2 k c hb hcreg hclen ⟨p, hp1⟩
            · exact absurd (congrArg Prod.snd (List.mem_singleton.mp hp2)) hkpc
        obtain ⟨m', hfold, hinv1, hinv2⟩ := ih (done ++ [pc]) marked h1' h2'
        simp only [List.append_assoc, List.singleton_append] at hfold hinv1 hinv2
        exact ⟨m', hfold, hinv1, hinv2⟩

/-- Success and effect of the deletion phase of `DeleteNode`: every collected
channel is removed from the registry (values of survivors untouched),
provided every cached pin references a present node. -/
theorem flushFoldL :
    ∀ (rem : List String) (g2 : Graph),
      (g2.channels.map Prod.fst).Nodup →
      (∀ e ∈ g2.channels, e.2.name = e.1) →
      (∀ e ∈ g2.channels, ∀ np ∈ e.2.pins, (g2.nodes.lookup np.node).isSome = true) →
      ∃ g', rem.foldlM deleteNodeFlush g2 = some g' ∧
        g'.channels = g2.channels.filter (fun e => !(rem.contains e.1)) := by
  intro rem
  induction rem with
  | nil =>
    intro g2 hnd hnm hval
    refine ⟨g2, rfl, ?_⟩
    have hft : g2.channels.filter (fun e => !(([] : List String).contains e.1)) = g2.channels := by
      simp
    rw [hft]
  | cons cn rest ih =>
    intro g2 hnd hnm hval
    rw [List.foldlM_cons]
    cases hlk : g2.channels.lookup cn with
    | none =>
      have hstep : deleteNodeFlush g2 cn = some g2 := by
        unfold deleteNodeFlush
        rw [hlk]
      rw [hstep]
      obtain ⟨g', hfold, hch⟩ := ih g2 hnd hnm hval
      refine ⟨g', ?_, ?_⟩
      · show rest.foldlM deleteNodeFlush g2 = some g'
        exact hfold
      · rw [hch]
        apply List.filter_congr
        intro e he
        have hne : ¬e.1 = cn := by
          intro hh
          have hs := isSome_lookup_of_mem he
          rw [hh, hlk] at hs
          simp at hs
        simp [List.contains_cons, hne]
    | some ch =>
      have hchname : ch.name = cn := hnm (cn, ch) (lookup_mem hlk)
      have hall : ∀ np ∈ ch.pins, (g2.nodes.lookup np.node).isSome = true :=
        hval (cn, ch) (lookup_mem hlk)
      obtain ⟨g3, hdel3, hch3, _, _, _, hsome3, _⟩ := deleteChannel_some hall
      have hstep : deleteNodeFlush g2 cn = some g3 := by
        unfold deleteNodeFlush
        rw [hlk]
        exact hdel3
      rw [hstep]
      have hnd3 : (g3.channels.map Prod.fst).Nodup := by
        rw [hch3]
        exact List.Nodup.sublist ((List.filter_sublist _).map Prod.fst) hnd
      have hnm3 : ∀ e ∈ g3.channels, e.2.name = e.1 := by
        intro e he
        rw [hch3] at he
        exact hnm e (List.mem_filter.mp he).1
      have hval3 : ∀ e ∈ g3.channels, ∀ np ∈ e.2.pins,
          (g3.nodes.lookup np.node).isSome = true := by
        intro e he np hnp
        rw [hch3] at he
        rw [hsome3 np.node]
        exact hval e (List.mem_filter.mp he).1 np hnp
      obtain ⟨g', hfold, hch⟩ := ih g3 hnd3 hnm3 hval3
      refine ⟨g', ?_, ?_⟩
      · show rest.foldlM deleteNodeFlush g3 = some g'
        exact hfold
      · rw [hch, hch3, List.filter_filter]
        apply List.filter_congr
        intro e he
        by_cases hec : e.1 = cn
        · rw [hchname]
          simp [List.contains_cons, hec]
        · rw [hchname]
          simp [List.contains_cons, hec]

/-- `DeleteNode` as a whole: the disconnect phase yields `midG` of the full
connection map plus the collected channel list, and the result is the flush
of that list over the node-filtered graph. -/
theorem deleteNode_characterize (g : Graph) (n : Node) (b : Bool)
    (hndC : (g.channels.map Prod.fst).Nodup)
    (hnilc : g.channels.lookup "nil" = none) :
    ∃ marked' : List String,
      g.DeleteNode n b = marked'.foldlM deleteNodeFlush { midG g n.name n.connections with nodes := (midG g n.name n.connections).nodes.filter (fun e => e.1 ≠ n.name) } ∧
      (∀ k, k ∈ marked' → b = true ∧ ∃ c, g.channels.lookup k = some c ∧
          (c.pins.filter (fun np => !(remB n.name n.connections k np))).length < 2 ∧
          ∃ p, (p, k) ∈ n.connections) ∧
      (∀ k c, b = true → g.channels.lookup k = some c →
          (c.pins.filter (fun np => !(remB n.name n.connections k np))).length < 2 →
          (∃ p, (p, k) ∈ n.connections) → k ∈ marked') := by
  have h10 : ∀ k, k ∈ ([] : List String) → b = true ∧ ∃ c, g.channels.lookup k = some c ∧
      (c.pins.filter (fun np => !(remB n.name ([] : List (String × String)) k np))).length < 2 ∧
      ∃ p, (p, k) ∈ ([] : List (String × String)) := by
    intro k hk
    exact absurd hk (List.not_mem_nil k)
  have h20 : ∀ k c, b = true → g.channels.lookup k = some c →
      (c.pins.filter (fun np => !(remB n.name ([] : List (String × String)) k np))).length < 2 →
      (∃ p, (p, k) ∈ ([] : List (String × String))) → k ∈ ([] : List String) := by
    intro k c _ _ _ htouch
    obtain ⟨p, hp⟩ := htouch
    exact absurd hp (List.not_mem_nil _)
  obtain ⟨marked', hfold, hm1, hm2⟩ :=
    deleteNodeFoldInv g n.name b hndC hnilc n.connections [] [] h10 h20
  simp only [List.nil_append] at hfold hm1 hm2
  have hfold2 : n.connections.foldl (deleteNodeStep n.name b) (g, []) =
      (midG g n.name n.connections, marked') := by
    rw [show ((g, []) : Graph × List String) = (midG g n.name [], ([] : List String)) from by rw [midG_nil]]
    exact hfold
  refine ⟨marked', ?_, hm1, hm2⟩
  show ((n.connections.foldl (deleteNodeStep n.name b) (g, [])).2).foldlM deleteNodeFlush { (n.connections.foldl (deleteNodeStep n.name b) (g, [])).1 with nodes := (n.connections.foldl (deleteNodeStep n.name b) (g, [])).1.nodes.filter (fun e => e.1 ≠ n.name) } = _
  rw [hfold2]

/-- C4 (corrected): on a well-formed graph with consistent pin caches and no
channel literally named `"nil"`, `DeleteNode(n, true)` succeeds, leaves no
registered channel whose pin cache references `n`, and deletes every
channel that held a pin of `n` and whose remaining pins number fewer than
two; `DeleteNode(n, false)` succeeds and leaves every channel registered
with exactly its pins minus `n`'s. That the disconnect loop finishes before
any collected channel is deleted is what makes the flush total here: by
then no pin of `n` is left to trip `DeleteChannel`'s missing-node panic.
(Unrestricted the claim fails, see `claim_C4_counterexample`: entries
naming a channel literally named `"nil"` are skipped as the unconnected
sentinel, so that channel keeps its pins referencing `n`.) -/
theorem claim_C4 (g : Graph) (n : Node) (h : GraphWF g) (hpc : PinsConsistent g)
    (hnilc : g.channels.lookup "nil" = none)
    (hn : g.nodes.lookup n.name = some n) :
    (∃ g', g.DeleteNode n true = some g' ∧
       (∀ k c, g'.channels.lookup k = some c → ∀ np ∈ c.pins, ¬np.node = n.name) ∧
       (∀ k c, g.channels.lookup k = some c →
          (c.pins.filter (fun np => !(np.node == n.name))).length < 2 →
          (∃ np ∈ c.pins, np.node = n.name) → g'.channels.lookup k = none)) ∧
    (∃ g', g.DeleteNode n false = some g' ∧
       ∀ k c, g.channels.lookup k = some c →
         g'.channels.lookup k = some { c with pins := c.pins.filter (fun np => !(np.node == n.name)) }) := by
  obtain ⟨hndN, hndC, hnmN, hnmC, hconnN⟩ := h
  have hnd2 : ((midG g n.name n.connections).channels.map Prod.fst).Nodup := by
    rw [midG_keys]
    exact hndC
  constructor
  · -- cleanupChans = true
    obtain ⟨marked', hDN, hm1, hm2⟩ := deleteNode_characterize g n true hndC hnilc
    have hnm2 : ∀ e ∈ (midG g n.name n.connections).channels, e.2.name = e.1 := by
      intro e he
      have he' : e ∈ g.channels.map (fun x => (x.1, { x.2 with pins := x.2.pins.filter (fun np => !(remB n.name n.connections x.1 np)) })) := he
      obtain ⟨x, hx, hxe⟩ := List.mem_map.mp he'
      rw [← hxe]
      exact hnmC x hx
    have hval2 : ∀ e ∈ (midG g n.name n.connections).channels, ∀ np ∈ e.2.pins,
        ((g.nodes.filter (fun e2 => e2.1 ≠ n.name)).lookup np.node).isSome = true := by
      intro e he np hnp
      have he' : e ∈ g.channels.map (fun x => (x.1, { x.2 with pins := x.2.pins.filter (fun np => !(remB n.name n.connections x.1 np)) })) := he
      obtain ⟨x, hx, hxe⟩ := List.mem_map.mp he'
      have hxlk : g.channels.lookup x.1 = some x.2 := mem_lookup hndC (by
        have hee : (x.1, x.2) = x := rfl
        rw [hee]
        exact hx)
      have hnp' : np ∈ x.2.pins.filter (fun np => !(remB n.name n.connections x.1 np)) := by
        have hpe : e.2.pins = x.2.pins.filter (fun np => !(remB n.name n.connections x.1 np)) := by
          rw [← hxe]
        rw [← hpe]
        exact hnp
      rw [remB_full_filter g n hpc hn x.1 x.2 hxlk] at hnp'
      have hkeep : (!(np.node == n.name)) = true := (List.mem_filter.mp hnp').2
      have hnode : ¬np.node = n.name := by simpa using hkeep
      have hmem0 : np ∈ x.2.pins := List.mem_of_mem_filter hnp'
      have h1 := hpc.1 x hx np hmem0
      obtain ⟨nd, hnd, _⟩ := Option.bind_eq_some.mp h1
      rw [lookup_filter_nodup hndN, hnd]
      show (if (np.node ≠ n.name : Bool) = true then some nd else none).isSome = true
      simp [hnode]
    obtain ⟨g', hflush, hch'⟩ := flushFoldL marked'
      { midG g n.name n.connections with nodes := (midG g n.name n.connections).nodes.filter (fun e => e.1 ≠ n.name) }
      hnd2 hnm2 hval2
    rw [← hDN] at hflush
    have hch2 : g'.channels = (midG g n.name n.connections).channels.filter (fun e => !(marked'.contains e.1)) := hch'
    refine ⟨g', hflush, ?_, ?_⟩
    · -- survivors reference only other nodes
      intro k c hkc np hnp
      rw [hch2, lookup_filter_nodup hnd2] at hkc
      obtain ⟨v, hv, hvc⟩ := Option.bind_eq_some.mp hkc
      have hveq : v = c := by
        by_cases hpred : (!(marked'.contains k)) = true
        · rw [if_pos hpred] at hvc
          exact Option.some.inj hvc
        · rw [if_neg hpred] at hvc
          exact Option.noConfusion hvc
      rw [midG_lookup] at hv
      cases hgk : g.channels.lookup k with
      | none =>
        rw [hgk] at hv
        exact Option.noConfusion hv
      | some c1 =>
        rw [hgk, Option.map_some'] at hv
        have hce := Option.some.inj hv
        have hcpins : c.pins = c1.pins.filter (fun np => !(remB n.name n.connections k np)) := by
          rw [← hveq, ← hce]
        rw [hcpins, remB_full_filter g n hpc hn k c1 hgk] at hnp
        have hkeep : (!(np.node == n.name)) = true := (List.mem_filter.mp hnp).2
        simpa using hkeep
    · -- channels that dropped below two pins are gone
      intro k c hkc0 hlen href
      have hlen' : (c.pins.filter (fun np => !(remB n.name n.connections k np))).length < 2 := by
        rw [remB_full_filter g n hpc hn k c hkc0]
        exact hlen
      have htouch : ∃ p, (p, k) ∈ n.connections :=
        (touched_iff_ref g n hpc hn k c hkc0).mpr href
      have hkm : k ∈ marked' := hm2 k c rfl hkc0 hlen' htouch
      rw [hch2, lookup_filter_nodup hnd2]
      cases hG : (midG g n.name n.connections).channels.lookup k with
      | none => rfl
      | some v =>
        show (if (!(marked'.contains k)) = true then some v else none) = none
        have hcont : marked'.contains k = true := by
          simpa using hkm
        rw [hcont]
        rfl
  · -- cleanupChans = false
    obtain ⟨marked', hDN, hm1, _⟩ := deleteNode_characterize g n false hndC hnilc
    have hmnil : marked' = [] := by
      cases hmk : marked' with
      | nil => rfl
      | cons a t =>
        have := (hm1 a (by rw [hmk]; exact List.mem_cons_self _ _)).1
        exact Bool.noConfusion this
    rw [hmnil] at hDN
    refine ⟨_, hDN, ?_⟩
    intro k c hkc
    show (midG g n.name n.connections).channels.lookup k = _
    rw [midG_lookup, hkc]
    show some ({ c with pins := c.pins.filter (fun np => !(remB n.name n.connections k np)) } : Channel) = _
    rw [remB_full_filter g n hpc hn k c hkc]

/-- Counterexample for the unrestricted C4: in the consistent, well-formed
graph `nilWiredGraph`, node `A` is wired to a channel literally named
`"nil"`; `DeleteNode(A, true)` skips that connection entry (it equals the
unconnected sentinel), so the surviving channel still holds the pin
`(A, p)` of the deleted node. -/
theorem claim_C4_counterexample :
    GraphWF nilWiredGraph ∧ PinsConsistent nilWiredGraph ∧
    nilWiredGraph.nodes.lookup nilWiredNodeA.name = some nilWiredNodeA ∧
    nilWiredGraph.DeleteNode nilWiredNodeA true =
      some { name := "nilwired", nodes := [("B", nilWiredNodeB)],
             channels := [("nil", nilWiredChan)], types := [] } ∧
    (⟨"A", "p"⟩ : NodePin) ∈ nilWiredChan.pins ∧ nilWiredNodeA.name = "A" := by
  refine ⟨by decide, by decide, by rfl, by decide, by decide, by rfl⟩

/-- Witness for C4 on `scenarioA` (deleting node `X`, wired to the two-pin
channel `c`): all hypotheses hold by computation and both deletion modes
behave as stated. -/
theorem claim_C4_witness :
    GraphWF scenarioA ∧ PinsConsistent scenarioA ∧
    scenarioA.channels.lookup "nil" = none ∧
    scenarioA.nodes.lookup nodeXgen.name = some nodeXgen ∧
    ((∃ g', scenarioA.DeleteNode nodeXgen true = some g' ∧
       (∀ k c, g'.channels.lookup k = some c → ∀ np ∈ c.pins, ¬np.node = nodeXgen.name) ∧
       (∀ k c, scenarioA.channels.lookup k = some c →
          (c.pins.filter (fun np => !(np.node == nodeXgen.name))).length < 2 →
          (∃ np ∈ c.pins, np.node = nodeXgen.name) → g'.channels.lookup k = none)) ∧
    (∃ g', scenarioA.DeleteNode nodeXgen false = some g' ∧
       ∀ k c, scenarioA.channels.lookup k = some c →
         g'.channels.lookup k = some { c with pins := c.pins.filter (fun np => !(np.node == nodeXgen.name)) })) :=
  ⟨by decide, by decide, by rfl, by rfl,
    claim_C4 scenarioA nodeXgen (by decide) (by decide) (by rfl) (by rfl)⟩

end DeleteNodeFull

section GenericLookup

theorem gkeys_mapVal {κ α : Type} (f : κ × α → α) (l : List (κ × α)) :
    (l.map (fun e => (e.1, f e))).map Prod.fst = l.map Prod.fst := by
  rw [List.map_map]
  rfl

variable {κ α : Type} [BEq κ] [LawfulBEq κ]

theorem glookup_cons (k : κ) (b : κ) (w : α) (t : List (κ × α)) :
    ((b, w) :: t).lookup k = if k == b then some w else t.lookup k := by
  by_cases h : (k == b) = true
  · rw [if_pos h]
    show (match k == b with | true => some w | false => t.lookup k) = some w
    rw [h]
  · have hf : (k == b) = false := by simpa using h
    rw [if_neg h]
    show (match k == b with | true => some w | false => t.lookup k) = t.lookup k
    rw [hf]

theorem glookup_mem {l : List (κ × α)} {k : κ} {v : α}
    (h : l.lookup k = some v) : (k, v) ∈ l := by
  induction l with
  | nil => simp [List.lookup] at h
  | cons e t ih =>
    obtain ⟨b, w⟩ := e
    rw [glookup_cons] at h
    by_cases hk : (k == b) = true
    · rw [if_pos hk] at h
      cases h
      have hkb : k = b := eq_of_beq hk
      rw [hkb]
      exact List.mem_cons_self _ _
    · rw [if_neg hk] at h
      exact List.mem_cons_of_mem _ (ih h)

theorem gisSome_of_mem {l : List (κ × α)} {e : κ × α}
    (h : e ∈ l) : (l.lookup e.1).isSome = true := by
  induction l with
  | nil => simp at h
  | cons a t ih =>
    obtain ⟨b, w⟩ := a
    rw [glookup_cons]
    by_cases hk : (e.1 == b) = true
    · rw [if_pos hk]
      rfl
    · rw [if_neg hk]
      rcases List.mem_cons.mp h with he | ht
      · exfalso
        apply hk
        rw [he]
        exact beq_self_eq_true b
      · exact ih ht

theorem glookup_mapVal (f : κ × α → α) (l : List (κ × α)) (k : κ) :
    (l.map (fun e => (e.1, f e))).lookup k = (l.lookup k).map (fun v => f (k, v)) := by
  induction l with
  | nil => rfl
  | cons e t ih =>
    obtain ⟨b, v⟩ := e
    rw [List.map_cons]
    show List.lookup k ((b, f (b, v)) :: _) = _
    rw [glookup_cons, glookup_cons]
    by_cases h : (k == b) = true
    · rw [if_pos h, if_pos h]
      have hkb : k = b := eq_of_beq h
      rw [hkb]
      rfl
    · rw [if_neg h, if_neg h, ih]

end GenericLookup

section TypeInferenceWF

theorem resolve_param_eq (m : TIMap) (sc i : String) :
    resolve m (.param sc i) =
      (match m.lookup ((sc, i) : Ident) with
        | some v => v
        | none => SType.param sc i) := rfl

theorem resolve_resolved {m : TIMap} (hW : ∀ e ∈ m, resolve m e.2 = e.2) :
    ∀ x, resolve m (resolve m x) = resolve m x := by
  intro x
  cases x with
  | base s => rfl
  | param sc i =>
    cases hl : m.lookup ((sc, i) : Ident) with
    | none =>
      have h1 : resolve m (.param sc i) = .param sc i := by
        rw [resolve_param_eq, hl]
      rw [h1, h1]
    | some v =>
      have h1 : resolve m (.param sc i) = v := by
        rw [resolve_param_eq, hl]
      rw [h1]
      exact hW ((sc, i), v) (glookup_mem hl)

theorem resolved_param_none {m : TIMap}
    (hW3 : ∀ e ∈ m, e.2 ≠ SType.param e.1.1 e.1.2) {v : SType} {q1 q2 : String}
    (hv : resolve m v = v) (hveq : v = .param q1 q2) :
    m.lookup ((q1, q2) : Ident) = none := by
  rw [hveq] at hv
  cases hl : m.lookup ((q1, q2) : Ident) with
  | none => rfl
  | some w =>
    have h3 : resolve m (.param q1 q2) = w := by
      rw [resolve_param_eq, hl]
    rw [h3] at hv
    exact absurd hv (hW3 ((q1, q2), w) (glookup_mem hl))

theorem resolve_param_none {m : TIMap} (hW2 : ∀ e ∈ m, resolve m e.2 = e.2)
    (hW3 : ∀ e ∈ m, e.2 ≠ SType.param e.1.1 e.1.2)
    {x : SType} {sc i : String} (h : resolve m x = .param sc i) :
    m.lookup ((sc, i) : Ident) = none := by
  have hres : resolve m (resolve m x) = resolve m x := resolve_resolved hW2 x
  rw [h] at hres
  exact resolved_param_none hW3 hres rfl

theorem bindParam_TIWF {m : TIMap} (hW : TIWF m) {k : Ident} {v : SType}
    (hv : resolve m v = v) (hne : ¬v = SType.param k.1 k.2)
    (hfresh : m.lookup k = none) : TIWF (bindParam m k v) := by
  obtain ⟨hW1, hW2, hW3⟩ := hW
  have hknotmem : ¬k ∈ m.map Prod.fst := by
    intro hmem
    obtain ⟨e, he, hke⟩ := List.mem_map.mp hmem
    have hs := gisSome_of_mem he
    rw [hke, hfresh] at hs
    simp at hs
  have hkeys : (bindParam m k v).map Prod.fst = k :: m.map Prod.fst := by
    unfold bindParam
    rw [List.map_cons]
    rw [gkeys_mapVal (fun e => if e.2 = SType.param k.1 k.2 then v else e.2) m]
  have hlkq : ∀ q : Ident, ¬q = k → (bindParam m k v).lookup q =
      (m.lookup q).map (fun w => if w = SType.param k.1 k.2 then v else w) := by
    intro q hq
    show List.lookup q ((k, v) :: m.map (fun e => (e.1, if e.2 = SType.param k.1 k.2 then v else e.2))) = _
    rw [glookup_cons, if_neg (by simpa using hq)]
    exact glookup_mapVal (fun e => if e.2 = SType.param k.1 k.2 then v else e.2) m q
  have hres : ∀ w : SType, resolve m w = w → ¬w = SType.param k.1 k.2 →
      resolve (bindParam m k v) w = w := by
    intro w hwres hwne
    cases w with
    | base s => rfl
    | param q1 q2 =>
      have hqk : ¬((q1, q2) : Ident) = k := fun hh => hwne (by rw [← hh])
      have hmq : m.lookup ((q1, q2) : Ident) = none :=
        resolved_param_none hW3 hwres rfl
      rw [resolve_param_eq, hlkq (q1, q2) hqk, hmq]
      rfl
  have hvnotkey : ∀ x ∈ m, ¬v = SType.param x.1.1 x.1.2 := by
    intro x hx hveq
    have hnone := resolved_param_none hW3 hv hveq
    have hs := gisSome_of_mem hx
    rw [show ((x.1.1, x.1.2) : Ident) = x.1 from rfl] at hnone
    rw [hnone] at hs
    simp at hs
  have hW2' : ∀ e ∈ bindParam m k v, resolve (bindParam m k v) e.2 = e.2 := by
    intro e he
    rcases List.mem_cons.mp he with he1 | he2
    · rw [he1]
      exact hres v hv hne
    · obtain ⟨x, hx, hxe⟩ := List.mem_map.mp he2
      rw [← hxe]
      show resolve (bindParam m k v) (if x.2 = SType.param k.1 k.2 then v else x.2) = _
      by_cases hxp : x.2 = SType.param k.1 k.2
      · rw [if_pos hxp]
        exact hres v hv hne
      · rw [if_neg hxp]
        exact hres x.2 (hW2 x hx) hxp
  have hW3' : ∀ e ∈ bindParam m k v, e.2 ≠ SType.param e.1.1 e.1.2 := by
    intro e he
    rcases List.mem_cons.mp he with he1 | he2
    · rw [he1]
      exact hne
    · obtain ⟨x, hx, hxe⟩ := List.mem_map.mp he2
      rw [← hxe]
      show ¬(if x.2 = SType.param k.1 k.2 then v else x.2) = SType.param x.1.1 x.1.2
      by_cases hxp : x.2 = SType.param k.1 k.2
      · rw [if_pos hxp]
        exact hvnotkey x hx
      · rw [if_neg hxp]
        exact hW3 x hx
  refine ⟨?_, hW2', hW3'⟩
  rw [hkeys]
  exact List.nodup_cons.mpr ⟨hknotmem, hW1⟩

theorem inferTI_TIWF {m m' : TIMap} (hW : TIWF m) {t u : SType}
    (h : inferTI m t u = .ok m') : TIWF m' := by
  obtain ⟨hW1, hW2, hW3⟩ := hW
  unfold inferTI at h
  split at h
  next heq =>
    cases h
    exact ⟨hW1, hW2, hW3⟩
  next hne =>
    split at h
    next sc i heq1 =>
      cases h
      exact bindParam_TIWF ⟨hW1, hW2, hW3⟩ (resolve_resolved hW2 u)
        (fun hh => hne (by rw [heq1, hh]))
        (resolve_param_none hW2 hW3 heq1)
    next sc i heq1 heq2 =>
      cases h
      exact bindParam_TIWF ⟨hW1, hW2, hW3⟩ (resolve_resolved hW2 t)
        (fun hh => heq2 sc i hh)
        (resolve_param_none hW2 hW3 heq1)
    next a b heq1 heq2 =>
      exact Except.noConfusion h

theorem TIWF_nil : TIWF ([] : TIMap) :=
  ⟨List.nodup_nil, fun e he => absurd he (List.not_mem_nil e),
    fun e he => absurd he (List.not_mem_nil e)⟩

theorem inferPinStep_TIWF (g : Graph) (cn : String) (np : NodePin)
    (hW : TIWF g.types) : TIWF (g.inferPinStep cn np).1.types := by
  unfold Graph.inferPinStep
  split
  · exact hW
  · split
    · exact hW
    · split
      · exact hW
      · split
        · exact hW
        · unfold inferPinCommit
          split
          next m2 hti => exact inferTI_TIWF hW hti
          next e hti => exact hW

theorem inferChanStep_TIWF (cn : String) (acc : Graph × List String) (np : NodePin)
    (hW : TIWF acc.1.types) : TIWF (inferChanStep cn acc np).1.types :=
  inferPinStep_TIWF acc.1 cn np hW

theorem inferChanFold_TIWF (cn : String) :
    ∀ (pins : List NodePin) (acc : Graph × List String),
      TIWF acc.1.types → TIWF ((pins.foldl (inferChanStep cn) acc).1).types := by
  intro pins
  induction pins with
  | nil =>
    intro acc hW
    exact hW
  | cons np rest ih =>
    intro acc hW
    rw [List.foldl_cons]
    exact ih _ (inferChanStep_TIWF cn acc np hW)

theorem inferChannelType_TIWF (g : Graph) (c : Channel) (hW : TIWF g.types) :
    TIWF ((g.inferChannelType c).1).types :=
  inferChanFold_TIWF c.name c.pins (g, []) hW

theorem floodFillN_TIWF :
    ∀ (fuel : Nat) (g : Graph) (q : List String) (g2 : Graph),
      floodFillN fuel g q = some g2 → TIWF g.types → TIWF g2.types := by
  intro fuel
  induction fuel with
  | zero =>
    intro g q g2 h hW
    cases q with
    | nil =>
      cases h
      exact hW
    | cons a t => exact Option.noConfusion h
  | succ f ih =>
    intro g q g2 h hW
    cases q with
    | nil =>
      cases h
      exact hW
    | cons cn q2 =>
      unfold floodFillN at h
      cases hc : g.channels.lookup cn with
      | none =>
        rw [hc] at h
        exact ih g q2 g2 h hW
      | some c =>
        rw [hc] at h
        have h2 : floodFillN f (g.inferChannelType c).1 (q2 ++ (g.inferChannelType c).2) = some g2 := h
        exact ih _ _ g2 h2 (inferChannelType_TIWF g c hW)

theorem publishFold_proj (Q : List (String × SType) → Prop) :
    ∀ (ties : TIMap) (ns : List (String × Node)),
      (∀ k nd, ns.lookup k = some nd → Q nd.pinTypes) →
      ∀ k nd, (ties.foldl publishStep ns).lookup k = some nd → Q nd.pinTypes := by
  intro ties
  induction ties with
  | nil =>
    intro ns h k nd hk
    exact h k nd hk
  | cons e rest ih =>
    intro ns h k nd hk
    rw [List.foldl_cons] at hk
    refine ih (publishStep ns e) ?_ k nd hk
    intro k2 nd2 hk2
    unfold publishStep at hk2
    rw [lookup_updA] at hk2
    by_cases hke : k2 = e.1.1
    · rw [if_pos hke] at hk2
      cases hns : ns.lookup e.1.1 with
      | none =>
        rw [hns] at hk2
        exact Option.noConfusion hk2
      | some nd0 =>
        rw [hns, Option.map_some'] at hk2
        have hnd2 := Option.some.inj hk2
        have hQ := h e.1.1 nd0 hns
        rw [← hnd2]
        exact hQ
    · rw [if_neg hke] at hk2
      exact h k2 nd2 hk2

theorem publishFold_preserve :
    ∀ (rest : TIMap) (ns1 : List (String × Node)) (sc i : String) (w : String),
      (∀ e ∈ rest, ¬e.1 = ((sc, i) : Ident)) →
      (∀ nd1, ns1.lookup sc = some nd1 → nd1.typeParams.lookup i = some w) →
      ∀ nd, (rest.foldl publishStep ns1).lookup sc = some nd →
        nd.typeParams.lookup i = some w := by
  intro rest
  induction rest with
  | nil =>
    intro ns1 sc i w _ hbase nd hnd
    exact hbase nd hnd
  | cons e t ih =>
    intro ns1 sc i w havoid hbase nd hnd
    rw [List.foldl_cons] at hnd
    refine ih (publishStep ns1 e) sc i w (fun x hx => havoid x (List.mem_cons_of_mem _ hx)) ?_ nd hnd
    intro nd1 hnd1
    unfold publishStep at hnd1
    rw [lookup_updA] at hnd1
    by_cases hke : sc = e.1.1
    · rw [if_pos hke] at hnd1
      cases hns : ns1.lookup e.1.1 with
      | none =>
        rw [hns] at hnd1
        exact Option.noConfusion hnd1
      | some nd0 =>
        rw [hns, Option.map_some'] at hnd1
        have hnd1e := Option.some.inj hnd1
        have hbase0 := hbase nd0 (by rw [hke]; exact hns)
        rw [← hnd1e]
        show (setA e.1.2 (sTypeString e.2) nd0.typeParams).lookup i = some w
        rw [lookup_setA]
        have hie : ¬i = e.1.2 := by
          intro hh
          apply havoid e (List.mem_cons_self _ _)
          rw [hke, hh]
        rw [if_neg hie]
        exact hbase0
    · rw [if_neg hke] at hnd1
      exact hbase nd1 hnd1

theorem publishFold_lookup :
    ∀ (ties : TIMap) (ns : List (String × Node)),
      ((ties.map Prod.fst).Nodup) →
      ∀ (sc i : String) (v : SType), (((sc, i) : Ident), v) ∈ ties →
      ∀ nd, (ties.foldl publishStep ns).lookup sc = some nd →
        nd.typeParams.lookup i = some (sTypeString v) := by
  intro ties
  induction ties with
  | nil =>
    intro ns _ sc i v hmem
    exact absurd hmem (List.not_mem_nil _)
  | cons e t ih =>
    intro ns hnd sc i v hmem nd hnd2
    rw [List.foldl_cons] at hnd2
    rcases List.mem_cons.mp hmem with he | ht
    · have hk1 : e.1.1 = sc := by rw [← he]
      have hk2 : e.1.2 = i := by rw [← he]
      have hv2 : e.2 = v := by rw [← he]
      have hke : e.1 = ((sc, i) : Ident) := by rw [← hk1, ← hk2]
      have hnotin : ¬e.1 ∈ t.map Prod.fst := (List.nodup_cons.mp (by simpa using hnd)).1
      have havoid : ∀ x ∈ t, ¬x.1 = ((sc, i) : Ident) := by
        intro x hx hxk
        apply hnotin
        rw [hke]
        exact List.mem_map.mpr ⟨x, hx, hxk⟩
      refine publishFold_preserve t (publishStep ns e) sc i (sTypeString v) havoid ?_ nd hnd2
      intro nd1 hnd1
      unfold publishStep at hnd1
      rw [lookup_updA, if_pos hk1.symm] at hnd1
      cases hns : ns.lookup e.1.1 with
      | none =>
        rw [hns] at hnd1
        exact Option.noConfusion hnd1
      | some nd0 =>
        rw [hns, Option.map_some'] at hnd1
        have hnd1e := Option.some.inj hnd1
        rw [← hnd1e]
        show (setA e.1.2 (sTypeString e.2) nd0.typeParams).lookup i = some (sTypeString v)
        rw [lookup_setA, hk2, if_pos rfl, hv2]
    · exact ih (publishStep ns e) (List.nodup_cons.mp (by simpa using hnd)).2 sc i v ht nd hnd2

theorem finalize_channels_lookup (l : List (String × Channel)) (k : String) :
    (l.map (fun kc => (kc.1, { kc.2 with type := kc.2.type.map lithify }))).lookup k =
      (l.lookup k).map (fun c => { c with type := c.type.map lithify }) :=
  lookup_mapVal (fun kc => { kc.2 with type := kc.2.type.map lithify }) l k

theorem finalize_nodes_lookup (l : List (String × Node)) (k : String) :
    (l.map (fun kn => (kn.1, { kn.2 with pinTypes := kn.2.pinTypes.map (fun (pt : String × SType) => (pt.1, lithify pt.2)), typeParams := ([] : List (String × String)) }))).lookup k =
      (l.lookup k).map (fun nd => { nd with pinTypes := nd.pinTypes.map (fun (pt : String × SType) => (pt.1, lithify pt.2)), typeParams := ([] : List (String × String)) }) :=
  lookup_mapVal (fun kn => { kn.2 with pinTypes := kn.2.pinTypes.map (fun (pt : String × SType) => (pt.1, lithify pt.2)), typeParams := ([] : List (String × String)) }) l k

theorem lithify_pinTypes_lookup (l : List (String × SType)) (p : String) :
    (l.map (fun pt => (pt.1, lithify pt.2))).lookup p = (l.lookup p).map lithify :=
  lookup_mapVal (fun e => lithify e.2) l p

/-- C2 (confirmed): when `InferTypes` returns without error, no channel and
no pin type contains a free type-parameter identifier (every parameter
still free after the worklist empties is lithified to `interface\x7b\x7d`),
and every binding of the final inference map is published into the scoped
node's `typeParams` map as its rendered concrete type. -/
theorem claim_C2 (g g' : Graph) (hok : g.InferTypes = .ok g') :
    (∀ k c, g'.channels.lookup k = some c → ∀ t, c.type = some t → hasParam t = false) ∧
    (∀ k nd, g'.nodes.lookup k = some nd → ∀ p t, nd.pinTypes.lookup p = some t →
      hasParam t = false) ∧
    (∀ sc i v, g'.types.lookup ((sc, i) : Ident) = some v →
      ∀ nd, g'.nodes.lookup sc = some nd →
        nd.typeParams.lookup i = some (sTypeString v)) := by
  unfold Graph.InferTypes at hok
  cases hff : floodFillN g.inferFuel g.inferSetup (g.inferSetup.channels.map Prod.fst) with
  | none =>
    rw [hff] at hok
    exact Except.noConfusion hok
  | some g2 =>
    rw [hff] at hok
    have hg'eq : (Except.ok g2.inferFinalize : Except String Graph) = .ok g' := hok
    have hg' : g2.inferFinalize = g' := Except.ok.inj hg'eq
    have hWtypes : TIWF g2.types :=
      floodFillN_TIWF g.inferFuel g.inferSetup (g.inferSetup.channels.map Prod.fst) g2 hff TIWF_nil
    have hch : g'.channels = g2.channels.map (fun kc =>
        (kc.1, { kc.2 with type := kc.2.type.map lithify })) := by
      rw [← hg']
      rfl
    have hnodes : g'.nodes = g2.types.foldl publishStep (g2.nodes.map (fun kn =>
        (kn.1, { kn.2 with pinTypes := kn.2.pinTypes.map (fun pt => (pt.1, lithify pt.2)), typeParams := ([] : List (String × String)) }))) := by
      rw [← hg']
      rfl
    have hty : g'.types = g2.types := by
      rw [← hg']
      rfl
    refine ⟨?_, ?_, ?_⟩
    · intro k c hkc t hct
      rw [hch, finalize_channels_lookup] at hkc
      cases hg2k : g2.channels.lookup k with
      | none =>
        rw [hg2k] at hkc
        exact Option.noConfusion hkc
      | some c0 =>
        rw [hg2k, Option.map_some'] at hkc
        have hc := Option.some.inj hkc
        rw [← hc] at hct
        have hct2 : c0.type.map lithify = some t := hct
        cases hc0t : c0.type with
        | none =>
          rw [hc0t] at hct2
          exact Option.noConfusion hct2
        | some t0 =>
          rw [hc0t, Option.map_some'] at hct2
          have hlt := Option.some.inj hct2
          rw [← hlt]
          cases t0 <;> rfl
    · intro k nd hknd p t hpt
      rw [hnodes] at hknd
      refine publishFold_proj (fun pts => ∀ p t, pts.lookup p = some t → hasParam t = false)
        g2.types _ ?_ k nd hknd p t hpt
      intro k2 nd2 hk2 p2 t2 hp2
      rw [finalize_nodes_lookup] at hk2
      cases hg2n : g2.nodes.lookup k2 with
      | none =>
        rw [hg2n] at hk2
        exact Option.noConfusion hk2
      | some nd0 =>
        rw [hg2n, Option.map_some'] at hk2
        have hnd2 := Option.some.inj hk2
        rw [← hnd2] at hp2
        have hp2' : (nd0.pinTypes.map (fun pt => (pt.1, lithify pt.2))).lookup p2 = some t2 := hp2
        rw [lithify_pinTypes_lookup] at hp2'
        cases hl0 : nd0.pinTypes.lookup p2 with
        | none =>
          rw [hl0] at hp2'
          exact Option.noConfusion hp2'
        | some t0 =>
          rw [hl0, Option.map_some'] at hp2'
          have hlt := Option.some.inj hp2'
          rw [← hlt]
          cases t0 <;> rfl
    · intro sc i v hv nd hnd
      rw [hty] at hv
      have hmem : (((sc, i) : Ident), v) ∈ g2.types := glookup_mem hv
      rw [hnodes] at hnd
      exact publishFold_lookup g2.types _ hWtypes.1 sc i v hmem nd hnd

/-- Witness for C2: `InferTypes` succeeds on `scenarioA` and the theorem
applies to its result. -/
theorem claim_C2_witness :
    ∃ g', scenarioA.InferTypes = .ok g' ∧
      ((∀ k c, g'.channels.lookup k = some c → ∀ t, c.type = some t → hasParam t = false) ∧
      (∀ k nd, g'.nodes.lookup k = some nd → ∀ p t, nd.pinTypes.lookup p = some t →
        hasParam t = false) ∧
      (∀ sc i v, g'.types.lookup ((sc, i) : Ident) = some v →
        ∀ nd, g'.nodes.lookup sc = some nd →
          nd.typeParams.lookup i = some (sTypeString v))) := by
  cases hok : scenarioA.InferTypes with
  | error e =>
    have hchk : exceptOk scenarioA.InferTypes = true := by rfl
    rw [hok] at hchk
    exact Bool.noConfusion hchk
  | ok g' => exact ⟨g', rfl, claim_C2 scenarioA g' hok⟩

end TypeInferenceWF

section FreshState

theorem inferPinStep_noChan {g : Graph} {cn : String} {np : NodePin}
    (hc : g.channels.lookup cn = none) : g.inferPinStep cn np = (g, []) := by
  unfold Graph.inferPinStep
  rw [hc]

theorem inferPinStep_noNode {g : Graph} {cn : String} {np : NodePin} {c : Channel}
    (hc : g.channels.lookup cn = some c) (hn : g.nodes.lookup np.node = none) :
    g.inferPinStep cn np = (g, []) := by
  unfold Graph.inferPinStep
  rw [hc, hn]

theorem inferPinStep_adopt {g : Graph} {cn : String} {np : NodePin} {c : Channel} {n : Node}
    (hc : g.channels.lookup cn = some c) (hn : g.nodes.lookup np.node = some n)
    (hct : c.type = none) :
    g.inferPinStep cn np =
      ({ g with channels := updA cn (fun c0 => { c0 with type := n.pinTypes.lookup np.pin }) g.channels }, [cn]) := by
  unfold Graph.inferPinStep
  split
  next h => exact Option.noConfusion (h.symm.trans hc)
  next c2 h =>
    have hc2 : c2 = c := Option.some.inj (h.symm.trans hc)
    subst hc2
    split
    next h2 => exact Option.noConfusion (h2.symm.trans hn)
    next n2 h2 =>
      have hn2 : n2 = n := Option.some.inj (h2.symm.trans hn)
      subst hn2
      split
      next => rfl
      next ct h3 => exact Option.noConfusion (h3.symm.trans hct)

theorem inferPinStep_noPT {g : Graph} {cn : String} {np : NodePin} {c : Channel} {n : Node}
    {ct : SType}
    (hc : g.channels.lookup cn = some c) (hn : g.nodes.lookup np.node = some n)
    (hct : c.type = some ct) (hpt : n.pinTypes.lookup np.pin = none) :
    g.inferPinStep cn np = (g, []) := by
  unfold Graph.inferPinStep
  split
  next h => exact Option.noConfusion (h.symm.trans hc)
  next c2 h =>
    have hc2 : c2 = c := Option.some.inj (h.symm.trans hc)
    subst hc2
    split
    next h2 => exact Option.noConfusion (h2.symm.trans hn)
    next n2 h2 =>
      have hn2 : n2 = n := Option.some.inj (h2.symm.trans hn)
      subst hn2
      split
      next h3 => exact Option.noConfusion (h3.symm.trans hct)
      next ct2 h3 =>
        have hct2 : ct2 = ct := Option.some.inj (h3.symm.trans hct)
        subst hct2
        split
        next => rfl
        next pt2 h4 => exact Option.noConfusion (h4.symm.trans hpt)

theorem inferPinStep_commit {g : Graph} {cn : String} {np : NodePin} {c : Channel} {n : Node}
    {ct pt : SType}
    (hc : g.channels.lookup cn = some c) (hn : g.nodes.lookup np.node = some n)
    (hct : c.type = some ct) (hpt : n.pinTypes.lookup np.pin = some pt) :
    g.inferPinStep cn np = inferPinCommit g c n cn np ct pt := by
  unfold Graph.inferPinStep
  split
  next h => exact Option.noConfusion (h.symm.trans hc)
  next c2 h =>
    have hc2 : c2 = c := Option.some.inj (h.symm.trans hc)
    subst hc2
    split
    next h2 => exact Option.noConfusion (h2.symm.trans hn)
    next n2 h2 =>
      have hn2 : n2 = n := Option.some.inj (h2.symm.trans hn)
      subst hn2
      split
      next h3 => exact Option.noConfusion (h3.symm.trans hct)
      next ct2 h3 =>
        have hct2 : ct2 = ct := Option.some.inj (h3.symm.trans hct)
        subst hct2
        split
        next h4 => exact Option.noConfusion (h4.symm.trans hpt)
        next pt2 h4 =>
          have hpt2 : pt2 = pt := Option.some.inj (h4.symm.trans hpt)
          subst hpt2
          rfl

theorem map_updA_const {α : Type} (hf : α → α) (k : String) (v : α) :
    ∀ l : List (String × α),
      (updA k (fun _ => v) l).map (fun e => (e.1, hf e.2)) =
        updA k (fun _ => hf v) (l.map (fun e => (e.1, hf e.2))) := by
  intro l
  induction l with
  | nil => rfl
  | cons e t ih =>
    obtain ⟨b, w⟩ := e
    rw [updA_cons, List.map_cons, List.map_cons, updA_cons]
    by_cases he : b = k
    · rw [if_pos he, if_pos he, ih]
    · rw [if_neg he, if_neg he, ih]

theorem applyTPStep_scrub (conns : List (String × String)) (m : TIMap)
    (a : Node) (l : List String) (pt : String × SType) :
    applyTPStep conns m (scrubNode a, l) pt =
      (scrubNode (applyTPStep conns m (a, l) pt).1, (applyTPStep conns m (a, l) pt).2) := by
  unfold applyTPStep
  by_cases hr : resolve m pt.2 = pt.2
  · rw [if_pos hr, if_pos hr]
  · rw [if_neg hr, if_neg hr]
    rfl

theorem applyTPFold_scrub (conns : List (String × String)) (m : TIMap) :
    ∀ (pts : List (String × SType)) (a : Node) (l : List String),
      pts.foldl (applyTPStep conns m) (scrubNode a, l) =
        (scrubNode ((pts.foldl (applyTPStep conns m) (a, l)).1),
         (pts.foldl (applyTPStep conns m) (a, l)).2) := by
  intro pts
  induction pts with
  | nil =>
    intro a l
    rfl
  | cons pt rest ih =>
    intro a l
    rw [List.foldl_cons, List.foldl_cons, applyTPStep_scrub]
    exact ih (applyTPStep conns m (a, l) pt).1 (applyTPStep conns m (a, l) pt).2

theorem applyTypeParams_scrub (n : Node) (m : TIMap) :
    (scrubNode n).applyTypeParams m =
      (scrubNode ((n.applyTypeParams m).1), (n.applyTypeParams m).2) := by
  show (scrubNode n).pinTypes.foldl (applyTPStep (scrubNode n).connections m) (scrubNode n, []) = _
  have h1 : (scrubNode n).pinTypes = n.pinTypes := rfl
  have h2 : (scrubNode n).connections = n.connections := rfl
  rw [h1, h2]
  exact applyTPFold_scrub n.connections m n.pinTypes n []

theorem inferPinApply_scrub (g : Graph) (c : Channel) (n : Node) (cn : String)
    (np : NodePin) (ct : SType) (m : TIMap) :
    inferPinApply g.scrubTP c (scrubNode n) cn np ct m =
      ((inferPinApply g c n cn np ct m).1.scrubTP, (inferPinApply g c n cn np ct m).2) := by
  unfold inferPinApply
  rw [applyTypeParams_scrub n m]
  have hgn : (Graph.scrubTP g).nodes = g.nodes.map (fun e => (e.1, scrubNode e.2)) := rfl
  rw [hgn, ← map_updA_const scrubNode np.node ((n.applyTypeParams m).1) g.nodes]
  rfl

theorem inferPinCommit_scrub (g : Graph) (c : Channel) (n : Node) (cn : String)
    (np : NodePin) (ct pt : SType) :
    inferPinCommit g.scrubTP c (scrubNode n) cn np ct pt =
      ((inferPinCommit g c n cn np ct pt).1.scrubTP, (inferPinCommit g c n cn np ct pt).2) := by
  unfold inferPinCommit
  rw [show (Graph.scrubTP g).types = g.types from rfl]
  exact inferPinApply_scrub g c n cn np ct _

theorem scrub_nodes_lookup (g : Graph) (k : String) :
    (Graph.scrubTP g).nodes.lookup k = (g.nodes.lookup k).map scrubNode :=
  lookup_mapVal (fun kn => scrubNode kn.2) g.nodes k

theorem inferPinStep_scrub (g : Graph) (cn : String) (np : NodePin) :
    (Graph.scrubTP g).inferPinStep cn np =
      ((g.inferPinStep cn np).1.scrubTP, (g.inferPinStep cn np).2) := by
  cases hc : g.channels.lookup cn with
  | none =>
    have hcl : (Graph.scrubTP g).channels.lookup cn = none := hc
    rw [inferPinStep_noChan hcl, inferPinStep_noChan hc]
  | some c =>
    have hcl : (Graph.scrubTP g).channels.lookup cn = some c := hc
    cases hn : g.nodes.lookup np.node with
    | none =>
      have hnl : (Graph.scrubTP g).nodes.lookup np.node = none := by
        rw [scrub_nodes_lookup, hn]
        rfl
      rw [inferPinStep_noNode hcl hnl, inferPinStep_noNode hc hn]
    | some n =>
      have hnl : (Graph.scrubTP g).nodes.lookup np.node = some (scrubNode n) := by
        rw [scrub_nodes_lookup, hn]
        rfl
      cases hct : c.type with
      | none =>
        rw [inferPinStep_adopt hcl hnl hct, inferPinStep_adopt hc hn hct]
        rfl
      | some ct =>
        cases hpt : n.pinTypes.lookup np.pin with
        | none =>
          have hptl : (scrubNode n).pinTypes.lookup np.pin = none := hpt
          rw [inferPinStep_noPT hcl hnl hct hptl, inferPinStep_noPT hc hn hct hpt]
        | some pt =>
          have hptl : (scrubNode n).pinTypes.lookup np.pin = some pt := hpt
          rw [inferPinStep_commit hcl hnl hct hptl, inferPinStep_commit hc hn hct hpt]
          exact inferPinCommit_scrub g c n cn np ct pt

theorem inferChanFold_scrub (cn : String) :
    ∀ (pins : List NodePin) (g : Graph) (l : List String),
      pins.foldl (inferChanStep cn) (g.scrubTP, l) =
        ((pins.foldl (inferChanStep cn) (g, l)).1.scrubTP,
         (pins.foldl (inferChanStep cn) (g, l)).2) := by
  intro pins
  induction pins with
  | nil =>
    intro g l
    rfl
  | cons np rest ih =>
    intro g l
    rw [List.foldl_cons, List.foldl_cons]
    have hstep : inferChanStep cn (g.scrubTP, l) np =
        ((inferChanStep cn (g, l) np).1.scrubTP, (inferChanStep cn (g, l) np).2) := by
      show (((Graph.scrubTP g).inferPinStep cn np).1,
        ((Graph.scrubTP g).inferPinStep cn np).2.foldl (fun l2 s => addUnique s l2) l) = _
      rw [inferPinStep_scrub]
      rfl
    rw [hstep]
    exact ih (inferChanStep cn (g, l) np).1 (inferChanStep cn (g, l) np).2

theorem floodFillN_cons_none {fuel : Nat} {g : Graph} {cn : String} {q2 : List String}
    (hc : g.channels.lookup cn = none) :
    floodFillN (fuel + 1) g (cn :: q2) = floodFillN fuel g q2 := by
  conv_lhs => unfold floodFillN
  rw [hc]

theorem floodFillN_cons_some {fuel : Nat} {g : Graph} {cn : String} {q2 : List String}
    {c : Channel} (hc : g.channels.lookup cn = some c) :
    floodFillN (fuel + 1) g (cn :: q2) =
      floodFillN fuel (g.inferChannelType c).1 (q2 ++ (g.inferChannelType c).2) := by
  conv_lhs => unfold floodFillN
  rw [hc]

theorem floodFillN_scrub :
    ∀ (fuel : Nat) (g : Graph) (q : List String),
      floodFillN fuel g.scrubTP q = (floodFillN fuel g q).map Graph.scrubTP := by
  intro fuel
  induction fuel with
  | zero =>
    intro g q
    cases q with
    | nil => rfl
    | cons a t => rfl
  | succ f ih =>
    intro g q
    cases q with
    | nil => rfl
    | cons cn q2 =>
      cases hc : g.channels.lookup cn with
      | none =>
        have hcl : (Graph.scrubTP g).channels.lookup cn = none := hc
        rw [floodFillN_cons_none hcl, floodFillN_cons_none hc]
        exact ih g q2
      | some c =>
        have hcl : (Graph.scrubTP g).channels.lookup cn = some c := hc
        rw [floodFillN_cons_some hcl, floodFillN_cons_some hc]
        have hctx : (Graph.scrubTP g).inferChannelType c =
            ((g.inferChannelType c).1.scrubTP, (g.inferChannelType c).2) := by
          show c.pins.foldl (inferChanStep c.name) (Graph.scrubTP g, []) = _
          exact inferChanFold_scrub c.name c.pins g []
        rw [hctx]
        exact ih (g.inferChannelType c).1 (q2 ++ (g.inferChannelType c).2)

theorem inferFinalize_scrub (g : Graph) :
    (Graph.scrubTP g).inferFinalize = g.inferFinalize := by
  unfold Graph.inferFinalize
  have hch : (Graph.scrubTP g).channels = g.channels := rfl
  have hty : (Graph.scrubTP g).types = g.types := rfl
  have hn : (Graph.scrubTP g).nodes.map (fun (kn : String × Node) => (kn.1, { kn.2 with pinTypes := kn.2.pinTypes.map (fun (pt : String × SType) => (pt.1, lithify pt.2)), typeParams := ([] : List (String × String)) })) = g.nodes.map (fun (kn : String × Node) => (kn.1, { kn.2 with pinTypes := kn.2.pinTypes.map (fun (pt : String × SType) => (pt.1, lithify pt.2)), typeParams := ([] : List (String × String)) })) := by
    show (g.nodes.map (fun kn => (kn.1, scrubNode kn.2))).map (fun (kn : String × Node) => (kn.1, { kn.2 with pinTypes := kn.2.pinTypes.map (fun (pt : String × SType) => (pt.1, lithify pt.2)), typeParams := ([] : List (String × String)) })) = _
    rw [List.map_map]
    rfl
  rw [hch, hty, hn]
  rfl

theorem setup_scrub (g : Graph) :
    Graph.scrubTP g.inferSetup = (eraseTransient g).inferSetup := by
  unfold Graph.scrubTP Graph.inferSetup eraseTransient
  congr 1
  · rw [List.map_map, List.map_map]
    rfl
  · rw [List.map_map]
    rfl

theorem setup_channels (g : Graph) :
    g.inferSetup.channels = (eraseTransient g).inferSetup.channels := by
  have h : g.inferSetup.channels = (Graph.scrubTP g.inferSetup).channels := rfl
  rw [h, setup_scrub]

theorem numPinSlots_erase (g : Graph) : (eraseTransient g).numPinSlots = g.numPinSlots := by
  show (g.nodes.map (fun (kn : String × Node) => (kn.1, { kn.2 with pinTypes := ([] : List (String × SType)), typeParams := ([] : List (String × String)) }))).foldl (fun (a : Nat) (kn : String × Node) => a + kn.2.partPins.length) 0 = g.nodes.foldl (fun (a : Nat) (kn : String × Node) => a + kn.2.partPins.length) 0
  rw [List.foldl_map]

theorem chanLen_erase (g : Graph) : (eraseTransient g).channels.length = g.channels.length := by
  show (g.channels.map (fun (kc : String × Channel) => (kc.1, ({ kc.2 with type := (none : Option SType) } : Channel)))).length = _
  rw [List.length_map]

theorem fuel_erase (g : Graph) : (eraseTransient g).inferFuel = g.inferFuel := by
  unfold Graph.inferFuel
  rw [numPinSlots_erase, chanLen_erase]

theorem setup_channels_lookup (g : Graph) (k : String) :
    g.inferSetup.channels.lookup k =
      (g.channels.lookup k).map (fun c => { c with type := (none : Option SType) }) :=
  @lookup_mapVal Channel Channel (fun (kc : String × Channel) => { kc.2 with type := (none : Option SType) }) g.channels k

theorem setup_nodes_lookup (g : Graph) (k : String) :
    g.inferSetup.nodes.lookup k =
      (g.nodes.lookup k).map (fun nd => { nd with pinTypes := nd.partPins.map (fun pd => (pd.1, instantiateDecl nd.name pd.2)) }) :=
  @lookup_mapVal Node Node (fun (kn : String × Node) => { kn.2 with pinTypes := kn.2.partPins.map (fun pd => (pd.1, instantiateDecl kn.2.name pd.2)) }) g.nodes k

/-- C5 (confirmed): a pass starts from a fresh inference map, re-instantiated
pin types and unset channel types, and its whole result is a function of the
wiring alone: two graphs that agree after blanking all transient type state
(inference map, pin types, published bindings, channel types) yield
identical `InferTypes` results, error or success. -/
theorem claim_C5 (g1 g2 : Graph) (h : eraseTransient g1 = eraseTransient g2) :
    g1.inferSetup.types = [] ∧
    (∀ k c, g1.inferSetup.channels.lookup k = some c → c.type = none) ∧
    (∀ k nd, g1.inferSetup.nodes.lookup k = some nd →
      nd.pinTypes = nd.partPins.map (fun pd => (pd.1, instantiateDecl nd.name pd.2))) ∧
    g1.InferTypes = g2.InferTypes := by
  refine ⟨rfl, ?_, ?_, ?_⟩
  · intro k c hkc
    rw [setup_channels_lookup] at hkc
    cases hk0 : g1.channels.lookup k with
    | none =>
      rw [hk0] at hkc
      exact Option.noConfusion hkc
    | some c0 =>
      rw [hk0, Option.map_some'] at hkc
      rw [← Option.some.inj hkc]
  · intro k nd hknd
    rw [setup_nodes_lookup] at hknd
    cases hk0 : g1.nodes.lookup k with
    | none =>
      rw [hk0] at hknd
      exact Option.noConfusion hknd
    | some nd0 =>
      rw [hk0, Option.map_some'] at hknd
      rw [← Option.some.inj hknd]
  · have hsetup : Graph.scrubTP g1.inferSetup = Graph.scrubTP g2.inferSetup := by
      rw [setup_scrub, setup_scrub, h]
    have hfuel : g1.inferFuel = g2.inferFuel := by
      rw [← fuel_erase g1, ← fuel_erase g2, h]
    have hq : g1.inferSetup.channels.map Prod.fst = g2.inferSetup.channels.map Prod.fst := by
      rw [setup_channels g1, setup_channels g2, h]
    have hflood : ∀ fuel q, (floodFillN fuel g1.inferSetup q).map Graph.scrubTP =
        (floodFillN fuel g2.inferSetup q).map Graph.scrubTP := by
      intro fuel q
      rw [← floodFillN_scrub, ← floodFillN_scrub, hsetup]
    unfold Graph.InferTypes
    rw [hfuel, hq]
    have hf := hflood g2.inferFuel (g2.inferSetup.channels.map Prod.fst)
    cases h1 : floodFillN g2.inferFuel g1.inferSetup (g2.inferSetup.channels.map Prod.fst) with
    | none =>
      cases h2 : floodFillN g2.inferFuel g2.inferSetup (g2.inferSetup.channels.map Prod.fst) with
      | none => rfl
      | some gb =>
        rw [h1, h2] at hf
        simp at hf
    | some ga =>
      cases h2 : floodFillN g2.inferFuel g2.inferSetup (g2.inferSetup.channels.map Prod.fst) with
      | none =>
        rw [h1, h2] at hf
        simp at hf
      | some gb =>
        rw [h1, h2, Option.map_some', Option.map_some'] at hf
        have hscr : Graph.scrubTP ga = Graph.scrubTP gb := Option.some.inj hf
        have hfin : ga.inferFinalize = gb.inferFinalize := by
          rw [← inferFinalize_scrub ga, ← inferFinalize_scrub gb, hscr]
        show (Except.ok ga.inferFinalize : Except String Graph) = .ok gb.inferFinalize
        rw [hfin]

/-- Witness for C5: `scenarioA` and `scenarioA_dirty` differ exactly in
leftover transient type state, and the theorem applies. -/
theorem claim_C5_witness :
    eraseTransient scenarioA = eraseTransient scenarioA_dirty ∧
    (scenarioA.inferSetup.types = [] ∧
    (∀ k c, scenarioA.inferSetup.channels.lookup k = some c → c.type = none) ∧
    (∀ k nd, scenarioA.inferSetup.nodes.lookup k = some nd →
      nd.pinTypes = nd.partPins.map (fun pd => (pd.1, instantiateDecl nd.name pd.2))) ∧
    scenarioA.InferTypes = scenarioA_dirty.InferTypes) :=
  ⟨by decide, claim_C5 scenarioA scenarioA_dirty (by decide)⟩

end FreshState

section UnconnectedPins

theorem applyTPCollect_nil (conns : List (String × String)) (p : String) (l : List String)
    (hl : ¬"nil" ∈ l) : ¬"nil" ∈ applyTPCollect conns p l := by
  unfold applyTPCollect
  split
  next => exact hl
  next cn hc =>
    by_cases hnil : cn = "nil"
    · rw [if_pos hnil]
      exact hl
    · rw [if_neg hnil]
      unfold addUnique
      by_cases hmem : cn ∈ l
      · rw [if_pos hmem]
        exact hl
      · rw [if_neg hmem]
        intro hin
        rcases List.mem_append.mp hin with h1 | h2
        · exact hl h1
        · exact hnil (List.mem_singleton.mp h2).symm

theorem applyTPStep_nil (conns : List (String × String)) (m : TIMap)
    (acc : Node × List String) (pt : String × SType)
    (hl : ¬"nil" ∈ acc.2) : ¬"nil" ∈ (applyTPStep conns m acc pt).2 := by
  unfold applyTPStep
  by_cases hr : resolve m pt.2 = pt.2
  · rw [if_pos hr]
    exact hl
  · rw [if_neg hr]
    exact applyTPCollect_nil conns pt.1 acc.2 hl

theorem applyTPFold_nil (conns : List (String × String)) (m : TIMap) :
    ∀ (pts : List (String × SType)) (acc : Node × List String),
      ¬"nil" ∈ acc.2 → ¬"nil" ∈ (pts.foldl (applyTPStep conns m) acc).2 := by
  intro pts
  induction pts with
  | nil =>
    intro acc hl
    exact hl
  | cons pt rest ih =>
    intro acc hl
    rw [List.foldl_cons]
    exact ih _ (applyTPStep_nil conns m acc pt hl)

/-- C6 (corrected): unconnected pins never constrain a channel. Every pin a
rebuilt cache holds traces to a connection entry naming that registered
channel's key — never the `"nil"` sentinel (given no channel is literally
named `"nil"`) — and the refinement loop never pushes the sentinel onto the
worklist. (The claim's other half is false — see
`claim_C6_counterexample`: an unconnected pin's own type is re-instantiated,
refined with the node's bindings and lithified, so a generic unconnected
pin ends as `interface\x7b\x7d` rather than untouched.) -/
theorem claim_C6 (g : Graph) (h : GraphWF g) (hnilc : g.channels.lookup "nil" = none) :
    (∀ k c, g.rebuildPins.channels.lookup k = some c → ¬k = "nil" ∧
      ∀ np ∈ c.pins, ∃ n, g.nodes.lookup np.node = some n ∧
        n.connections.lookup np.pin = some k) ∧
    (∀ (n : Node) (m : TIMap), ¬"nil" ∈ (n.applyTypeParams m).2) := by
  obtain ⟨hndN, hndC, hnmN, hnmC, hconnN⟩ := h
  constructor
  · intro k c hkc
    obtain ⟨⟨c0, hc0⟩, hprov⟩ := rebuildPins_provenance g k c hkc
    constructor
    · intro hk
      rw [hk, hnilc] at hc0
      exact Option.noConfusion hc0
    · intro np hnp
      obtain ⟨e, he, pc, hpc, _, hpck, hnp2⟩ := hprov np hnp
      refine ⟨e.2, ?_, ?_⟩
      · rw [hnp2]
        show g.nodes.lookup e.2.name = some e.2
        rw [hnmN e he]
        exact mem_lookup hndN (by
          have hee : (e.1, e.2) = e := rfl
          rw [hee]
          exact he)
      · have hpin : np.pin = pc.1 := by rw [hnp2]
        rw [hpin, ← hpck]
        exact mem_lookup (hconnN e he) (by
          have hee : (pc.1, pc.2) = pc := rfl
          rw [hee]
          exact hpc)
  · intro n m
    show ¬"nil" ∈ (n.pinTypes.foldl (applyTPStep n.connections m) (n, [])).2
    exact applyTPFold_nil n.connections m n.pinTypes (n, []) (List.not_mem_nil _)

/-- Witness for C6 on `scenarioA`. -/
theorem claim_C6_witness :
    GraphWF scenarioA ∧ scenarioA.channels.lookup "nil" = none ∧
    ((∀ k c, scenarioA.rebuildPins.channels.lookup k = some c → ¬k = "nil" ∧
      ∀ np ∈ c.pins, ∃ n, scenarioA.nodes.lookup np.node = some n ∧
        n.connections.lookup np.pin = some k) ∧
    (∀ (n : Node) (m : TIMap), ¬"nil" ∈ (n.applyTypeParams m).2)) :=
  ⟨by decide, by rfl, claim_C6 scenarioA (by decide) (by rfl)⟩

end UnconnectedPins

end Spec2Proof
